import Mathlib

/-!
Verification of the static-analysis module of the solana-rpdf repository
(`src/static_analysis.rs`), against its natural-language specification.

The Rust data model and algorithms are shallowly embedded below:
`BTreeMap`/`BTreeSet` become sorted association lists, `usize` becomes `Nat`
(with the `usize::MAX` sentinel kept as an explicit constant and two's
complement casts made explicit), panics (`unwrap`, `unreachable!`) become
`Option.none`, and the three unbounded loops (the iterative Tarjan DFS, the
dominance fixed-point loop and the inter-basic-block propagation loop) take
an explicit fuel argument, returning `none` when the fuel runs out.

The instruction-word decoding helpers (`get_insn_unchecked`,
`augment_lddw_unchecked`) and the opcode constants live in `ebpf.rs`, which
is not part of the sources under review; they are modelled from the spec's
wire format: byte 0 = opcode, byte 1 = dst (low nibble) | src (high nibble),
bytes 2-3 = off (i16 LE), bytes 4-7 = imm (i32 LE), with the wide-immediate
load occupying two consecutive words whose second `imm` supplies the high
32 bits.  We work at word granularity: a `RawIns` is an already field-split
8-byte instruction record.
-/

set_option autoImplicit false

namespace SolanaRpdf

/-- usize::MAX, the sentinel the Rust code stores in not-yet-assigned
`scc_id`, `index_in_scc`, `dominator_parent` and Tarjan `discovery` /
`lowlink` fields. -/
def SENTINEL : Nat := 2 ^ 64 - 1

/-- Interpret an integer as a Rust `usize` cast (`as usize`): two's
complement modulo 2^64, yielding a `Nat`. -/
def usizeOfInt (i : Int) : Nat := (i % (2 ^ 64 : Int)).toNat

/-- Interpret an integer as a Rust `u32` cast (`as u32`). -/
def u32OfInt (i : Int) : Nat := (i % (2 ^ 32 : Int)).toNat

/-- Interpret an integer as a Rust `u8` cast (`as u8`). -/
def u8OfInt (i : Int) : Nat := (i % (2 ^ 8 : Int)).toNat

/-- Reinterpret a `Nat` below 2^64 as a signed 64 bit value (`as i64`). -/
def i64OfNat (n : Nat) : Int :=
  if n < 2 ^ 63 then (n : Int) else (n : Int) - 2 ^ 64

namespace Ebpf

/-! Opcode constants, modelled from the spec and the standard eBPF opcode
assignment (`ebpf.rs` is not under review). -/

def INSN_SIZE : Nat := 8

def LD_ABS_B : Nat := 0x30
def LD_ABS_H : Nat := 0x28
def LD_ABS_W : Nat := 0x20
def LD_ABS_DW : Nat := 0x38
def LD_IND_B : Nat := 0x50
def LD_IND_H : Nat := 0x48
def LD_IND_W : Nat := 0x40
def LD_IND_DW : Nat := 0x58
def LD_DW_IMM : Nat := 0x18
def LD_B_REG : Nat := 0x71
def LD_H_REG : Nat := 0x69
def LD_W_REG : Nat := 0x61
def LD_DW_REG : Nat := 0x79
def ST_B_IMM : Nat := 0x72
def ST_H_IMM : Nat := 0x6a
def ST_W_IMM : Nat := 0x62
def ST_DW_IMM : Nat := 0x7a
def ST_B_REG : Nat := 0x73
def ST_H_REG : Nat := 0x6b
def ST_W_REG : Nat := 0x63
def ST_DW_REG : Nat := 0x7b

def ADD32_IMM : Nat := 0x04
def ADD32_REG : Nat := 0x0c
def SUB32_IMM : Nat := 0x14
def SUB32_REG : Nat := 0x1c
def MUL32_IMM : Nat := 0x24
def MUL32_REG : Nat := 0x2c
def DIV32_IMM : Nat := 0x34
def DIV32_REG : Nat := 0x3c
def OR32_IMM : Nat := 0x44
def OR32_REG : Nat := 0x4c
def AND32_IMM : Nat := 0x54
def AND32_REG : Nat := 0x5c
def LSH32_IMM : Nat := 0x64
def LSH32_REG : Nat := 0x6c
def RSH32_IMM : Nat := 0x74
def RSH32_REG : Nat := 0x7c
def NEG32 : Nat := 0x84
def MOD32_IMM : Nat := 0x94
def MOD32_REG : Nat := 0x9c
def XOR32_IMM : Nat := 0xa4
def XOR32_REG : Nat := 0xac
def MOV32_IMM : Nat := 0xb4
def MOV32_REG : Nat := 0xbc
def ARSH32_IMM : Nat := 0xc4
def ARSH32_REG : Nat := 0xcc
def LE : Nat := 0xd4
def BE : Nat := 0xdc

def ADD64_IMM : Nat := 0x07
def ADD64_REG : Nat := 0x0f
def SUB64_IMM : Nat := 0x17
def SUB64_REG : Nat := 0x1f
def MUL64_IMM : Nat := 0x27
def MUL64_REG : Nat := 0x2f
def DIV64_IMM : Nat := 0x37
def DIV64_REG : Nat := 0x3f
def OR64_IMM : Nat := 0x47
def OR64_REG : Nat := 0x4f
def AND64_IMM : Nat := 0x57
def AND64_REG : Nat := 0x5f
def LSH64_IMM : Nat := 0x67
def LSH64_REG : Nat := 0x6f
def RSH64_IMM : Nat := 0x77
def RSH64_REG : Nat := 0x7f
def NEG64 : Nat := 0x87
def MOD64_IMM : Nat := 0x97
def MOD64_REG : Nat := 0x9f
def XOR64_IMM : Nat := 0xa7
def XOR64_REG : Nat := 0xaf
def MOV64_IMM : Nat := 0xb7
def MOV64_REG : Nat := 0xbf
def ARSH64_IMM : Nat := 0xc7
def ARSH64_REG : Nat := 0xcf

def JA : Nat := 0x05
def JEQ_IMM : Nat := 0x15
def JEQ_REG : Nat := 0x1d
def JGT_IMM : Nat := 0x25
def JGT_REG : Nat := 0x2d
def JGE_IMM : Nat := 0x35
def JGE_REG : Nat := 0x3d
def JLT_IMM : Nat := 0xa5
def JLT_REG : Nat := 0xad
def JLE_IMM : Nat := 0xb5
def JLE_REG : Nat := 0xbd
def JSET_IMM : Nat := 0x45
def JSET_REG : Nat := 0x4d
def JNE_IMM : Nat := 0x55
def JNE_REG : Nat := 0x5d
def JSGT_IMM : Nat := 0x65
def JSGT_REG : Nat := 0x6d
def JSGE_IMM : Nat := 0x75
def JSGE_REG : Nat := 0x7d
def JSLT_IMM : Nat := 0xc5
def JSLT_REG : Nat := 0xcd
def JSLE_IMM : Nat := 0xd5
def JSLE_REG : Nat := 0xdd
def CALL_IMM : Nat := 0x85
def CALL_REG : Nat := 0x8d
def EXIT : Nat := 0x95

/-- First callee-saved ("non scratch") register boundary (`ebpf.rs`). -/
def FIRST_SCRATCH_REG : Nat := 6
/-- Number of scratch registers (`ebpf.rs`). -/
def SCRATCH_REGS : Nat := 4

end Ebpf

/-- An 8-byte instruction record as it sits in the program text, already
split into its fields (the byte-level packing of the wire format is
bijective and is not material to any claim): `opc` is the opcode byte,
`dst`/`src` are the two register nibbles, `off` the signed 16-bit offset
and `imm` the signed 32-bit immediate. -/
structure RawIns where
  opc : Nat
  dst : Nat
  src : Nat
  off : Int
  imm : Int
  deriving DecidableEq, Repr

/-- A decoded instruction, mirror of `ebpf::Insn`: `ptr` is the index of
the first word of the instruction in the program text, `imm` is an `i64`
(64 bits after a wide-immediate load has been augmented). -/
structure Insn where
  ptr : Nat
  opc : Nat
  dst : Nat
  src : Nat
  off : Int
  imm : Int
  deriving DecidableEq, Repr

/-- Modelled from the spec: `ebpf::augment_lddw_unchecked` folds the `imm`
of the second word of a wide-immediate pair into the high 32 bits of the
decoded 64-bit constant. -/
def augmentImm (lo hi : Int) : Int :=
  i64OfNat (u32OfInt lo + u32OfInt hi * 2 ^ 32)

/-- The instruction-decoding loop of `Analysis::from_executable`
(`static_analysis.rs` lines 126-139), walking the not-yet-consumed words
with `i` the word index of the list head: a `LD_DW_IMM` consumes two words
(its pair augmenting the immediate), and a trailing `LD_DW_IMM` first half
with no second word stops the loop without being pushed.
`ebpf::get_insn_unchecked` (modelled from the spec) fills the fields and
sets `ptr := i`. -/
def decodeAux : List RawIns → Nat → List Insn
  | [], _ => []
  | w :: rest, i =>
    if w.opc = Ebpf.LD_DW_IMM then
      match rest with
      | [] => []
      | w2 :: rest2 =>
        { ptr := i, opc := w.opc, dst := w.dst, src := w.src, off := w.off,
          imm := augmentImm w.imm w2.imm } :: decodeAux rest2 (i + 2)
    else
      { ptr := i, opc := w.opc, dst := w.dst, src := w.src, off := w.off,
        imm := w.imm } :: decodeAux rest (i + 1)

/-- Decoding of a whole program (the `while` loop starting at `insn_ptr = 0`). -/
def decodeProgram (prog : List RawIns) : List Insn := decodeAux prog 0

/-!  `BTreeMap<usize, _>` is embedded as an association list sorted strictly
ascending by key; insertion keeps it sorted, and iteration order (plain list
order) is the map's ascending key order, as in Rust. -/

/-- Lookup in an association list with `Nat` keys (`BTreeMap::get`). -/
def nfind? {β : Type} : List (Nat × β) → Nat → Option β
  | [], _ => none
  | (k, v) :: t, a => if a = k then some v else nfind? t a

/-- Key membership (`BTreeMap::contains_key`). -/
def ncontains {β : Type} (m : List (Nat × β)) (a : Nat) : Bool :=
  (nfind? m a).isSome

/-- Insert or replace, keeping the list sorted (`BTreeMap::insert`). -/
def nset {β : Type} (k : Nat) (v : β) : List (Nat × β) → List (Nat × β)
  | [] => [(k, v)]
  | (k', v') :: t =>
    if k < k' then (k, v) :: (k', v') :: t
    else if k = k' then (k, v) :: t
    else (k', v') :: nset k v t

/-- Insert only when the key is absent, the effect of
`entry(k).or_insert_with(CfgNode::default)`. -/
def ninsertIfAbsent {β : Type} (k : Nat) (v : β) (m : List (Nat × β)) :
    List (Nat × β) :=
  if ncontains m k then m else nset k v m

/-- Update the value at a key, failing (like `get_mut(..).unwrap()`) when
the key is absent. -/
def nmodify? {β : Type} (k : Nat) (f : β → β) :
    List (Nat × β) → Option (List (Nat × β))
  | [] => none
  | (k', v') :: t =>
    if k = k' then some ((k', f v') :: t)
    else match nmodify? k f t with
      | some t' => some ((k', v') :: t')
      | none => none

/-- The keys, in iteration (ascending) order. -/
def nkeys {β : Type} (m : List (Nat × β)) : List Nat := m.map Prod.fst

/-! Data-flow graph node, resource, edge kind and edge, mirroring the Rust
types and their `derive(PartialOrd, Ord)` orders (variant order first, then
the payloads in field order). -/

/-- An instruction or Φ node of the data-flow graph (`DfgNode`). -/
inductive DfgNode where
  /-- Points to a single instruction (`DfgNode::InstructionNode`). -/
  | instructionNode (pc : Nat)
  /-- A basic block that starts with a Φ node (`DfgNode::PhiNode`). -/
  | phiNode (basicBlockStart : Nat)
  deriving DecidableEq, Repr

/-- The register or memory location a data-flow edge guards (`DataResource`). -/
inductive DataResource where
  | register (r : Nat)
  | memory
  deriving DecidableEq, Repr

/-- The kind of a data-flow edge (`DfgEdgeKind`). -/
inductive DfgEdgeKind where
  | filled
  | empty
  deriving DecidableEq, Repr

/-- An edge of the data-flow graph (`DfgEdge`). -/
structure DfgEdge where
  source : DfgNode
  destination : DfgNode
  kind : DfgEdgeKind
  resource : DataResource
  deriving DecidableEq, Repr

/-- The derived `Ord` of `DfgNode`: `InstructionNode(_) < PhiNode(_)`, then
by payload. -/
def DfgNode.cmp : DfgNode → DfgNode → Ordering
  | .instructionNode a, .instructionNode b => compare a b
  | .instructionNode _, .phiNode _ => .lt
  | .phiNode _, .instructionNode _ => .gt
  | .phiNode a, .phiNode b => compare a b

/-- The derived `Ord` of `DataResource`: `Register(_) < Memory`. -/
def DataResource.cmp : DataResource → DataResource → Ordering
  | .register a, .register b => compare a b
  | .register _, .memory => .lt
  | .memory, .register _ => .gt
  | .memory, .memory => .eq

/-- The derived `Ord` of `DfgEdgeKind`: `Filled < Empty`. -/
def DfgEdgeKind.cmp : DfgEdgeKind → DfgEdgeKind → Ordering
  | .filled, .filled => .eq
  | .filled, .empty => .lt
  | .empty, .filled => .gt
  | .empty, .empty => .eq

/-- The derived `Ord` of `DfgEdge`: lexicographic over the fields in
declaration order. -/
def DfgEdge.cmp (a b : DfgEdge) : Ordering :=
  (DfgNode.cmp a.source b.source).then
    ((DfgNode.cmp a.destination b.destination).then
      ((DfgEdgeKind.cmp a.kind b.kind).then
        (DataResource.cmp a.resource b.resource)))

/-- `BTreeSet<DfgEdge>` as a list sorted by `DfgEdge.cmp`; insertion keeps
an already-present equal element (`BTreeSet::insert`). -/
def einsert (e : DfgEdge) : List DfgEdge → List DfgEdge
  | [] => [e]
  | x :: t =>
    match DfgEdge.cmp e x with
    | .lt => e :: x :: t
    | .eq => x :: t
    | .gt => x :: einsert e t

/-- Lookup in an association list with `DfgNode` keys
(`BTreeMap<DfgNode, _>::get`). -/
def dfind? {β : Type} : List (DfgNode × β) → DfgNode → Option β
  | [], _ => none
  | (k, v) :: t, a => if a = k then some v else dfind? t a

/-- Key membership for `DfgNode`-keyed maps. -/
def dcontains {β : Type} (m : List (DfgNode × β)) (a : DfgNode) : Bool :=
  (dfind? m a).isSome

/-- Insert or replace for `DfgNode`-keyed maps, sorted by `DfgNode.cmp`. -/
def dset {β : Type} (k : DfgNode) (v : β) : List (DfgNode × β) → List (DfgNode × β)
  | [] => [(k, v)]
  | (k', v') :: t =>
    match DfgNode.cmp k k' with
    | .lt => (k, v) :: (k', v') :: t
    | .eq => (k, v) :: t
    | .gt => (k', v') :: dset k v t

/-- Remove a `DfgNode` key (`BTreeMap::remove`; on the duplicate-free maps
this development builds, dropping every pair with the key is the same as
removing its single occurrence). -/
def derase (k : DfgNode) (m : List (DfgNode × List DfgEdge)) :
    List (DfgNode × List DfgEdge) :=
  m.filter (fun p => p.1 ≠ k)

/-- A node of the control-flow graph (`CfgNode`); the `instructions` range
is kept as its two endpoints `instructionsStart`/`instructionsEnd`. -/
structure CfgNode where
  label : String
  sources : List Nat
  destinations : List Nat
  instructionsStart : Nat
  instructionsEnd : Nat
  sccId : Nat
  indexInScc : Nat
  dominatorParent : Nat
  dominatedChildren : List Nat
  deriving DecidableEq, Repr

/-- `CfgNode::default()`: empty lists, range `0..0` and `usize::MAX`
sentinels. -/
def CfgNode.default : CfgNode :=
  { label := ""
    sources := []
    destinations := []
    instructionsStart := 0
    instructionsEnd := 0
    sccId := SENTINEL
    indexInScc := SENTINEL
    dominatorParent := SENTINEL
    dominatedChildren := [] }

/-- The executable the analysis runs on.  `Executable` is a trait whose
implementations (ELF loader, assembler) are outside the sources under
review; the analysis only consumes the parts modelled here:
`get_text_bytes` (already decoded to words), `get_symbols` (the `syscalls`
and `functions` tables), `lookup_bpf_function` and
`get_entrypoint_instruction_offset`. -/
structure Exe where
  prog : List RawIns
  syscalls : List (Nat × String)
  functions : List (Nat × (Nat × String))
  lookupBpfFunction : Nat → Option Nat
  entrypoint : Nat

/-- Result of the executable analysis (`Analysis`), minus the back
reference to the executable itself. -/
structure Analysis where
  instructions : List Insn
  syscalls : List (Nat × String)
  functions : List (Nat × (Nat × String))
  cfgNodes : List (Nat × CfgNode)
  topologicalOrder : List Nat
  entrypoint : Nat
  dfgForwardEdges : List (DfgNode × List DfgEdge)
  dfgReverseEdges : List (DfgNode × List DfgEdge)
  deriving DecidableEq

/-- The fresh `Analysis` built at the top of `from_executable`, before the
pipeline phases run. -/
def initialAnalysis (exe : Exe) : Analysis :=
  { instructions := decodeProgram exe.prog
    syscalls := exe.syscalls
    functions := exe.functions
    cfgNodes := []
    topologicalOrder := []
    entrypoint := exe.entrypoint
    dfgForwardEdges := []
    dfgReverseEdges := [] }

/-- `Analysis::link_cfg_edges`: optionally replace each source's
`destinations`, and push the source onto every destination's `sources`;
a missing node is an `unwrap` panic. -/
def linkCfgEdges (cfgNodes : List (Nat × CfgNode))
    (cfgEdges : List (Nat × List Nat)) (bothDirections : Bool) :
    Option (List (Nat × CfgNode)) :=
  cfgEdges.foldl
    (fun acc p =>
      match acc with
      | none => none
      | some m =>
        let m1 :=
          if bothDirections then
            nmodify? p.1 (fun node => { node with destinations := p.2 }) m
          else some m
        match m1 with
        | none => none
        | some m1 =>
          p.2.foldl
            (fun acc2 d =>
              match acc2 with
              | none => none
              | some m2 =>
                nmodify? d (fun node =>
                  { node with sources := node.sources ++ [p.1] }) m2)
            (some m1))
    (some cfgNodes)

/-- Does some decoded instruction start at word index `k`?  This is the
`binary_search_by(|insn| insn.ptr.cmp(&cfg_node_start))` test used to drop
orphan block starts. -/
def isInsnPtr (insns : List Insn) (k : Nat) : Bool :=
  insns.any (fun insn => insn.ptr = k)

/-- The first pass of `split_into_basic_blocks` (lines 183-270): collect
block starts into `cfg_nodes` and the control-flow edges of terminator
instructions into `cfg_edges`, one decoded instruction at a time. -/
def collectEdges (exe : Exe) (flattenCallGraph : Bool)
    (insn : Insn)
    (st : List (Nat × CfgNode) × List (Nat × (Nat × List Nat))) :
    List (Nat × CfgNode) × List (Nat × (Nat × List Nat)) :=
  let cfgNodes := st.1
  let cfgEdges := st.2
  let targetPc := usizeOfInt ((insn.ptr : Int) + insn.off + 1)
  if insn.opc = Ebpf.CALL_IMM then
    match nfind? exe.syscalls (u32OfInt insn.imm) with
    | some syscallName =>
      if syscallName = "abort" then
        (ninsertIfAbsent (insn.ptr + 1) CfgNode.default cfgNodes,
         nset insn.ptr (insn.opc, []) cfgEdges)
      else (cfgNodes, cfgEdges)
    | none =>
      match exe.lookupBpfFunction (u32OfInt insn.imm) with
      | some target =>
        (ninsertIfAbsent target CfgNode.default
          (ninsertIfAbsent (insn.ptr + 1) CfgNode.default cfgNodes),
         nset insn.ptr
           (insn.opc,
            if flattenCallGraph then [insn.ptr + 1, target] else [insn.ptr + 1])
           cfgEdges)
      | none => (cfgNodes, cfgEdges)
  else if insn.opc = Ebpf.CALL_REG then
    (ninsertIfAbsent (insn.ptr + 1) CfgNode.default cfgNodes,
     nset insn.ptr (insn.opc, [insn.ptr + 1]) cfgEdges)
  else if insn.opc = Ebpf.EXIT then
    (ninsertIfAbsent (insn.ptr + 1) CfgNode.default cfgNodes,
     nset insn.ptr (insn.opc, []) cfgEdges)
  else if insn.opc = Ebpf.JA then
    (ninsertIfAbsent targetPc CfgNode.default
      (ninsertIfAbsent (insn.ptr + 1) CfgNode.default cfgNodes),
     nset insn.ptr (insn.opc, [targetPc]) cfgEdges)
  else if insn.opc = Ebpf.JEQ_IMM ∨ insn.opc = Ebpf.JGT_IMM ∨
      insn.opc = Ebpf.JGE_IMM ∨ insn.opc = Ebpf.JLT_IMM ∨
      insn.opc = Ebpf.JLE_IMM ∨ insn.opc = Ebpf.JSET_IMM ∨
      insn.opc = Ebpf.JNE_IMM ∨ insn.opc = Ebpf.JSGT_IMM ∨
      insn.opc = Ebpf.JSGE_IMM ∨ insn.opc = Ebpf.JSLT_IMM ∨
      insn.opc = Ebpf.JSLE_IMM ∨ insn.opc = Ebpf.JEQ_REG ∨
      insn.opc = Ebpf.JGT_REG ∨ insn.opc = Ebpf.JGE_REG ∨
      insn.opc = Ebpf.JLT_REG ∨ insn.opc = Ebpf.JLE_REG ∨
      insn.opc = Ebpf.JSET_REG ∨ insn.opc = Ebpf.JNE_REG ∨
      insn.opc = Ebpf.JSGT_REG ∨ insn.opc = Ebpf.JSGE_REG ∨
      insn.opc = Ebpf.JSLT_REG ∨ insn.opc = Ebpf.JSLE_REG then
    (ninsertIfAbsent targetPc CfgNode.default
      (ninsertIfAbsent (insn.ptr + 1) CfgNode.default cfgNodes),
     nset insn.ptr (insn.opc, [insn.ptr + 1, targetPc]) cfgEdges)
  else (cfgNodes, cfgEdges)

/-- Worker for `advance`, walking the instructions not yet consumed. -/
def advanceFrom : List Insn → Nat → Nat → Nat
  | [], _, idx => idx
  | insn :: rest, bound, idx =>
    if insn.ptr ≤ bound then advanceFrom rest bound (idx + 1) else idx

/-- The inner `while` of the range-assignment loop: advance
`instruction_index` while the instruction at it starts at or before
`bound` (the last word index belonging to the current block). -/
def advance (insns : List Insn) (bound : Nat) (idx : Nat) : Nat :=
  advanceFrom (insns.drop idx) bound idx

/-- The range-assignment walk of `split_into_basic_blocks` (lines
300-332): each block in ascending key order receives the instruction-index
range up to the next block's start (or the last instruction), consumes the
pending control-flow edge that falls inside it (taking its destinations),
and otherwise falls through to the next block unless it starts a function.
`lastPtr?` is `instructions.last()`, whose `unwrap` fails on an empty
instruction list. -/
def walkNodes (insns : List Insn) (functions : List (Nat × (Nat × String)))
    (lastPtr? : Option Nat) :
    List (Nat × CfgNode) → List (Nat × (Nat × List Nat)) → Nat →
    Option (List (Nat × CfgNode))
  | [], _, _ => some []
  | (k, node) :: rest, cfgEdges, idx =>
    let nodeEnd? : Option Nat :=
      match rest with
      | (k2, _) :: _ => some (k2 - 1)
      | [] => lastPtr?
    match nodeEnd? with
    | none => none
    | some nodeEnd =>
      let newIdx := advance insns nodeEnd idx
      let node1 : CfgNode :=
        { node with
          instructionsStart := idx
          instructionsEnd := if idx < newIdx then newIdx else node.instructionsEnd }
      match cfgEdges with
      | (edgeKey, edgeVal) :: erest =>
        if edgeKey ≤ nodeEnd then
          match walkNodes insns functions lastPtr? rest erest newIdx with
          | none => none
          | some rest' =>
            some ((k, { node1 with destinations := edgeVal.2 }) :: rest')
        else
          let node2 : CfgNode :=
            match rest with
            | (k2, _) :: _ =>
              if ncontains functions k then node1
              else { node1 with destinations := node1.destinations ++ [k2] }
            | [] => node1
          match walkNodes insns functions lastPtr? rest cfgEdges newIdx with
          | none => none
          | some rest' => some ((k, node2) :: rest')
      | [] =>
        let node2 : CfgNode :=
          match rest with
          | (k2, _) :: _ =>
            if ncontains functions k then node1
            else { node1 with destinations := node1.destinations ++ [k2] }
          | [] => node1
        match walkNodes insns functions lastPtr? rest [] newIdx with
        | none => none
        | some rest' => some ((k, node2) :: rest')

/-- The extra pass run under `flatten_call_graph = true` (lines 340-361):
give each function-exit block the return addresses of the function's
callers as destinations.  (Dead under `from_executable`, which passes
`false`.)  Out-of-range instruction indexing is an implicit panic. -/
def flattenCollect (insns : List Insn) (functions : List (Nat × (Nat × String)))
    (cfgNodes : List (Nat × CfgNode)) :
    List (Nat × CfgNode) → List Nat → List (Nat × List Nat) →
    Option (List (Nat × List Nat))
  | [], _, acc => some acc
  | (source, node) :: rest, dests, acc =>
    let dests? : Option (List Nat) :=
      if ncontains functions source then
        node.sources.foldr
          (fun d acc2 =>
            match acc2 with
            | none => none
            | some l =>
              match nfind? cfgNodes d with
              | none => none
              | some dn =>
                match insns.get? dn.instructionsEnd with
                | none => none
                | some insn => some (insn.ptr :: l))
          (some [])
      else some dests
    match dests? with
    | none => none
    | some dests' =>
      if node.destinations.isEmpty then
        if node.instructionsEnd = 0 then none
        else
          match insns.get? (node.instructionsEnd - 1) with
          | none => none
          | some lastInsn =>
            if lastInsn.opc = Ebpf.EXIT then
              flattenCollect insns functions cfgNodes rest dests'
                (acc ++ [(source, dests')])
            else flattenCollect insns functions cfgNodes rest dests' acc
      else flattenCollect insns functions cfgNodes rest dests' acc

/-- The seeded node map of `split_into_basic_blocks`: a default block start
at every function entry. -/
def splitNodes0 (a : Analysis) : List (Nat × CfgNode) :=
  a.functions.foldl (fun m p => ninsertIfAbsent p.1 CfgNode.default m)
    a.cfgNodes

/-- The first-pass scan of `split_into_basic_blocks` over all decoded
instructions. -/
def splitScanned (exe : Exe) (a : Analysis) (flattenCallGraph : Bool) :
    List (Nat × CfgNode) × List (Nat × (Nat × List Nat)) :=
  a.instructions.foldl
    (fun st insn => collectEdges exe flattenCallGraph insn st)
    (splitNodes0 a, [])

/-- The scanned node map with non-instruction-boundary starts dropped. -/
def splitNodes2 (exe : Exe) (a : Analysis) (flattenCallGraph : Bool) :
    List (Nat × CfgNode) :=
  (splitScanned exe a flattenCallGraph).1.filter
    (fun p => isInsnPtr a.instructions p.1)

/-- The scanned edge map with destinations outside the kept node map
dropped. -/
def splitEdges2 (exe : Exe) (a : Analysis) (flattenCallGraph : Bool) :
    List (Nat × (Nat × List Nat)) :=
  (splitScanned exe a flattenCallGraph).2.map
    (fun p =>
      (p.1,
       (p.2.1,
        p.2.2.filter
          (fun d => ncontains (splitNodes2 exe a flattenCallGraph) d))))

/-- The function table restricted to kept block starts. -/
def splitFunctions2 (exe : Exe) (a : Analysis) (flattenCallGraph : Bool) :
    List (Nat × (Nat × String)) :=
  a.functions.filter
    (fun p => ncontains (splitNodes2 exe a flattenCallGraph) p.1)

/-- `Analysis::split_into_basic_blocks`: seed block starts at function
entries, scan the instructions for terminators, drop block starts that are
not instruction boundaries, filter edge destinations and functions
likewise, assign instruction-index ranges and destinations, then link the
`sources` back-references. -/
def splitIntoBasicBlocks (exe : Exe) (a : Analysis)
    (flattenCallGraph : Bool) : Option Analysis :=
  let cfgNodes2 := splitNodes2 exe a flattenCallGraph
  let cfgEdges2 := splitEdges2 exe a flattenCallGraph
  let functions2 := splitFunctions2 exe a flattenCallGraph
  let lastPtr? := a.instructions.getLast?.map Insn.ptr
  match walkNodes a.instructions functions2 lastPtr? cfgNodes2 cfgEdges2 0 with
  | none => none
  | some cfgNodes3 =>
    match
      linkCfgEdges cfgNodes3
        (cfgNodes3.map (fun p => (p.1, p.2.destinations))) false
    with
    | none => none
    | some cfgNodes4 =>
      if flattenCallGraph then
        match flattenCollect a.instructions functions2 cfgNodes4 cfgNodes4 [] [] with
        | none => none
        | some flatEdges =>
          match linkCfgEdges cfgNodes4 flatEdges true with
          | none => none
          | some cfgNodes5 =>
            some { a with cfgNodes := cfgNodes5, functions := functions2 }
      else some { a with cfgNodes := cfgNodes4, functions := functions2 }

/-- `Analysis::label_basic_blocks`: function entries take their (demangled)
symbol name — demangling, an external crate, is modelled as the identity —
and other blocks are named `lbb_{pc}`. -/
def labelBasicBlocks (a : Analysis) : Analysis :=
  { a with
    cfgNodes :=
      a.cfgNodes.map
        (fun p =>
          (p.1,
           { p.2 with
             label :=
               match nfind? a.functions p.1 with
               | some f => f.2
               | none => "lbb_" ++ toString p.1 })) }

/-- DFS bookkeeping per block (`NodeState` in `control_flow_graph_tarjan`);
`SENTINEL` stands for the `usize::MAX` initial values. -/
structure NodeState where
  cfgNode : Nat
  discovery : Nat
  lowlink : Nat
  sccId : Nat
  isOnSccStack : Bool
  deriving DecidableEq, Repr

/-- The whole mutable state of the iterative Tarjan loop. -/
structure TarjanState where
  nodes : List NodeState
  sccStack : List Nat
  recursionStack : List (Nat × Nat)
  sccId : Nat
  discovered : Nat
  nextV : Nat
  deriving DecidableEq, Repr

/-- The edge scan of one loop iteration (lines 646-659): starting at
`edge_index`, update `lowlink` against already-discovered on-stack
successors, and stop at the first undiscovered successor, returning the
resumption pair `(j + 1, w)`.  Map and index lookups are `unwrap`s. -/
def tarjanScanFrom (tempCfg : List (Nat × CfgNode)) (v : Nat) :
    List Nat → List NodeState → Nat →
    Option (List NodeState × Option (Nat × Nat))
  | [], nodes, _ => some (nodes, none)
  | d :: rest, nodes, j =>
    match nfind? tempCfg d with
    | none => none
    | some dn =>
      let w := dn.sccId
      match nodes.get? w with
      | none => none
      | some nw =>
        if nw.discovery = SENTINEL then some (nodes, some (j + 1, w))
        else if nw.isOnSccStack then
          match nodes.get? v with
          | none => none
          | some nv =>
            tarjanScanFrom tempCfg v rest
              (nodes.set v { nv with lowlink := min nv.lowlink nw.discovery })
              (j + 1)
        else tarjanScanFrom tempCfg v rest nodes (j + 1)

/-- The edge scan entry point: scan the destinations from `edge_index`. -/
def tarjanScan (tempCfg : List (Nat × CfgNode)) (dests : List Nat) (v : Nat)
    (nodes : List NodeState) (j : Nat) :
    Option (List NodeState × Option (Nat × Nat)) :=
  tarjanScanFrom tempCfg v (dests.drop j) nodes j

/-- The SCC pop loop (lines 660-672): pop the stack down to `v`, stamping
`scc_id` and overwriting `discovery` with the index inside the SCC. -/
def sccPop (sccId : Nat) (v : Nat) :
    List NodeState → List Nat → Nat → Option (List NodeState × List Nat)
  | nodes, [], _ => some (nodes, [])
  | nodes, w :: rest, indexInScc =>
    match nodes.get? w with
    | none => none
    | some nw =>
      let nodes' :=
        nodes.set w
          { nw with isOnSccStack := false, sccId := sccId, discovery := indexInScc }
      if w = v then some (nodes', rest)
      else sccPop sccId v nodes' rest (indexInScc + 1)

/-- The restart search (lines 677-685): find the next undiscovered node at
or after `nextV`; `none` means every node is discovered and the DFS loop
breaks. -/
def findNextFrom : List NodeState → Nat → Option Nat
  | [], _ => none
  | n :: rest, v =>
    if n.discovery = SENTINEL then some v else findNextFrom rest (v + 1)

/-- The restart search entry point. -/
def findNext (nodes : List NodeState) (nextV : Nat) : Option Nat :=
  findNextFrom (nodes.drop nextV) nextV

/-- The iterative DFS loop of `control_flow_graph_tarjan` (lines 636-689),
with explicit fuel; `none` means fuel ran out or an `unwrap` failed. -/
def tarjanLoop (tempCfg : List (Nat × CfgNode)) :
    Nat → TarjanState → Option TarjanState
  | 0, _ => none
  | fuel + 1, st =>
    match st.recursionStack with
    | [] => some st
    | (v, edgeIndex) :: restStack => do
      let nv0 ← st.nodes.get? v
      let (nodes1, sccStack1, discovered1) :=
        if edgeIndex = 0 then
          (st.nodes.set v
             { nv0 with
               discovery := st.discovered
               lowlink := st.discovered
               isOnSccStack := true },
           v :: st.sccStack, st.discovered + 1)
        else (st.nodes, st.sccStack, st.discovered)
      let nv1 ← nodes1.get? v
      let cfgNode ← nfind? tempCfg nv1.cfgNode
      match ← tarjanScan tempCfg cfgNode.destinations v nodes1 edgeIndex with
      | (nodes2, some (jNext, w)) =>
        tarjanLoop tempCfg fuel
          { st with
            nodes := nodes2
            sccStack := sccStack1
            discovered := discovered1
            recursionStack := (w, 0) :: (v, jNext) :: restStack }
      | (nodes2, none) => do
        let nv2 ← nodes2.get? v
        let (nodes3, sccStack2, sccId1) ←
          if nv2.discovery = nv2.lowlink then do
            let popped ← sccPop st.sccId v nodes2 sccStack1 0
            pure (popped.1, popped.2, st.sccId + 1)
          else pure (nodes2, sccStack1, st.sccId)
        match restStack with
        | (w, _) :: _ => do
          let nw ← nodes3.get? w
          let nv3 ← nodes3.get? v
          tarjanLoop tempCfg fuel
            { nodes := nodes3.set w { nw with lowlink := min nw.lowlink nv3.lowlink }
              sccStack := sccStack2
              recursionStack := restStack
              sccId := sccId1
              discovered := discovered1
              nextV := st.nextV }
        | [] =>
          match findNext nodes3 st.nextV with
          | none =>
            some
              { nodes := nodes3
                sccStack := sccStack2
                recursionStack := []
                sccId := sccId1
                discovered := discovered1
                nextV := st.nextV }
          | some idx =>
            tarjanLoop tempCfg fuel
              { nodes := nodes3
                sccStack := sccStack2
                recursionStack := [(idx, 0)]
                sccId := sccId1
                discovered := discovered1
                nextV := idx + 1 }

/-- `Analysis::control_flow_graph_order`, the comparison core: compare two
blocks by `(scc_id, index_in_scc)` of `b` against `a` (both descending). -/
def cfgOrderOf (na nb : CfgNode) : Ordering :=
  (compare nb.sccId na.sccId).then (compare nb.indexInScc na.indexInScc)

/-- `control_flow_graph_order` as used on keys of the node map; a missing
key is an indexing panic in Rust, here mapped to the node default (only
ever evaluated on present keys at this call site). -/
def cfgOrderD (cfgNodes : List (Nat × CfgNode)) (a b : Nat) : Ordering :=
  cfgOrderOf ((nfind? cfgNodes a).getD CfgNode.default)
    ((nfind? cfgNodes b).getD CfgNode.default)

/-- `control_flow_graph_order` with the indexing panic made explicit. -/
def cfgOrder? (cfgNodes : List (Nat × CfgNode)) (a b : Nat) : Option Ordering := do
  let na ← nfind? cfgNodes a
  let nb ← nfind? cfgNodes b
  pure (cfgOrderOf na nb)

/-- Stable insertion into a list sorted by a comparator (placing the new
element after any element it does not strictly precede), the building
block of the stable `sort_by`. -/
def insertBy {α : Type} (cmp : α → α → Ordering) (x : α) : List α → List α
  | [] => [x]
  | y :: t =>
    match cmp x y with
    | .lt => x :: y :: t
    | _ => y :: insertBy cmp x t

/-- Stable sort by a comparator (`slice::sort_by`). -/
def sortBy {α : Type} (cmp : α → α → Ordering) : List α → List α
  | [] => []
  | x :: t => insertBy cmp x (sortBy cmp t)

/-- The node map with each block's `scc_id` temporarily overwritten by its
enumeration index (the in-place write of lines 616-630, used as the
key-to-index mapping during the DFS). -/
def tarjanTempCfg (a : Analysis) : List (Nat × CfgNode) :=
  a.cfgNodes.enum.map fun p => (p.2.1, { p.2.2 with sccId := p.1 })

/-- The block key sitting at enumeration index `i` of the node map — the
inverse of the temporary index-valued `scc_id` mapping. -/
def tarjanKey (a : Analysis) (i : Nat) : Nat :=
  ((a.cfgNodes.get? i).map Prod.fst).getD 0

/-- The fresh DFS bookkeeping states, one per block. -/
def tarjanNodes0 (a : Analysis) : List NodeState :=
  a.cfgNodes.map fun p =>
    { cfgNode := p.1
      discovery := SENTINEL
      lowlink := SENTINEL
      sccId := SENTINEL
      isOnSccStack := false }

/-- The write-back loop (lines 690-694): stamp every block's `scc_id` and
`index_in_scc` from its DFS bookkeeping. -/
def tarjanWriteBack (tempCfg : List (Nat × CfgNode)) (ns : List NodeState) :
    Option (List (Nat × CfgNode)) :=
  ns.foldl
    (fun acc node =>
      match acc with
      | none => none
      | some m =>
        nmodify? node.cfgNode
          (fun cfgNode =>
            { cfgNode with sccId := node.sccId, indexInScc := node.discovery })
          m)
    (some tempCfg)

/-- `Analysis::control_flow_graph_tarjan`: run the iterative Tarjan DFS
over the CFG, stamp every block's `scc_id` and `index_in_scc`, and sort the
block keys into `topological_order`. -/
def controlFlowGraphTarjan (fuel : Nat) (a : Analysis) : Option Analysis :=
  if a.cfgNodes.isEmpty then some a
  else
    match
      tarjanLoop (tarjanTempCfg a) fuel
        { nodes := tarjanNodes0 a
          sccStack := []
          recursionStack := [(0, 0)]
          sccId := 0
          discovered := 0
          nextV := 1 }
    with
    | none => none
    | some st =>
      match tarjanWriteBack (tarjanTempCfg a) st.nodes with
      | none => none
      | some cfgNodes' =>
        some
          { a with
            cfgNodes := cfgNodes'
            topologicalOrder := sortBy (cfgOrderD cfgNodes') (nkeys cfgNodes') }

/-- The intersection walk of the Cooper-Harvey-Kennedy pass (lines
736-748): climb the two dominator chains, moving whichever side is
topologically later, until they meet.  `Equal` on distinct keys is the
`unreachable!` panic, a missing key an indexing panic; the walk is fueled. -/
def intersect (cfgNodes : List (Nat × CfgNode)) :
    Nat → Nat → Nat → Option Nat
  | 0, _, _ => none
  | fuel + 1, dominatorParent, p =>
    if dominatorParent = p then some dominatorParent
    else
      match cfgOrder? cfgNodes dominatorParent p with
      | none => none
      | some .gt => do
        let nd ← nfind? cfgNodes dominatorParent
        intersect cfgNodes fuel nd.dominatorParent p
      | some .lt => do
        let np ← nfind? cfgNodes p
        intersect cfgNodes fuel dominatorParent np.dominatorParent
      | some .eq => none

/-- The per-block dominator computation (lines 723-750): a block with no
predecessors is its own dominator; otherwise fold the predecessors whose
dominator is already assigned, intersecting their chains. -/
def computeDominator (cfgNodes : List (Nat × CfgNode)) (fuel : Nat)
    (b : Nat) (node : CfgNode) : Option Nat :=
  if node.sources.isEmpty then some b
  else
    node.sources.foldlM
      (fun dominatorParent p => do
        let np ← nfind? cfgNodes p
        if np.dominatorParent = SENTINEL then pure dominatorParent
        else if dominatorParent = SENTINEL then pure p
        else intersect cfgNodes fuel dominatorParent p)
      SENTINEL

/-- The body of the dominance pass for one block `b` of the topological
order (lines 722-758): recompute the dominator and update it when it
changed, clearing the `terminate` flag. -/
def domPassStep (fuel : Nat) (st : List (Nat × CfgNode) × Bool) (b : Nat) :
    Option (List (Nat × CfgNode) × Bool) := do
  let node ← nfind? st.1 b
  let dp0 ← computeDominator st.1 fuel b node
  let dp := if dp0 = SENTINEL then b else dp0
  if node.dominatorParent ≠ dp then do
    let m' ← nmodify? b (fun n => { n with dominatorParent := dp }) st.1
    pure (m', false)
  else pure st

/-- One full pass of the dominance fixed-point loop (lines 720-759) over
the topological order; the returned flag is the `terminate` variable
(still `true` iff no block's `dominator_parent` changed). -/
def domPass (cfgNodes : List (Nat × CfgNode)) (topo : List Nat)
    (fuel : Nat) : Option (List (Nat × CfgNode) × Bool) :=
  topo.foldlM (domPassStep fuel) (cfgNodes, true)

/-- The outer `loop` of the dominance pass, with fuel. -/
def domLoop (topo : List Nat) (innerFuel : Nat) :
    Nat → List (Nat × CfgNode) → Option (List (Nat × CfgNode))
  | 0, _ => none
  | outerFuel + 1, m => do
    let r ← domPass m topo innerFuel
    if r.2 then pure r.1 else domLoop topo innerFuel outerFuel r.1

/-- One step of the children-collection pass (lines 764-772): append `b`
to its dominator's `dominated_children` unless it dominates itself. -/
def domChildrenStep (m : List (Nat × CfgNode)) (b : Nat) :
    Option (List (Nat × CfgNode)) := do
  let node ← nfind? m b
  if b = node.dominatorParent then pure m
  else
    nmodify? node.dominatorParent
      (fun dn => { dn with dominatedChildren := dn.dominatedChildren ++ [b] })
      m

/-- `Analysis::control_flow_graph_dominance_hierarchy`: seed the entry
block as its own dominator, iterate `domPass` to the fixed point, then
append every block to its dominator's children list. -/
def controlFlowGraphDominanceHierarchy (fuel : Nat) (a : Analysis) :
    Option Analysis :=
  if a.cfgNodes.isEmpty then some a
  else do
    let cfg0 ←
      nmodify? a.entrypoint
        (fun n => { n with dominatorParent := a.entrypoint }) a.cfgNodes
    let cfg1 ← domLoop a.topologicalOrder fuel fuel cfg0
    let cfg2 ← a.topologicalOrder.foldlM domChildrenStep cfg1
    pure { a with cfgNodes := cfg2 }

/-! Intra-basic-block data flow. -/

/-- Lookup in the `HashMap<DataResource, usize>` of last writers (only ever
queried and updated pointwise, never iterated, so a plain association list
is a faithful embedding). -/
def rfind? : List (DataResource × Nat) → DataResource → Option Nat
  | [], _ => none
  | (k, v) :: t, a => if a = k then some v else rfind? t a

/-- Insert or replace in the last-writer map. -/
def rset (k : DataResource) (v : Nat) :
    List (DataResource × Nat) → List (DataResource × Nat)
  | [] => [(k, v)]
  | (k', v') :: t => if k = k' then (k, v) :: t else (k', v') :: rset k v t

/-- The state threaded through `intra_basic_block_data_flow`: the current
block start, the accumulated forward-edge map, and the block-local
last-writer map (`state.0`, `state.1`, `state.2`). -/
structure BindState where
  blockStart : Nat
  edges : List (DfgNode × List DfgEdge)
  lastWriter : List (DataResource × Nat)

/-- The `bind` helper (lines 777-811): emit a `Filled` edge for a read or
an `Empty` edge for a write, sourced at the resource's last writer in the
block (or the block's Φ node when none), then record a write's new last
writer. -/
def bindAccess (st : BindState) (insn : Insn) (isOutput : Bool)
    (resource : DataResource) : BindState :=
  let kind := if isOutput then DfgEdgeKind.empty else DfgEdgeKind.filled
  let source :=
    match rfind? st.lastWriter resource with
    | some s => DfgNode.instructionNode s
    | none => DfgNode.phiNode st.blockStart
  let destination := DfgNode.instructionNode insn.ptr
  let bucket := (dfind? st.edges source).getD []
  let edges' :=
    dset source
      (einsert
        { source := source, destination := destination, kind := kind,
          resource := resource }
        bucket)
      st.edges
  let lastWriter' :=
    if isOutput then rset resource insn.ptr st.lastWriter else st.lastWriter
  { st with edges := edges', lastWriter := lastWriter' }

/-- The sequence of `bind` calls the big `match insn.opc` dispatch (lines
819-960) performs for one instruction, as an ordered list of
`(is_output, resource)` pairs. -/
def insnAccesses (insn : Insn) : List (Bool × DataResource) :=
  let opc := insn.opc
  if opc = Ebpf.LD_ABS_B ∨ opc = Ebpf.LD_ABS_H ∨ opc = Ebpf.LD_ABS_W ∨
      opc = Ebpf.LD_ABS_DW then
    [(true, .register 0)]
  else if opc = Ebpf.LD_IND_B ∨ opc = Ebpf.LD_IND_H ∨ opc = Ebpf.LD_IND_W ∨
      opc = Ebpf.LD_IND_DW then
    [(false, .register insn.src), (true, .register 0)]
  else if opc = Ebpf.LD_DW_IMM then
    [(true, .register insn.dst)]
  else if opc = Ebpf.LD_B_REG ∨ opc = Ebpf.LD_H_REG ∨ opc = Ebpf.LD_W_REG ∨
      opc = Ebpf.LD_DW_REG then
    [(false, .memory), (false, .register insn.src), (true, .register insn.dst)]
  else if opc = Ebpf.ST_B_IMM ∨ opc = Ebpf.ST_H_IMM ∨ opc = Ebpf.ST_W_IMM ∨
      opc = Ebpf.ST_DW_IMM then
    [(false, .register insn.dst), (true, .memory)]
  else if opc = Ebpf.ST_B_REG ∨ opc = Ebpf.ST_H_REG ∨ opc = Ebpf.ST_W_REG ∨
      opc = Ebpf.ST_DW_REG then
    [(false, .register insn.src), (false, .register insn.dst), (true, .memory)]
  else if opc = Ebpf.ADD32_IMM ∨ opc = Ebpf.SUB32_IMM ∨ opc = Ebpf.MUL32_IMM ∨
      opc = Ebpf.DIV32_IMM ∨ opc = Ebpf.OR32_IMM ∨ opc = Ebpf.AND32_IMM ∨
      opc = Ebpf.LSH32_IMM ∨ opc = Ebpf.RSH32_IMM ∨ opc = Ebpf.MOD32_IMM ∨
      opc = Ebpf.XOR32_IMM ∨ opc = Ebpf.ARSH32_IMM ∨ opc = Ebpf.ADD64_IMM ∨
      opc = Ebpf.SUB64_IMM ∨ opc = Ebpf.MUL64_IMM ∨ opc = Ebpf.DIV64_IMM ∨
      opc = Ebpf.OR64_IMM ∨ opc = Ebpf.AND64_IMM ∨ opc = Ebpf.LSH64_IMM ∨
      opc = Ebpf.RSH64_IMM ∨ opc = Ebpf.MOD64_IMM ∨ opc = Ebpf.XOR64_IMM ∨
      opc = Ebpf.ARSH64_IMM ∨ opc = Ebpf.NEG32 ∨ opc = Ebpf.NEG64 ∨
      opc = Ebpf.LE ∨ opc = Ebpf.BE then
    [(false, .register insn.dst), (true, .register insn.dst)]
  else if opc = Ebpf.MOV32_IMM ∨ opc = Ebpf.MOV64_IMM then
    [(true, .register insn.dst)]
  else if opc = Ebpf.ADD32_REG ∨ opc = Ebpf.SUB32_REG ∨ opc = Ebpf.MUL32_REG ∨
      opc = Ebpf.DIV32_REG ∨ opc = Ebpf.OR32_REG ∨ opc = Ebpf.AND32_REG ∨
      opc = Ebpf.LSH32_REG ∨ opc = Ebpf.RSH32_REG ∨ opc = Ebpf.MOD32_REG ∨
      opc = Ebpf.XOR32_REG ∨ opc = Ebpf.ARSH32_REG ∨ opc = Ebpf.ADD64_REG ∨
      opc = Ebpf.SUB64_REG ∨ opc = Ebpf.MUL64_REG ∨ opc = Ebpf.DIV64_REG ∨
      opc = Ebpf.OR64_REG ∨ opc = Ebpf.AND64_REG ∨ opc = Ebpf.LSH64_REG ∨
      opc = Ebpf.RSH64_REG ∨ opc = Ebpf.MOD64_REG ∨ opc = Ebpf.XOR64_REG ∨
      opc = Ebpf.ARSH64_REG then
    [(false, .register insn.src), (false, .register insn.dst),
     (true, .register insn.dst)]
  else if opc = Ebpf.MOV32_REG ∨ opc = Ebpf.MOV64_REG then
    [(false, .register insn.src), (true, .register insn.dst)]
  else if opc = Ebpf.JEQ_IMM ∨ opc = Ebpf.JGT_IMM ∨ opc = Ebpf.JGE_IMM ∨
      opc = Ebpf.JLT_IMM ∨ opc = Ebpf.JLE_IMM ∨ opc = Ebpf.JSET_IMM ∨
      opc = Ebpf.JNE_IMM ∨ opc = Ebpf.JSGT_IMM ∨ opc = Ebpf.JSGE_IMM ∨
      opc = Ebpf.JSLT_IMM ∨ opc = Ebpf.JSLE_IMM then
    [(false, .register insn.dst)]
  else if opc = Ebpf.JEQ_REG ∨ opc = Ebpf.JGT_REG ∨ opc = Ebpf.JGE_REG ∨
      opc = Ebpf.JLT_REG ∨ opc = Ebpf.JLE_REG ∨ opc = Ebpf.JSET_REG ∨
      opc = Ebpf.JNE_REG ∨ opc = Ebpf.JSGT_REG ∨ opc = Ebpf.JSGE_REG ∨
      opc = Ebpf.JSLT_REG ∨ opc = Ebpf.JSLE_REG then
    [(false, .register insn.src), (false, .register insn.dst)]
  else if opc = Ebpf.CALL_REG ∨ opc = Ebpf.CALL_IMM then
    (if opc = Ebpf.CALL_REG ∧
        ¬(Ebpf.FIRST_SCRATCH_REG ≤ usizeOfInt insn.imm ∧
          usizeOfInt insn.imm < Ebpf.FIRST_SCRATCH_REG + Ebpf.SCRATCH_REGS) then
      [(false, .register (u8OfInt insn.imm))]
    else []) ++
    [(false, .memory), (true, .memory)] ++
    ([0, 1, 2, 3, 4, 5, 10].flatMap fun r =>
      [(false, .register r), (true, .register r)])
  else if opc = Ebpf.EXIT then
    (false, .memory) :: ([0, 1, 2, 3, 4, 5, 10].map fun r => (false, .register r))
  else []

/-- Process one instruction of a block: run its `bind` calls in order. -/
def processInsn (st : BindState) (insn : Insn) : BindState :=
  (insnAccesses insn).foldl (fun s a => bindAccess s insn a.1 a.2) st

/-- `Analysis::intra_basic_block_data_flow`: walk each block's instruction
slice in order, threading the shared state; each block's final last-writer
map is swapped out as its output, and the accumulated edge map becomes
`dfg_forward_edges`. -/
def intraBasicBlockDataFlow (a : Analysis) :
    Analysis × List (Nat × List (DataResource × Nat)) :=
  let step :=
    fun (st : BindState × List (Nat × List (DataResource × Nat)))
        (p : Nat × CfgNode) =>
      let bst := { st.1 with blockStart := p.1 }
      let slice :=
        (a.instructions.drop p.2.instructionsStart).take
          (p.2.instructionsEnd - p.2.instructionsStart)
      let bst2 := slice.foldl processInsn bst
      ({ bst2 with lastWriter := [] }, st.2 ++ [(p.1, bst2.lastWriter)])
  let r :=
    a.cfgNodes.foldl step
      ({ blockStart := 0, edges := [], lastWriter := [] }, [])
  ({ a with dfgForwardEdges := r.1.edges }, r.2)

/-! Inter-basic-block data flow. -/

/-- Process the swapped-out Φ-edge set of one block against one
predecessor (lines 994-1019): look each edge's resource up in the
predecessor's output map to pick the source bucket, retarget the edge's
destination at this block's Φ node when the block has several
predecessors, and record whether a genuinely new edge with a foreign Φ
source was added. -/
def interPredStep (predecessor bbStart : Nat) (numSources : Nat)
    (provided : List (DataResource × Nat)) (edges : List DfgEdge)
    (st : List (DfgNode × List DfgEdge) × Bool) :
    List (DfgNode × List DfgEdge) × Bool :=
  edges.foldl
    (fun st2 edge =>
      let sourceIsAPhiNode := (rfind? provided edge.resource).isNone
      let source :=
        match rfind? provided edge.resource with
        | some s => DfgNode.instructionNode s
        | none => DfgNode.phiNode predecessor
      let edge' :=
        if numSources ≠ 1 then { edge with destination := DfgNode.phiNode bbStart }
        else edge
      let bucket := (dfind? st2.1 source).getD []
      let added : Bool := decide (edge' ∉ bucket)
      (dset source (einsert edge' bucket) st2.1,
       st2.2 || (added && sourceIsAPhiNode &&
         decide (source ≠ DfgNode.phiNode bbStart))))
    st

/-- The body of one inter-block propagation pass for one block (lines
980-1029): when the block has a Φ-edge set, swap it out, push each of its
edges through every predecessor's output map, merge back the edges that
landed on this block's own Φ, and update the propagation flag. -/
def interBlockStep (cfgNodes : List (Nat × CfgNode))
    (outputs : List (Nat × List (DataResource × Nat)))
    (st : List (DfgNode × List DfgEdge) × Bool) (bbStart : Nat) :
    Option (List (DfgNode × List DfgEdge) × Bool) :=
  match dfind? st.1 (DfgNode.phiNode bbStart) with
  | none => pure st
  | some edges => do
    let bb ← nfind? cfgNodes bbStart
    let fwd1 := dset (DfgNode.phiNode bbStart) [] st.1
    let st2 ←
      bb.sources.foldlM
        (fun st2 predecessor => do
          let provided ← nfind? outputs predecessor
          pure
            (interPredStep predecessor bbStart bb.sources.length provided
              edges st2))
        (fwd1, st.2)
    let reflective ← dfind? st2.1 (DfgNode.phiNode bbStart)
    let merged :=
      reflective.foldl
        (fun es edge => (einsert edge es.1, es.2 || decide (edge ∉ es.1)))
        (edges, st2.2)
    pure (dset (DfgNode.phiNode bbStart) merged.1 st2.1, merged.2)

/-- One pass of the inter-block propagation loop (lines 978-1030), over the
reversed topological order. -/
def interPass (cfgNodes : List (Nat × CfgNode))
    (outputs : List (Nat × List (DataResource × Nat))) (topoRev : List Nat)
    (forward : List (DfgNode × List DfgEdge)) :
    Option (List (DfgNode × List DfgEdge) × Bool) :=
  topoRev.foldlM (interBlockStep cfgNodes outputs) (forward, false)

/-- The `while continue_propagation` loop, with fuel. -/
def interLoop (cfgNodes : List (Nat × CfgNode))
    (outputs : List (Nat × List (DataResource × Nat))) (topoRev : List Nat) :
    Nat → List (DfgNode × List DfgEdge) →
    Option (List (DfgNode × List DfgEdge))
  | 0, _ => none
  | fuel + 1, fwd => do
    let r ← interPass cfgNodes outputs topoRev fwd
    if r.2 then interLoop cfgNodes outputs topoRev fuel r.1 else pure r.1

/-- `Analysis::inter_basic_block_data_flow`: iterate `interPass` to the
fixed point, drop the Φ-node key of every block with exactly one
predecessor, then build the reverse adjacency keyed by destination. -/
def interBasicBlockDataFlow (fuel : Nat) (a : Analysis)
    (outputs : List (Nat × List (DataResource × Nat))) : Option Analysis := do
  let fwd ←
    interLoop a.cfgNodes outputs a.topologicalOrder.reverse fuel
      a.dfgForwardEdges
  let fwd2 :=
    a.cfgNodes.foldl
      (fun f p =>
        if p.2.sources.length = 1 then derase (DfgNode.phiNode p.1) f else f)
      fwd
  let rev :=
    fwd2.foldl
      (fun r p =>
        p.2.foldl
          (fun r2 e =>
            dset e.destination (einsert e ((dfind? r2 e.destination).getD []))
              r2)
          r)
      []
  pure { a with dfgForwardEdges := fwd2, dfgReverseEdges := rev }

/-- The pipeline of `from_executable` up to and including
`split_into_basic_blocks` (called with `flatten_call_graph = false`). -/
def analysisAfterSplit (exe : Exe) : Option Analysis :=
  splitIntoBasicBlocks exe (initialAnalysis exe) false

/-- The pipeline up to and including `control_flow_graph_tarjan`. -/
def analysisUpToTarjan (exe : Exe) (fuel : Nat) : Option Analysis := do
  let a1 ← analysisAfterSplit exe
  controlFlowGraphTarjan fuel (labelBasicBlocks a1)

/-- The pipeline up to and including
`control_flow_graph_dominance_hierarchy`. -/
def analysisUpToDominance (exe : Exe) (fuel : Nat) : Option Analysis := do
  let a3 ← analysisUpToTarjan exe fuel
  controlFlowGraphDominanceHierarchy fuel a3

/-- `Analysis::from_executable`: decode the program and run the whole
pipeline — split into basic blocks (with `flatten_call_graph = false`),
label, Tarjan SCCs, dominance hierarchy, intra- and inter-block data flow. -/
def fromExecutable (exe : Exe) (fuel : Nat) : Option Analysis := do
  let a4 ← analysisUpToDominance exe fuel
  let r := intraBasicBlockDataFlow a4
  interBasicBlockDataFlow fuel r.1 r.2

/-! Concrete executables used to evaluate the pipeline at specific inputs. -/

/-- Shorthand for building one raw instruction word. -/
def raw (opc dst src : Nat) (off imm : Int) : RawIns :=
  { opc := opc, dst := dst, src := src, off := off, imm := imm }

/-- A single `exit` instruction, entry at 0. -/
def exeExit : Exe :=
  { prog := [raw Ebpf.EXIT 0 0 0 0]
    syscalls := []
    functions := [(0, (0, "entrypoint"))]
    lookupBpfFunction := fun _ => none
    entrypoint := 0 }

/-- `ja +0 ; ja -2`: instruction 0 jumps to 1 and instruction 1 jumps back
to 0, so the entry block has a predecessor and the CFG is one two-block
cycle. -/
def exeLoop : Exe :=
  { prog := [raw Ebpf.JA 0 0 0 0, raw Ebpf.JA 0 0 (-2) 0]
    syscalls := []
    functions := [(0, (0, "entrypoint"))]
    lookupBpfFunction := fun _ => none
    entrypoint := 0 }

/-- `mov64 r6, 1 ; ja +0 ; exit`: block 0 (instructions 0-1) falls through
its jump to block 2 (the `exit`), giving block 2 exactly one predecessor
while block 0 has none; the `exit` reads resources never written, so block
2 gets Φ inputs that propagate into block 0's Φ. -/
def exePhi : Exe :=
  { prog := [raw Ebpf.MOV64_IMM 6 0 0 1, raw Ebpf.JA 0 0 0 0,
             raw Ebpf.EXIT 0 0 0 0]
    syscalls := []
    functions := [(0, (0, "entrypoint"))]
    lookupBpfFunction := fun _ => none
    entrypoint := 0 }

/-- `call 1 ; exit` where helper id 1 is a registered syscall named "log"
(not `abort` and not an internal function). -/
def exeHelperCall : Exe :=
  { prog := [raw Ebpf.CALL_IMM 0 0 0 1, raw Ebpf.EXIT 0 0 0 0]
    syscalls := [(1, "log")]
    functions := [(0, (0, "entrypoint"))]
    lookupBpfFunction := fun _ => none
    entrypoint := 0 }

/-- `exit` followed by the first half of an `lddw` wide-immediate pair
with no second word. -/
def exeTrailing : Exe :=
  { prog := [raw Ebpf.EXIT 0 0 0 0, raw Ebpf.LD_DW_IMM 0 0 0 5]
    syscalls := []
    functions := [(0, (0, "entrypoint"))]
    lookupBpfFunction := fun _ => none
    entrypoint := 0 }

/-- A single `add64 r0, 1` with an empty function table: no instruction is
a terminator and no function entry seeds a block, so the basic-block split
produces no blocks at all. -/
def exeNoBlocks : Exe :=
  { prog := [raw Ebpf.ADD64_IMM 0 0 0 1]
    syscalls := []
    functions := []
    lookupBpfFunction := fun _ => none
    entrypoint := 0 }

/-- The analysis of `exeExit` after the Tarjan phase (defaulting, never
hit, to the initial analysis). -/
def exeExitA3 : Analysis :=
  (analysisUpToTarjan exeExit 50).getD (initialAnalysis exeExit)

/-- The analysis of `exeExit` after the dominance phase. -/
def exeExitA4 : Analysis :=
  (controlFlowGraphDominanceHierarchy 50 exeExitA3).getD exeExitA3

/-- The entry block of `exeExit` after the Tarjan phase. -/
def exeExitEntryNode : CfgNode :=
  (nfind? exeExitA3.cfgNodes exeExitA3.entrypoint).getD CfgNode.default

/-- The consecutive-ranges shape the range-assignment walk produces:
starting at instruction index `start`, each node in turn owns the indices
from the running cut up to a new cut (an empty share leaves the node's
default `instructionsEnd = 0` in place), and `final` is the cut after the
last node. -/
def RangesSpec : Nat → List (Nat × CfgNode) → Nat → Prop
  | start, [], final => final = start
  | start, (_, n) :: rest, final =>
    n.instructionsStart = start ∧
    ∃ c, start ≤ c ∧
      n.instructionsEnd = (if start < c then c else 0) ∧
      RangesSpec c rest final

/-- Forget the `sources` field of every node (the only field
`link_cfg_edges` with `both_directions = false` writes). -/
def stripSources (m : List (Nat × CfgNode)) : List (Nat × CfgNode) :=
  m.map fun p => (p.1, { p.2 with sources := [] })

/-- The analysis of `exeExit` after the basic-block split. -/
def exeExitA1 : Analysis :=
  (analysisAfterSplit exeExit).getD (initialAnalysis exeExit)

/-- The block starts the first-pass scan inserts for one instruction, in
insertion order (read off the `ninsertIfAbsent` chains of `collectEdges`):
the fall-through `ptr + 1` after `CALL_REG`, `EXIT`, an `abort` call, an
internal call (plus its target) and every jump (plus its target) — and
nothing for a `CALL_IMM` that resolves to a registered non-`abort`
syscall. -/
def branchBoundaries (exe : Exe) (insn : Insn) : List Nat :=
  let targetPc := usizeOfInt ((insn.ptr : Int) + insn.off + 1)
  if insn.opc = Ebpf.CALL_IMM then
    match nfind? exe.syscalls (u32OfInt insn.imm) with
    | some syscallName =>
      if syscallName = "abort" then [insn.ptr + 1] else []
    | none =>
      match exe.lookupBpfFunction (u32OfInt insn.imm) with
      | some target => [insn.ptr + 1, target]
      | none => []
  else if insn.opc = Ebpf.CALL_REG then [insn.ptr + 1]
  else if insn.opc = Ebpf.EXIT then [insn.ptr + 1]
  else if insn.opc = Ebpf.JA then [insn.ptr + 1, targetPc]
  else if insn.opc = Ebpf.JEQ_IMM ∨ insn.opc = Ebpf.JGT_IMM ∨
      insn.opc = Ebpf.JGE_IMM ∨ insn.opc = Ebpf.JLT_IMM ∨
      insn.opc = Ebpf.JLE_IMM ∨ insn.opc = Ebpf.JSET_IMM ∨
      insn.opc = Ebpf.JNE_IMM ∨ insn.opc = Ebpf.JSGT_IMM ∨
      insn.opc = Ebpf.JSGE_IMM ∨ insn.opc = Ebpf.JSLT_IMM ∨
      insn.opc = Ebpf.JSLE_IMM ∨ insn.opc = Ebpf.JEQ_REG ∨
      insn.opc = Ebpf.JGT_REG ∨ insn.opc = Ebpf.JGE_REG ∨
      insn.opc = Ebpf.JLT_REG ∨ insn.opc = Ebpf.JLE_REG ∨
      insn.opc = Ebpf.JSET_REG ∨ insn.opc = Ebpf.JNE_REG ∨
      insn.opc = Ebpf.JSGT_REG ∨ insn.opc = Ebpf.JSGE_REG ∨
      insn.opc = Ebpf.JSLT_REG ∨ insn.opc = Ebpf.JSLE_REG then
    [insn.ptr + 1, targetPc]
  else []

/-- The analysis of `exePhi` after the basic-block split. -/
def exePhiA1 : Analysis :=
  (analysisAfterSplit exePhi).getD (initialAnalysis exePhi)

/-- The analysis of `exePhi` after the full pipeline. -/
def exePhiFull : Analysis :=
  (fromExecutable exePhi 50).getD (initialAnalysis exePhi)

/-- Membership of an edge in a data-flow edge map under the intra-block
pass's keying discipline (`entry(source.clone())`): the edge is filed in
the bucket of its own source node. -/
def memEdges (m : List (DfgNode × List DfgEdge)) (e : DfgEdge) : Prop :=
  ∃ b, dfind? m e.source = some b ∧ e ∈ b

/-- Spec-side definition for claim C7: the pc of the last instruction of
the list that writes resource `R` (an instruction writes `R` when one of
its accesses is an output access of `R`), if any. -/
def lastWriterSpec? : List Insn → DataResource → Option Nat
  | [], _ => none
  | insn :: rest, R =>
    match lastWriterSpec? rest R with
    | some p => some p
    | none =>
      if (insnAccesses insn).any (fun a => a.1 && decide (a.2 = R)) then
        some insn.ptr
      else none

/-- The fields of a `CfgNode` that the dominance pass reads: predecessors,
current dominator, and the SCC/topological-order key. -/
def CfgNode.domView (n : CfgNode) : List Nat × Nat × Nat × Nat :=
  (n.sources, n.dominatorParent, n.sccId, n.indexInScc)

/-- Two node maps agreeing on every key's `domView` (they may differ in
labels, ranges, destinations and `dominated_children`). -/
def DomViewEq (m₁ m₂ : List (Nat × CfgNode)) : Prop :=
  ∀ k, (nfind? m₁ k).map CfgNode.domView = (nfind? m₂ k).map CfgNode.domView

/-! Observables of the Tarjan DFS bookkeeping, used to state the loop
invariant of `tarjanLoop`.  Out-of-range indices read as the sentinel
(unassigned / undiscovered / off-stack). -/

/-- The `discovery` field of the `x`-th DFS node state. -/
def ndisc (ns : List NodeState) (x : Nat) : Nat :=
  ((ns.get? x).map NodeState.discovery).getD SENTINEL

/-- The `lowlink` field of the `x`-th DFS node state. -/
def nlow (ns : List NodeState) (x : Nat) : Nat :=
  ((ns.get? x).map NodeState.lowlink).getD SENTINEL

/-- The `scc_id` field of the `x`-th DFS node state. -/
def nscc (ns : List NodeState) (x : Nat) : Nat :=
  ((ns.get? x).map NodeState.sccId).getD SENTINEL

/-- The `is_on_scc_stack` field of the `x`-th DFS node state. -/
def nonStack (ns : List NodeState) (x : Nat) : Prop :=
  ((ns.get? x).map NodeState.isOnSccStack).getD false = true

/-- The `cfg_node` (block key) field of the `x`-th DFS node state. -/
def ncfg (ns : List NodeState) (x : Nat) : Nat :=
  ((ns.get? x).map NodeState.cfgNode).getD 0

/-- The successor relation of the DFS, on node indices: block `key v` has
a destination `d` whose block's (temporarily index-valued) `scc_id` is
`w` — exactly how the edge scan of the loop resolves successors. -/
def tSuccIdx (tempCfg : List (Nat × CfgNode)) (key : Nat → Nat)
    (v w : Nat) : Prop :=
  ∃ node, nfind? tempCfg (key v) = some node ∧
    ∃ d ∈ node.destinations, ∃ dn, nfind? tempCfg d = some dn ∧ dn.sccId = w

/-- A handled DFS edge `x → w`: the target is already assigned to an SCC,
or it is still on the SCC stack and the source's lowlink is at most the
target's discovery time. -/
def EdgeOK (ns : List NodeState) (x w : Nat) : Prop :=
  nscc ns w ≠ SENTINEL ∨ (nonStack ns w ∧ nlow ns x ≤ ndisc ns w)

/-- The first `j` destination edges of node `v` (minus `pend` trailing
pending ones) have been handled. -/
def FrameOK (tempCfg : List (Nat × CfgNode)) (key : Nat → Nat)
    (ns : List NodeState) (v j pend : Nat) : Prop :=
  ∀ i, i < j - pend → ∀ node d dn,
    nfind? tempCfg (key v) = some node →
    node.destinations.get? i = some d →
    nfind? tempCfg d = some dn →
    EdgeOK ns v dn.sccId

/-- The inner frames of the recursion stack: already-stamped nodes with a
positive edge index and all scanned edges handled. -/
def FramesTail (tempCfg : List (Nat × CfgNode)) (key : Nat → Nat)
    (n : Nat) (ns : List NodeState) (l : List (Nat × Nat)) : Prop :=
  ∀ f ∈ l, f.1 < n ∧ 1 ≤ f.2 ∧ FrameOK tempCfg key ns f.1 f.2 0

/-- Shape of the whole recursion stack: either empty, or headed by a
fresh frame `(v, 0)` over an as-yet-undiscovered node — in which case the
frame below it (its pusher, if any) may have one pending edge, the one
that targets `v` — or headed by a resumed frame. -/
def FramesOK (tempCfg : List (Nat × CfgNode)) (key : Nat → Nat) (n : Nat)
    (ns : List NodeState) : List (Nat × Nat) → Prop
  | [] => True
  | (v, 0) :: rest =>
    v < n ∧ ndisc ns v = SENTINEL ∧
    (match rest with
     | [] => True
     | (p, jp) :: rest' =>
       p < n ∧ 1 ≤ jp ∧ FrameOK tempCfg key ns p jp 1 ∧
       (∀ node d dn, nfind? tempCfg (key p) = some node →
          node.destinations.get? (jp - 1) = some d →
          nfind? tempCfg d = some dn → dn.sccId = v) ∧
       FramesTail tempCfg key n ns rest')
  | (v, j + 1) :: rest =>
    v < n ∧ FrameOK tempCfg key ns v (j + 1) 0 ∧
    FramesTail tempCfg key n ns rest

/-- The nodes of the already-stamped frames of the recursion stack, top
first. -/
def stampedPath (l : List (Nat × Nat)) : List Nat :=
  (l.filter (fun f => decide (f.2 ≠ 0))).map Prod.fst

/-- Decomposition of the SCC stack along the stamped active path: above
each active node `u` sits a segment `T` of finished descendants whose
lowlinks dominate `u`'s, and below the bottom active node nothing
remains. -/
inductive StackDecomp (ns : List NodeState) : List Nat → List Nat → Prop
  | nil : StackDecomp ns [] []
  | seg (u : Nat) (T : List Nat) (path stack : List Nat) :
      StackDecomp ns path stack →
      (∀ x ∈ T, nlow ns u ≤ nlow ns x) →
      StackDecomp ns (u :: path) (T ++ u :: stack)

/-- Number of discovered DFS nodes. -/
def countD (ns : List NodeState) : Nat :=
  ns.countP (fun nd => decide (nd.discovery ≠ SENTINEL))

/-- The loop invariant of the iterative Tarjan DFS. -/
structure TarjanInv (tempCfg : List (Nat × CfgNode)) (key : Nat → Nat)
    (n : Nat) (st : TarjanState) : Prop where
  hlen : st.nodes.length = n
  hkey : ∀ x, x < n → ncfg st.nodes x = key x
  hframes : FramesOK tempCfg key n st.nodes st.recursionStack
  hdecomp : StackDecomp st.nodes (stampedPath st.recursionStack) st.sccStack
  hnodup : st.sccStack.Nodup
  hmem : ∀ w ∈ st.sccStack, w < n ∧ nonStack st.nodes w
  honmem : ∀ x, x < n → nonStack st.nodes x → x ∈ st.sccStack
  hsorted : st.sccStack.Pairwise
    (fun a b => ndisc st.nodes b < ndisc st.nodes a)
  hA : ∀ x, x < n → nscc st.nodes x ≠ SENTINEL →
    ¬nonStack st.nodes x ∧ ndisc st.nodes x ≠ SENTINEL ∧
    nscc st.nodes x < st.sccId
  hOn : ∀ x, x < n → nonStack st.nodes x →
    ndisc st.nodes x ≠ SENTINEL ∧ nscc st.nodes x = SENTINEL
  hD : ∀ x, x < n → ndisc st.nodes x ≠ SENTINEL →
    nonStack st.nodes x ∨ nscc st.nodes x ≠ SENTINEL
  hcount : st.discovered = countD st.nodes
  hdiscLt : ∀ x, x < n → nonStack st.nodes x →
    ndisc st.nodes x < st.discovered
  hlowle : ∀ x, x < n → nonStack st.nodes x →
    nlow st.nodes x ≤ ndisc st.nodes x
  hbot : ∀ b, (stampedPath st.recursionStack).getLast? = some b →
    ∀ x ∈ st.sccStack, ndisc st.nodes b ≤ nlow st.nodes x
  hE : ∀ v, v < n → nscc st.nodes v ≠ SENTINEL →
    ∀ w, tSuccIdx tempCfg key v w →
      nscc st.nodes w ≠ SENTINEL ∧ nscc st.nodes w ≤ nscc st.nodes v
  hG : ∀ x, x < n → nonStack st.nodes x →
    (∀ j, (x, j) ∉ st.recursionStack) →
    ∀ w, tSuccIdx tempCfg key x w → EdgeOK st.nodes x w
  hN : ∀ x, x < st.nextV →
    ndisc st.nodes x ≠ SENTINEL ∨ ∃ j, (x, j) ∈ st.recursionStack
  hsccb : st.sccId + st.sccStack.length ≤ st.discovered

/-- Everything `tarjanScanFrom` guarantees: only `v`'s `lowlink` changes
(monotonically, and never below a bound respected by the on-stack
discovery times), and the scanned edges are handled — fully on a `none`
result, up to the returned undiscovered successor on a stop. -/
structure ScanSpec (tempCfg : List (Nat × CfgNode)) (v : Nat) (l : List Nat)
    (nodes : List NodeState) (j : Nat)
    (res : List NodeState × Option (Nat × Nat)) : Prop where
  hlen : res.1.length = nodes.length
  hfr : ∀ y, y ≠ v → res.1.get? y = nodes.get? y
  hdisc : ndisc res.1 v = ndisc nodes v
  hscc : nscc res.1 v = nscc nodes v
  hstk : nonStack res.1 v ↔ nonStack nodes v
  hcfg : ncfg res.1 v = ncfg nodes v
  hlow : nlow res.1 v ≤ nlow nodes v
  hlb : ∀ L, L ≤ nlow nodes v →
    (∀ x, x < nodes.length → nonStack nodes x → L ≤ ndisc nodes x) →
    L ≤ nlow res.1 v
  hcnt : countD res.1 = countD nodes
  hnone : res.2 = none → ∀ i d dn, l.get? i = some d →
    nfind? tempCfg d = some dn → EdgeOK res.1 v dn.sccId
  hstop : ∀ jn w, res.2 = some (jn, w) → j < jn ∧ w < nodes.length ∧
    ndisc res.1 w = SENTINEL ∧
    (∃ d dn, l.get? (jn - 1 - j) = some d ∧ nfind? tempCfg d = some dn ∧
      dn.sccId = w) ∧
    ∀ i d dn, i < jn - 1 - j → l.get? i = some d →
      nfind? tempCfg d = some dn → EdgeOK res.1 v dn.sccId

/-- The loop invariant as it stands in the middle of one iteration of the
DFS loop, just after the top frame's node `v` has been stamped (when the
frame was fresh) and just before its edge scan resumes at `edgeIndex = eI`:
`v` is discovered, on the SCC stack, heads the active path, and its first
`eI` edges are handled; the frames below are all resumed and fully
handled. -/
structure MidInv (tempCfg : List (Nat × CfgNode)) (key : Nat → Nat) (n : Nat)
    (v eI : Nat) (rest : List (Nat × Nat)) (nodes1 : List NodeState)
    (sccStack1 : List Nat) (sccId0 discovered1 nextV0 : Nat) : Prop where
  hlen : nodes1.length = n
  hkey : ∀ x, x < n → ncfg nodes1 x = key x
  hv : v < n
  hvon : nonStack nodes1 v
  hFrame : FrameOK tempCfg key nodes1 v eI 0
  hTail : FramesTail tempCfg key n nodes1 rest
  hdecomp : StackDecomp nodes1 (v :: stampedPath rest) sccStack1
  hnodup : sccStack1.Nodup
  hmem : ∀ w ∈ sccStack1, w < n ∧ nonStack nodes1 w
  honmem : ∀ x, x < n → nonStack nodes1 x → x ∈ sccStack1
  hsorted : sccStack1.Pairwise (fun a b => ndisc nodes1 b < ndisc nodes1 a)
  hA : ∀ x, x < n → nscc nodes1 x ≠ SENTINEL →
    ¬nonStack nodes1 x ∧ ndisc nodes1 x ≠ SENTINEL ∧ nscc nodes1 x < sccId0
  hOn : ∀ x, x < n → nonStack nodes1 x →
    ndisc nodes1 x ≠ SENTINEL ∧ nscc nodes1 x = SENTINEL
  hD : ∀ x, x < n → ndisc nodes1 x ≠ SENTINEL →
    nonStack nodes1 x ∨ nscc nodes1 x ≠ SENTINEL
  hcount : discovered1 = countD nodes1
  hdiscLt : ∀ x, x < n → nonStack nodes1 x → ndisc nodes1 x < discovered1
  hlowle : ∀ x, x < n → nonStack nodes1 x → nlow nodes1 x ≤ ndisc nodes1 x
  hbot : ∀ b, (v :: stampedPath rest).getLast? = some b →
    ∀ x ∈ sccStack1, ndisc nodes1 b ≤ nlow nodes1 x
  hE : ∀ u, u < n → nscc nodes1 u ≠ SENTINEL →
    ∀ w, tSuccIdx tempCfg key u w →
      nscc nodes1 w ≠ SENTINEL ∧ nscc nodes1 w ≤ nscc nodes1 u
  hG : ∀ x, x < n → nonStack nodes1 x → x ≠ v →
    (∀ j, (x, j) ∉ rest) → ∀ w, tSuccIdx tempCfg key x w →
      EdgeOK nodes1 x w
  hN : ∀ x, x < nextV0 →
    ndisc nodes1 x ≠ SENTINEL ∨ x = v ∨ ∃ j, (x, j) ∈ rest
  hsccb : sccId0 + sccStack1.length ≤ discovered1

/-- Everything that holds after the SCC pop of a root `v`: the SCC stack
splits as `T ++ v :: S`, the batch — `T` together with `v` — is stamped
with the new `scc_id` while `S` and all other node states (and every
`lowlink`) are untouched, and every DFS edge out of a batch member now
points into an assigned SCC with an id at most the new one. -/
structure PopFacts (tempCfg : List (Nat × CfgNode)) (key : Nat → Nat)
    (n : Nat) (v : Nat) (rest : List (Nat × Nat)) (nodes2 : List NodeState)
    (sccStack1 : List Nat) (sccId0 : Nat)
    (popped : List NodeState × List Nat) (T S : List Nat) : Prop where
  hsplit : sccStack1 = T ++ v :: S
  hrest2 : popped.2 = S
  hlen3 : popped.1.length = n
  hfr3 : ∀ y, y ∉ T → y ≠ v → popped.1.get? y = nodes2.get? y
  hcnt3 : countD popped.1 = countD nodes2
  hbatch : ∀ x, x ∈ T ∨ x = v →
    ¬nonStack popped.1 x ∧ nscc popped.1 x = sccId0 ∧
    ndisc popped.1 x ≠ SENTINEL ∧ ncfg popped.1 x = ncfg nodes2 x
  hlowE : ∀ y, nlow popped.1 y = nlow nodes2 y
  hnb : ∀ y, y ∉ T → y ≠ v →
    ndisc popped.1 y = ndisc nodes2 y ∧ nscc popped.1 y = nscc nodes2 y ∧
    (nonStack popped.1 y ↔ nonStack nodes2 y) ∧
    ncfg popped.1 y = ncfg nodes2 y
  hdecS : StackDecomp nodes2 (stampedPath rest) S
  hTcond : ∀ x ∈ T, nlow nodes2 v ≤ nlow nodes2 x
  hndS : S.Nodup
  hvT : v ∉ T
  hvS : v ∉ S
  hdisjTS : ∀ x ∈ T, x ∉ S
  hon3char : ∀ x, x < n → nonStack popped.1 x → x ∈ S
  hsccid0ne : sccId0 ≠ SENTINEL
  hEO3 : ∀ x ω, EdgeOK nodes2 x ω → EdgeOK popped.1 x ω
  hE3 : ∀ x, x ∈ T ∨ x = v → ∀ ω, tSuccIdx tempCfg key x ω →
    nscc popped.1 ω ≠ SENTINEL ∧ nscc popped.1 ω ≤ sccId0
  hlenTS : T.length + 1 + S.length = sccStack1.length
  hSmem : ∀ x ∈ S, x < n ∧ nonStack nodes2 x

/-! Basic lemmas about the map and set embeddings. -/

theorem dfgNode_cmp_eq_iff (a b : DfgNode) : DfgNode.cmp a b = .eq ↔ a = b := by
  cases a <;> cases b <;>
    simp [DfgNode.cmp, Nat.compare_eq_eq]

theorem dataResource_cmp_eq_iff (a b : DataResource) :
    DataResource.cmp a b = .eq ↔ a = b := by
  cases a <;> cases b <;>
    simp [DataResource.cmp, Nat.compare_eq_eq]

theorem dfgEdgeKind_cmp_eq_iff (a b : DfgEdgeKind) :
    DfgEdgeKind.cmp a b = .eq ↔ a = b := by
  cases a <;> cases b <;> simp [DfgEdgeKind.cmp]

theorem Ordering.then_eq_eq_iff (a b : Ordering) :
    a.then b = .eq ↔ a = .eq ∧ b = .eq := by
  cases a <;> cases b <;> simp [Ordering.then]


theorem dfgEdge_cmp_eq_iff (a b : DfgEdge) : DfgEdge.cmp a b = .eq ↔ a = b := by
  unfold DfgEdge.cmp
  simp only [Ordering.then_eq_eq_iff, dfgNode_cmp_eq_iff, dfgEdgeKind_cmp_eq_iff,
    dataResource_cmp_eq_iff]
  cases a; cases b; simp

theorem mem_einsert (a e : DfgEdge) (s : List DfgEdge) :
    a ∈ einsert e s ↔ a = e ∨ a ∈ s := by
  induction s with
  | nil => simp [einsert]
  | cons x t ih =>
    simp only [einsert]
    cases h : DfgEdge.cmp e x with
    | lt => simp [List.mem_cons]
    | eq =>
      have hex : e = x := (dfgEdge_cmp_eq_iff e x).mp h
      subst hex
      simp [List.mem_cons]
    | gt =>
      simp [List.mem_cons, ih]
      tauto

theorem self_mem_einsert (e : DfgEdge) (s : List DfgEdge) : e ∈ einsert e s := by
  rw [mem_einsert]; left; rfl

theorem nfind?_cons_self {β : Type} (k : Nat) (v : β) (t : List (Nat × β)) :
    nfind? ((k, v) :: t) k = some v := by simp [nfind?]

theorem nfind?_cons_ne {β : Type} (k k' : Nat) (v' : β) (t : List (Nat × β))
    (h : k ≠ k') : nfind? ((k', v') :: t) k = nfind? t k := by simp [nfind?, h]

theorem nfind?_nset {β : Type} (k : Nat) (v : β) (m : List (Nat × β)) (j : Nat) :
    nfind? (nset k v m) j = if j = k then some v else nfind? m j := by
  induction m with
  | nil => simp [nset, nfind?]
  | cons p t ih =>
    obtain ⟨k', v'⟩ := p
    by_cases h1 : k < k'
    · rw [show nset k v ((k', v') :: t) = (k, v) :: (k', v') :: t from by
        simp [nset, h1]]
      by_cases h2 : j = k
      · subst h2; simp [nfind?]
      · simp [nfind?, h2]
    · by_cases h2 : k = k'
      · subst h2
        rw [show nset k v ((k, v') :: t) = (k, v) :: t from by
          simp [nset, h1]]
        by_cases h3 : j = k
        · subst h3; simp [nfind?]
        · simp [nfind?, h3]
      · rw [show nset k v ((k', v') :: t) = (k', v') :: nset k v t from by
          simp [nset, h1, h2]]
        by_cases h3 : j = k'
        · subst h3
          have hjk : ¬j = k := fun hh => h2 hh.symm
          simp [nfind?, hjk]
        · simp [nfind?, h3, ih]

theorem nfind?_mem_keys {β : Type} (m : List (Nat × β)) (k : Nat) :
    (nfind? m k).isSome ↔ k ∈ nkeys m := by
  induction m with
  | nil => simp [nfind?, nkeys]
  | cons p t ih =>
    obtain ⟨k', v'⟩ := p
    by_cases h : k = k' <;> simp [nfind?, nkeys, h, ih]

theorem ncontains_iff {β : Type} (m : List (Nat × β)) (k : Nat) :
    ncontains m k = true ↔ k ∈ nkeys m := by
  rw [← nfind?_mem_keys]; simp [ncontains]

theorem ninsertIfAbsent_of_present {β : Type} (k : Nat) (v : β)
    (m : List (Nat × β)) (h : ncontains m k = true) :
    ninsertIfAbsent k v m = m := by
  simp [ninsertIfAbsent, h]

theorem ninsertIfAbsent_of_absent {β : Type} (k : Nat) (v : β)
    (m : List (Nat × β)) (h : ¬ncontains m k = true) :
    ninsertIfAbsent k v m = nset k v m := by
  simp [ninsertIfAbsent, h]

theorem nfind?_ninsertIfAbsent_ne {β : Type} (k : Nat) (v : β)
    (m : List (Nat × β)) (j : Nat) (h : j ≠ k) :
    nfind? (ninsertIfAbsent k v m) j = nfind? m j := by
  by_cases hc : ncontains m k = true
  · rw [ninsertIfAbsent_of_present k v m hc]
  · rw [ninsertIfAbsent_of_absent k v m hc, nfind?_nset, if_neg h]

theorem ncontains_ninsertIfAbsent_self {β : Type} (k : Nat) (v : β)
    (m : List (Nat × β)) : ncontains (ninsertIfAbsent k v m) k = true := by
  by_cases hc : ncontains m k = true
  · rw [ninsertIfAbsent_of_present k v m hc]; exact hc
  · rw [ninsertIfAbsent_of_absent k v m hc]
    simp [ncontains, nfind?_nset]

theorem ncontains_ninsertIfAbsent_mono {β : Type} (k : Nat) (v : β)
    (m : List (Nat × β)) (j : Nat) (h : ncontains m j = true) :
    ncontains (ninsertIfAbsent k v m) j = true := by
  by_cases hj : j = k
  · rw [hj]; exact ncontains_ninsertIfAbsent_self k v m
  · unfold ncontains at h ⊢
    rw [nfind?_ninsertIfAbsent_ne k v m j hj]
    exact h

theorem nmodify?_cons_self {β : Type} (k : Nat) (f : β → β) (v : β)
    (t : List (Nat × β)) :
    nmodify? k f ((k, v) :: t) = some ((k, f v) :: t) := by
  simp [nmodify?]

theorem nmodify?_cons_ne {β : Type} (k k' : Nat) (f : β → β) (v' : β)
    (t : List (Nat × β)) (h : k ≠ k') :
    nmodify? k f ((k', v') :: t) =
      (nmodify? k f t).map (fun t' => (k', v') :: t') := by
  rw [show nmodify? k f ((k', v') :: t) =
      (match nmodify? k f t with
       | some t' => some ((k', v') :: t')
       | none => none) from by simp [nmodify?, h]]
  cases nmodify? k f t <;> simp

theorem nmodify?_eq_none {β : Type} (k : Nat) (f : β → β) (m : List (Nat × β)) :
    nmodify? k f m = none ↔ nfind? m k = none := by
  induction m with
  | nil => simp [nmodify?, nfind?]
  | cons p t ih =>
    obtain ⟨k', v'⟩ := p
    by_cases h : k = k'
    · subst h; simp [nmodify?_cons_self, nfind?_cons_self]
    · rw [nmodify?_cons_ne k k' f v' t h, nfind?_cons_ne k k' v' t h, ← ih]
      cases nmodify? k f t <;> simp

theorem nfind?_nmodify? {β : Type} (k : Nat) (f : β → β) (m m' : List (Nat × β))
    (h : nmodify? k f m = some m') (j : Nat) :
    nfind? m' j = if j = k then (nfind? m k).map f else nfind? m j := by
  induction m generalizing m' with
  | nil => simp [nmodify?] at h
  | cons p t ih =>
    obtain ⟨k', v'⟩ := p
    by_cases hk : k = k'
    · subst hk
      rw [nmodify?_cons_self] at h
      obtain rfl : (k, f v') :: t = m' := by injection h
      by_cases hj : j = k
      · subst hj; simp [nfind?_cons_self]
      · simp [nfind?_cons_ne _ _ _ _ hj, hj]
    · rw [nmodify?_cons_ne k k' f v' t hk] at h
      cases ht : nmodify? k f t with
      | none => rw [ht] at h; simp at h
      | some t' =>
        rw [ht] at h
        simp only [Option.map_some'] at h
        obtain rfl : (k', v') :: t' = m' := by injection h
        by_cases hj : j = k'
        · subst hj
          have hne : ¬j = k := fun hh => hk hh.symm
          simp [nfind?_cons_self, hne]
        · rw [nfind?_cons_ne _ _ _ _ hj, nfind?_cons_ne _ _ _ _ hj, ih t' ht]
          have hkk : k ≠ k' := hk
          rw [nfind?_cons_ne k k' v' t hk]

theorem nkeys_nmodify? {β : Type} (k : Nat) (f : β → β) (m m' : List (Nat × β))
    (h : nmodify? k f m = some m') : nkeys m' = nkeys m := by
  induction m generalizing m' with
  | nil => simp [nmodify?] at h
  | cons p t ih =>
    obtain ⟨k', v'⟩ := p
    by_cases hk : k = k'
    · subst hk
      rw [nmodify?_cons_self] at h
      obtain rfl : (k, f v') :: t = m' := by injection h
      simp [nkeys]
    · rw [nmodify?_cons_ne k k' f v' t hk] at h
      cases ht : nmodify? k f t with
      | none => rw [ht] at h; simp at h
      | some t' =>
        rw [ht] at h
        simp only [Option.map_some'] at h
        obtain rfl : (k', v') :: t' = m' := by injection h
        have hht := ih t' ht
        simp only [nkeys, List.map_cons] at hht ⊢
        rw [hht]

theorem dfind?_dset {β : Type} (k : DfgNode) (v : β)
    (m : List (DfgNode × β)) (j : DfgNode) :
    dfind? (dset k v m) j = if j = k then some v else dfind? m j := by
  induction m with
  | nil => simp [dset, dfind?]
  | cons p t ih =>
    obtain ⟨k', v'⟩ := p
    simp only [dset]
    cases h : DfgNode.cmp k k' with
    | lt =>
      by_cases h2 : j = k
      · subst h2; simp [dfind?]
      · simp [dfind?, h2]
    | eq =>
      have : k = k' := (dfgNode_cmp_eq_iff k k').mp h
      subst this
      by_cases h2 : j = k
      · subst h2; simp [dfind?]
      · simp [dfind?, h2]
    | gt =>
      have hne : ¬k = k' := fun hh => by
        rw [hh, (dfgNode_cmp_eq_iff k' k').mpr rfl] at h
        exact Ordering.noConfusion h
      by_cases h2 : j = k'
      · subst h2
        have : ¬j = k := fun hh => hne hh.symm
        simp [dfind?, this]
      · simp [dfind?, h2, ih]

theorem dfind?_cons_self {β : Type} (k : DfgNode) (v : β)
    (t : List (DfgNode × β)) : dfind? ((k, v) :: t) k = some v := by
  simp [dfind?]

theorem dfind?_cons_ne {β : Type} (j k' : DfgNode) (v' : β)
    (t : List (DfgNode × β)) (h : j ≠ k') :
    dfind? ((k', v') :: t) j = dfind? t j := by
  simp [dfind?, h]

theorem dfind?_derase (k : DfgNode) (m : List (DfgNode × List DfgEdge))
    (j : DfgNode) :
    dfind? (derase k m) j = if j = k then none else dfind? m j := by
  induction m with
  | nil => simp [derase, dfind?]
  | cons p t ih =>
    obtain ⟨k', v'⟩ := p
    by_cases h : k' = k
    · rw [show derase k ((k', v') :: t) = derase k t from by
        simp [derase, List.filter, h], ih]
      by_cases h2 : j = k
      · simp [h2]
      · rw [if_neg h2, if_neg h2,
          dfind?_cons_ne j k' v' t (fun hh => h2 (hh.trans h))]
    · rw [show derase k ((k', v') :: t) = (k', v') :: derase k t from by
        simp [derase, List.filter, h]]
      by_cases h2 : j = k'
      · rw [h2, dfind?_cons_self,
          if_neg (fun hh : k' = k => h hh), dfind?_cons_self]
      · rw [dfind?_cons_ne j k' v' _ h2, ih]
        by_cases h3 : j = k
        · simp [h3]
        · rw [if_neg h3, if_neg h3, dfind?_cons_ne j k' v' t h2]

/-- Claim C2, counterexample: for `exeNoBlocks` (a single `add64 r0, 1`
with an empty function table) `split_into_basic_blocks` completes, the
decoded program has an instruction at index 0, yet no `CfgNode` exists at
all, so no node's instruction range contains pc 0 — "exactly one CfgNode
contains every pc" fails when the program yields no basic block. -/
theorem claim_C2_counterexample :
    ((analysisAfterSplit exeNoBlocks).map fun a =>
      (a.instructions.length,
       (a.cfgNodes.filter fun p =>
         p.2.instructionsStart ≤ 0 ∧ 0 < p.2.instructionsEnd).length)) =
    some (1, 0) := by decide

/-- Claim C3, counterexample: in `exeLoop` the two blocks 0 and 1 form one
SCC (`scc_id` 0 for both) and the only edges are 0 → 1 → 0 with entry 0,
so every DFS discovers block 0 strictly before block 1; yet the computed
`index_in_scc` of block 0 is 1 and that of block 1 is 0 — `index_in_scc`
is the reverse of the discovery order (the pop order of the SCC stack),
not the discovery order the claim states. -/
theorem claim_C3_counterexample :
    ((fromExecutable exeLoop 50).map fun a =>
      ((nfind? a.cfgNodes 0).map fun n =>
         (n.sccId, n.indexInScc, n.destinations, n.sources),
       (nfind? a.cfgNodes 1).map fun n =>
         (n.sccId, n.indexInScc, n.destinations, n.sources),
       a.entrypoint)) =
    some (some (0, 1, [1], [1]), some (0, 0, [0], [0]), 0) := by rfl

/-- Claim C5, counterexample: in `exeLoop` block 1 branches back to the
entry block 0, and after `control_flow_graph_dominance_hierarchy` the
entry block's `dominator_parent` is 1, not the entry block itself — the
fixed-point pass recomputes the entry's dominator from its predecessors
and overwrites the seeded self-parent. -/
theorem claim_C5_counterexample :
    ((analysisUpToDominance exeLoop 50).map fun a =>
      (a.entrypoint,
       (nfind? a.cfgNodes 0).map fun n => (n.dominatorParent, n.sources))) =
    some (0, some (1, [1])) := by decide

/-- Claim C6, counterexample: in `exePhi`, after the full pipeline,
`PhiNode 0` is still a key of `dfg_forward_edges` although block 0 has
zero predecessors (Φ nodes of zero-predecessor blocks are never dropped),
and an edge stored in the map still carries `PhiNode 2` in its `source`
field although block 2 has exactly one predecessor (the inter-block pass
never rewrites the `source` field of propagated edges). -/
theorem claim_C6_counterexample :
    ((fromExecutable exePhi 50).map fun a =>
      (dcontains a.dfgForwardEdges (DfgNode.phiNode 0),
       (nfind? a.cfgNodes 0).map CfgNode.sources,
       ((dfind? a.dfgForwardEdges (DfgNode.phiNode 0)).getD []).any
         (fun e => decide (e.source = DfgNode.phiNode 2)),
       (nfind? a.cfgNodes 2).map CfgNode.sources)) =
    some (true, some [], true, some [0]) := by decide

/-- Claim C8, counterexample: in `exeHelperCall` instruction 0 is a
`CALL_IMM` whose immediate resolves to the registered (non-`abort`)
syscall "log"; index 1 is a valid instruction boundary, yet after the
split the only block start is 0 and its instruction range is `0..2` — no
block boundary exists after the helper call. -/
theorem claim_C8_counterexample :
    ((analysisAfterSplit exeHelperCall).map fun a =>
      (nkeys a.cfgNodes,
       (nfind? a.cfgNodes 0).map fun n =>
         (n.instructionsStart, n.instructionsEnd),
       isInsnPtr a.instructions 1,
       a.instructions.map Insn.opc,
       nfind? exeHelperCall.syscalls 1)) =
    some ([0], some (0, 2), true, [Ebpf.CALL_IMM, Ebpf.EXIT], some "log") := by
  rfl

/-- Claim C9, counterexample: `exeTrailing`'s program is `exit` followed by
a lone `lddw` first half; decoding does not reject it — it succeeds,
silently dropping the trailing half from the instruction list (2 words in,
1 instruction out, none at index 1), and the whole analysis pipeline
completes normally. -/
theorem claim_C9_counterexample :
    decodeProgram exeTrailing.prog =
      [{ ptr := 0, opc := Ebpf.EXIT, dst := 0, src := 0, off := 0, imm := 0 }] ∧
    exeTrailing.prog.length = 2 ∧
    (exeTrailing.prog.get? 1).map RawIns.opc = some Ebpf.LD_DW_IMM ∧
    (fromExecutable exeTrailing 50).isSome = true := by decide

/-- Claim C10, failing input: in `exePhi` the inter-block pass files the
propagated Φ edges of block 2 under the key `PhiNode 0` (block 0's Φ)
without rewriting their `source` field, so `dfg_forward_edges` holds,
under key `PhiNode 0`, an edge whose `source` is `PhiNode 2` ≠ the key —
contradicting the documented key discipline ("the keys are DfgEdge
sources", `static_analysis.rs` line 109). -/
theorem claim_C10_bug :
    ((fromExecutable exePhi 50).map fun a =>
      ((dfind? a.dfgForwardEdges (DfgNode.phiNode 0)).getD []).any
        (fun e => decide (e.source ≠ DfgNode.phiNode 0))) =
    some true := by decide

theorem rfind?_rset (k : DataResource) (v : Nat)
    (m : List (DataResource × Nat)) (j : DataResource) :
    rfind? (rset k v m) j = if j = k then some v else rfind? m j := by
  induction m with
  | nil => simp [rset, rfind?]
  | cons p t ih =>
    obtain ⟨k', v'⟩ := p
    by_cases h : k = k'
    · subst h
      rw [show rset k v ((k, v') :: t) = (k, v) :: t from by simp [rset]]
      by_cases h2 : j = k
      · subst h2; simp [rfind?]
      · simp [rfind?, h2]
    · rw [show rset k v ((k', v') :: t) = (k', v') :: rset k v t from by
        simp [rset, h]]
      by_cases h2 : j = k'
      · subst h2
        have : ¬j = k := fun hh => h hh.symm
        simp [rfind?, this]
      · simp [rfind?, h2, ih]

theorem decodeAux_cons_other (w : RawIns) (rest : List RawIns) (i : Nat)
    (h : ¬w.opc = Ebpf.LD_DW_IMM) :
    decodeAux (w :: rest) i =
      { ptr := i, opc := w.opc, dst := w.dst, src := w.src, off := w.off,
        imm := w.imm } :: decodeAux rest (i + 1) := by
  rw [decodeAux.eq_def]
  simp [h]

theorem decodeAux_lddw_nil (w : RawIns) (i : Nat)
    (h : w.opc = Ebpf.LD_DW_IMM) : decodeAux [w] i = [] := by
  rw [decodeAux.eq_def]
  simp [h]

theorem decodeAux_lddw_cons (w w2 : RawIns) (rest2 : List RawIns) (i : Nat)
    (h : w.opc = Ebpf.LD_DW_IMM) :
    decodeAux (w :: w2 :: rest2) i =
      { ptr := i, opc := w.opc, dst := w.dst, src := w.src, off := w.off,
        imm := augmentImm w.imm w2.imm } :: decodeAux rest2 (i + 2) := by
  rw [decodeAux.eq_def]
  simp [h]

/-- Claim C9, amended: a program whose last 8-byte word is the first half
of a wide-immediate (`LD_DW_IMM`) pair with no second word is not rejected;
the decoding loop stops when it reaches the trailing half and silently
drops it from the instruction list (no error exists on this path): a
lone trailing `LD_DW_IMM` word decodes to nothing, and for any program
extended by such a half-word no decoded instruction starts at the
trailing half's word index. -/
theorem claim_C9_amended :
    (∀ (w : RawIns) (i : Nat), w.opc = Ebpf.LD_DW_IMM → decodeAux [w] i = []) ∧
    (∀ (l : List RawIns) (w : RawIns) (i : Nat), w.opc = Ebpf.LD_DW_IMM →
      ∀ insn ∈ decodeAux (l ++ [w]) i, insn.ptr ≠ i + l.length) := by
  constructor
  · intro w i hw
    simp [decodeAux, hw]
  · suffices H : ∀ (n : Nat) (l : List RawIns), l.length = n →
        ∀ (w : RawIns) (i : Nat), w.opc = Ebpf.LD_DW_IMM →
        ∀ insn ∈ decodeAux (l ++ [w]) i, insn.ptr ≠ i + l.length by
      intro l w i hw
      exact H l.length l rfl w i hw
    intro n
    induction n using Nat.strong_induction_on with
    | _ n ih =>
      intro l hl w i hw insn hmem
      match l, hl with
      | [], hl =>
        rw [List.nil_append, decodeAux_lddw_nil w i hw] at hmem
        exact absurd hmem (List.not_mem_nil insn)
      | x :: rest, hl =>
        by_cases hx : x.opc = Ebpf.LD_DW_IMM
        · match rest, hl with
          | [], hl =>
            rw [List.cons_append, List.nil_append,
              decodeAux_lddw_cons x w [] i hx] at hmem
            rw [show decodeAux [] (i + 2) = [] from rfl,
              List.mem_singleton] at hmem
            subst hmem
            simp only [List.length_cons, List.length_nil]
            omega
          | y :: rest2, hl =>
            rw [List.cons_append, List.cons_append,
              decodeAux_lddw_cons x y (rest2 ++ [w]) i hx,
              List.mem_cons] at hmem
            rcases hmem with hmem | hmem
            · subst hmem
              simp only [List.length_cons]
              omega
            · have hlen : rest2.length < n := by
                subst hl; simp; omega
              have := ih rest2.length hlen rest2 rfl w (i + 2) hw insn hmem
              simp only [List.length_cons]
              omega
        · rw [List.cons_append, decodeAux_cons_other x (rest ++ [w]) i hx,
            List.mem_cons] at hmem
          rcases hmem with hmem | hmem
          · subst hmem
            simp only [List.length_cons]
            omega
          · have hlen : rest.length < n := by subst hl; simp
            have := ih rest.length hlen rest rfl w (i + 1) hw insn hmem
            simp only [List.length_cons]
            omega

/-- Witness for `claim_C9_amended` at concrete inputs: a lone trailing
half decodes to nothing, and `exit ; lddw-half` yields no instruction at
index 1. -/
theorem claim_C9_amended_witness :
    decodeAux [raw Ebpf.LD_DW_IMM 0 0 0 5] 7 = [] ∧
    (∀ insn ∈ decodeAux ([raw Ebpf.EXIT 0 0 0 0] ++
        [raw Ebpf.LD_DW_IMM 0 0 0 5]) 0, insn.ptr ≠ 0 + 1) :=
  ⟨claim_C9_amended.1 (raw Ebpf.LD_DW_IMM 0 0 0 5) 7 rfl,
   fun insn hmem =>
     claim_C9_amended.2 [raw Ebpf.EXIT 0 0 0 0]
       (raw Ebpf.LD_DW_IMM 0 0 0 5) 0 rfl insn hmem⟩

theorem foldlM_option_inv {α σ : Type} (step : σ → α → Option σ)
    (P : σ → Prop)
    (hstep : ∀ s x s', P s → step s x = some s' → P s') :
    ∀ (l : List α) (s s' : σ), P s → l.foldlM step s = some s' → P s' := by
  intro l
  induction l with
  | nil =>
    intro s s' hP h
    simp only [List.foldlM_nil] at h
    obtain rfl : s = s' := by injection h
    exact hP
  | cons x t ih =>
    intro s s' hP h
    rw [List.foldlM_cons] at h
    cases hs : step s x with
    | none => rw [hs] at h; simp at h
    | some s1 =>
      rw [hs] at h
      exact ih s1 s' (hstep s x s1 hP hs) h

theorem domPassStep_entry (fuel e : Nat) (st st' : List (Nat × CfgNode) × Bool)
    (b : Nat)
    (hP : ∃ nd, nfind? st.1 e = some nd ∧ nd.sources = [] ∧
      nd.dominatorParent = e)
    (h : domPassStep fuel st b = some st') :
    ∃ nd, nfind? st'.1 e = some nd ∧ nd.sources = [] ∧
      nd.dominatorParent = e := by
  obtain ⟨nd, hfind, hsrc, hdom⟩ := hP
  unfold domPassStep at h
  simp only [bind, Option.bind_eq_some] at h
  obtain ⟨node, hnode, dp0, hdp0, h⟩ := h
  by_cases hb : e = b
  · rw [← hb] at h hnode hdp0
    have hnd : nd = node := by
      rw [hnode] at hfind
      injection hfind with hh
      exact hh.symm
    have hsrc2 : node.sources = [] := hnd ▸ hsrc
    have hdom2 : node.dominatorParent = e := hnd ▸ hdom
    have hdp0v : dp0 = e := by
      have hcd : computeDominator st.1 fuel e node = some e := by
        unfold computeDominator
        rw [if_pos (by rw [hsrc2]; rfl)]
      rw [hcd] at hdp0
      injection hdp0 with hh
      exact hh.symm
    rw [hdp0v] at h
    have hifsimp : (if (e : Nat) = SENTINEL then e else e) = e := by
      by_cases hs : (e : Nat) = SENTINEL <;> simp [hs]
    rw [hifsimp] at h
    rw [if_neg (by rw [hdom2]; exact fun hh => hh rfl)] at h
    have hst : st = st' := by simpa [pure] using h
    subst hst
    exact ⟨node, hnode, hsrc2, hdom2⟩
  · by_cases hcond : node.dominatorParent ≠ (if dp0 = SENTINEL then b else dp0)
    · rw [if_pos hcond] at h
      simp only [bind, Option.bind_eq_some, pure, Option.some.injEq] at h
      obtain ⟨m', hm', h⟩ := h
      obtain rfl : (m', false) = st' := h
      refine ⟨nd, ?_, hsrc, hdom⟩
      rw [nfind?_nmodify? b _ st.1 m' hm' e, if_neg hb]
      exact hfind
    · rw [if_neg hcond] at h
      have hst : st = st' := by simpa [pure] using h
      subst hst
      exact ⟨nd, hfind, hsrc, hdom⟩

theorem domLoop_entry (topo : List Nat) (innerFuel e : Nat) :
    ∀ (outerFuel : Nat) (m m' : List (Nat × CfgNode)),
    (∃ nd, nfind? m e = some nd ∧ nd.sources = [] ∧ nd.dominatorParent = e) →
    domLoop topo innerFuel outerFuel m = some m' →
    ∃ nd, nfind? m' e = some nd ∧ nd.sources = [] ∧ nd.dominatorParent = e := by
  intro outerFuel
  induction outerFuel with
  | zero => intro m m' _ h; simp [domLoop] at h
  | succ n ih =>
    intro m m' hP h
    unfold domLoop at h
    simp only [bind, Option.bind_eq_some] at h
    obtain ⟨r, hr, h⟩ := h
    have hPr : ∃ nd, nfind? r.1 e = some nd ∧ nd.sources = [] ∧
        nd.dominatorParent = e :=
      foldlM_option_inv (domPassStep innerFuel) _
        (fun s x s' hs hstep => domPassStep_entry innerFuel e s s' x hs hstep)
        topo (m, true) r hP hr
    split at h
    · obtain rfl : r.1 = m' := by injection h
      exact hPr
    · exact ih r.1 m' hPr h

theorem domChildrenStep_entry (e : Nat) (m m' : List (Nat × CfgNode)) (b : Nat)
    (hP : ∃ nd, nfind? m e = some nd ∧ nd.dominatorParent = e)
    (h : domChildrenStep m b = some m') :
    ∃ nd, nfind? m' e = some nd ∧ nd.dominatorParent = e := by
  obtain ⟨nd, hfind, hdom⟩ := hP
  unfold domChildrenStep at h
  simp only [bind, Option.bind_eq_some] at h
  obtain ⟨node, hnode, h⟩ := h
  split at h
  · obtain rfl : m = m' := by injection h
    exact ⟨nd, hfind, hdom⟩
  · rw [nfind?_nmodify? node.dominatorParent _ m m' h e]
    by_cases he : e = node.dominatorParent
    · rw [if_pos he, ← he, hfind]
      exact ⟨_, rfl, hdom⟩
    · rw [if_neg he]
      exact ⟨nd, hfind, hdom⟩

/-- Claim C5, amended: after `control_flow_graph_dominance_hierarchy`
completes, the entry block's `dominator_parent` equals the entry block
itself provided the entry block has no predecessors; when some block
branches back to the entry, the fixed-point pass may overwrite the entry's
dominator with one of its predecessors (see the counterexample). -/
theorem claim_C5_amended (fuel : Nat) (a a' : Analysis)
    (h : controlFlowGraphDominanceHierarchy fuel a = some a')
    (node : CfgNode) (hnode : nfind? a.cfgNodes a.entrypoint = some node)
    (hsrc : node.sources = []) :
    a'.entrypoint = a.entrypoint ∧
    (nfind? a'.cfgNodes a'.entrypoint).map CfgNode.dominatorParent =
      some a'.entrypoint := by
  unfold controlFlowGraphDominanceHierarchy at h
  rw [if_neg (by
    intro hemp
    rw [List.isEmpty_iff] at hemp
    rw [hemp] at hnode
    exact Option.noConfusion hnode)] at h
  simp only [bind, Option.bind_eq_some] at h
  obtain ⟨cfg0, hcfg0, cfg1, hcfg1, cfg2, hcfg2, h⟩ := h
  obtain rfl : { a with cfgNodes := cfg2 } = a' := by injection h
  have hP0 : ∃ nd, nfind? cfg0 a.entrypoint = some nd ∧ nd.sources = [] ∧
      nd.dominatorParent = a.entrypoint := by
    rw [nfind?_nmodify? a.entrypoint _ a.cfgNodes cfg0 hcfg0 a.entrypoint,
      if_pos rfl, hnode]
    exact ⟨_, rfl, hsrc, rfl⟩
  have hP1 := domLoop_entry a.topologicalOrder fuel a.entrypoint fuel cfg0
    cfg1 hP0 hcfg1
  have hP2 : ∃ nd, nfind? cfg2 a.entrypoint = some nd ∧
      nd.dominatorParent = a.entrypoint :=
    foldlM_option_inv domChildrenStep _
      (fun s x s' hs hstep => domChildrenStep_entry a.entrypoint s s' x hs hstep)
      a.topologicalOrder cfg1 cfg2
      (hP1.imp fun nd hnd => ⟨hnd.1, hnd.2.2⟩) hcfg2
  obtain ⟨nd, hfind, hdom⟩ := hP2
  exact ⟨rfl, by simp [hfind, hdom]⟩

/-- Witness for `claim_C5_amended`: the single-`exit` program, whose entry
block has no predecessors. -/
theorem claim_C5_amended_witness :
    controlFlowGraphDominanceHierarchy 50 exeExitA3 = some exeExitA4 ∧
    nfind? exeExitA3.cfgNodes exeExitA3.entrypoint = some exeExitEntryNode ∧
    exeExitEntryNode.sources = [] ∧
    (exeExitA4.entrypoint = exeExitA3.entrypoint ∧
     (nfind? exeExitA4.cfgNodes exeExitA4.entrypoint).map
       CfgNode.dominatorParent = some exeExitA4.entrypoint) :=
  ⟨by decide, by decide, by decide,
   claim_C5_amended 50 exeExitA3 exeExitA4 (by decide) exeExitEntryNode
     (by decide) (by decide)⟩

theorem domPassStep_true (fuel : Nat) (st st' : List (Nat × CfgNode) × Bool)
    (b : Nat) (h : domPassStep fuel st b = some st') (ht : st'.2 = true) :
    st' = st := by
  unfold domPassStep at h
  simp only [bind, Option.bind_eq_some] at h
  obtain ⟨node, hnode, dp0, hdp0, h⟩ := h
  by_cases hcond : node.dominatorParent ≠ (if dp0 = SENTINEL then b else dp0)
  · rw [if_pos hcond] at h
    simp only [bind, Option.bind_eq_some, pure, Option.some.injEq] at h
    obtain ⟨m', hm', h⟩ := h
    rw [← h] at ht
    simp at ht
  · rw [if_neg hcond] at h
    have hst : st = st' := by simpa [pure] using h
    exact hst.symm

theorem domPassFold_true (fuel : Nat) :
    ∀ (l : List Nat) (st st' : List (Nat × CfgNode) × Bool),
    l.foldlM (domPassStep fuel) st = some st' → st'.2 = true → st' = st := by
  intro l
  induction l with
  | nil =>
    intro st st' h _
    simp only [List.foldlM_nil] at h
    injection h with hh
    exact hh.symm
  | cons x t ih =>
    intro st st' h ht
    rw [List.foldlM_cons] at h
    cases hs : domPassStep fuel st x with
    | none => rw [hs] at h; simp at h
    | some s1 =>
      rw [hs] at h
      have h1 := ih s1 st' h ht
      rw [h1] at ht ⊢
      exact domPassStep_true fuel st s1 x hs ht

theorem domPass_true_id (m m' : List (Nat × CfgNode)) (topo : List Nat)
    (fuel : Nat) (h : domPass m topo fuel = some (m', true)) : m' = m := by
  have := domPassFold_true fuel topo (m, true) (m', true) h rfl
  injection this

theorem domViewEq_refl (m : List (Nat × CfgNode)) : DomViewEq m m :=
  fun _ => rfl

theorem domViewEq_trans {m₁ m₂ m₃ : List (Nat × CfgNode)}
    (h₁ : DomViewEq m₁ m₂) (h₂ : DomViewEq m₂ m₃) : DomViewEq m₁ m₃ :=
  fun k => (h₁ k).trans (h₂ k)

theorem domViewEq_none {m₁ m₂ : List (Nat × CfgNode)} (h : DomViewEq m₁ m₂)
    (k : Nat) (hk : nfind? m₁ k = none) : nfind? m₂ k = none := by
  have := h k
  rw [hk] at this
  simp only [Option.map_none'] at this
  cases hm : nfind? m₂ k with
  | none => rfl
  | some n => rw [hm] at this; simp at this

theorem domViewEq_some {m₁ m₂ : List (Nat × CfgNode)} (h : DomViewEq m₁ m₂)
    (k : Nat) (n₁ : CfgNode) (hk : nfind? m₁ k = some n₁) :
    ∃ n₂, nfind? m₂ k = some n₂ ∧ n₂.sources = n₁.sources ∧
      n₂.dominatorParent = n₁.dominatorParent ∧ n₂.sccId = n₁.sccId ∧
      n₂.indexInScc = n₁.indexInScc := by
  have hview := h k
  rw [hk] at hview
  cases hm : nfind? m₂ k with
  | none => rw [hm] at hview; simp at hview
  | some n₂ =>
    rw [hm] at hview
    simp only [Option.map_some', Option.some.injEq] at hview
    refine ⟨n₂, rfl, ?_, ?_, ?_, ?_⟩ <;>
      · have := hview
        unfold CfgNode.domView at this
        simp only [Prod.mk.injEq] at this
        tauto

theorem cfgOrder?_congr {m₁ m₂ : List (Nat × CfgNode)} (h : DomViewEq m₁ m₂)
    (x y : Nat) : cfgOrder? m₁ x y = cfgOrder? m₂ x y := by
  unfold cfgOrder?
  cases hx : nfind? m₁ x with
  | none =>
    rw [domViewEq_none h x hx]
    rfl
  | some nx =>
    obtain ⟨nx₂, hx₂, _, _, hsccx, hidxx⟩ := domViewEq_some h x nx hx
    rw [hx₂]
    simp only [bind, Option.some_bind]
    cases hy : nfind? m₁ y with
    | none =>
      rw [domViewEq_none h y hy]
      rfl
    | some ny =>
      obtain ⟨ny₂, hy₂, _, _, hsccy, hidxy⟩ := domViewEq_some h y ny hy
      rw [hy₂]
      simp only [bind, Option.some_bind, pure]
      unfold cfgOrderOf
      rw [hsccx, hidxx, hsccy, hidxy]

theorem intersect_congr {m₁ m₂ : List (Nat × CfgNode)} (h : DomViewEq m₁ m₂) :
    ∀ (fuel d p : Nat), intersect m₁ fuel d p = intersect m₂ fuel d p := by
  intro fuel
  induction fuel with
  | zero => intro d p; rfl
  | succ n ih =>
    intro d p
    unfold intersect
    by_cases hdp : d = p
    · simp [hdp]
    · rw [if_neg hdp, if_neg hdp, cfgOrder?_congr h d p]
      cases ho : cfgOrder? m₂ d p with
      | none => rfl
      | some o =>
        cases o with
        | lt =>
          cases hp : nfind? m₁ p with
          | none =>
            rw [domViewEq_none h p hp]
            rfl
          | some np =>
            obtain ⟨np₂, hp₂, _, hdom, _, _⟩ := domViewEq_some h p np hp
            rw [hp₂]
            simp only [bind, Option.some_bind]
            rw [hdom, ih]
        | eq => rfl
        | gt =>
          cases hd : nfind? m₁ d with
          | none =>
            rw [domViewEq_none h d hd]
            rfl
          | some nd =>
            obtain ⟨nd₂, hd₂, _, hdom, _, _⟩ := domViewEq_some h d nd hd
            rw [hd₂]
            simp only [bind, Option.some_bind]
            rw [hdom, ih]

theorem foldlM_option_congr {α σ : Type} (f g : σ → α → Option σ)
    (hfg : ∀ s x, f s x = g s x) :
    ∀ (l : List α) (s : σ), l.foldlM f s = l.foldlM g s := by
  intro l
  induction l with
  | nil => intro s; rfl
  | cons x t ih =>
    intro s
    rw [List.foldlM_cons, List.foldlM_cons, hfg]
    cases g s x with
    | none => rfl
    | some s1 =>
      simp only [bind, Option.some_bind]
      exact ih s1

theorem computeDominator_congr {m₁ m₂ : List (Nat × CfgNode)}
    (h : DomViewEq m₁ m₂) (fuel b : Nat) (n₁ n₂ : CfgNode)
    (hsrc : n₂.sources = n₁.sources) :
    computeDominator m₁ fuel b n₁ = computeDominator m₂ fuel b n₂ := by
  unfold computeDominator
  rw [hsrc]
  by_cases hempty : n₁.sources.isEmpty
  · rw [if_pos hempty, if_pos hempty]
  · rw [if_neg hempty, if_neg hempty]
    refine foldlM_option_congr _ _ (fun dp p => ?_) n₁.sources SENTINEL
    cases hp : nfind? m₁ p with
    | none =>
      rw [domViewEq_none h p hp]
      rfl
    | some np =>
      obtain ⟨np₂, hp₂, _, hdom, _, _⟩ := domViewEq_some h p np hp
      rw [hp₂]
      simp only [bind, Option.some_bind]
      rw [hdom, intersect_congr h]

theorem domPassStep_congr {m₁ m₂ : List (Nat × CfgNode)} (hv : DomViewEq m₁ m₂)
    (fuel b : Nat) (fl : Bool) (r₁ : List (Nat × CfgNode) × Bool)
    (h : domPassStep fuel (m₁, fl) b = some r₁) :
    ∃ r₂, domPassStep fuel (m₂, fl) b = some r₂ ∧ DomViewEq r₁.1 r₂.1 ∧
      r₁.2 = r₂.2 := by
  unfold domPassStep at h ⊢
  simp only [bind, Option.bind_eq_some] at h
  obtain ⟨node, hnode, dp0, hdp0, h⟩ := h
  obtain ⟨node₂, hnode₂, hsrc₂, hdom₂, hscc₂, hidx₂⟩ :=
    domViewEq_some hv b node hnode
  rw [hnode₂]
  simp only [bind, Option.some_bind]
  rw [← computeDominator_congr hv fuel b node node₂ hsrc₂, hdp0]
  simp only [bind, Option.some_bind]
  rw [hdom₂]
  by_cases hcond : node.dominatorParent ≠ (if dp0 = SENTINEL then b else dp0)
  · rw [if_pos hcond] at h ⊢
    simp only [bind, Option.bind_eq_some, pure, Option.some.injEq] at h
    obtain ⟨m₁', hm₁', h⟩ := h
    have hm₂ : (nmodify? b
        (fun n => { n with dominatorParent := if dp0 = SENTINEL then b else dp0 })
        m₂).isSome := by
      rw [Option.isSome_iff_ne_none]
      intro hnone
      rw [nmodify?_eq_none] at hnone
      rw [hnone] at hnode₂
      exact Option.noConfusion hnode₂
    obtain ⟨m₂', hm₂'⟩ := Option.isSome_iff_exists.mp hm₂
    refine ⟨(m₂', false), ?_, ?_, ?_⟩
    · rw [hm₂']
      rfl
    · rw [← h]
      intro k
      rw [nfind?_nmodify? b _ m₁ m₁' hm₁' k,
        nfind?_nmodify? b _ m₂ m₂' hm₂' k]
      by_cases hk : k = b
      · rw [if_pos hk, if_pos hk, hnode, hnode₂]
        simp only [Option.map_some']
        unfold CfgNode.domView
        simp only [Option.some.injEq, Prod.mk.injEq]
        exact ⟨hsrc₂.symm, trivial, hscc₂.symm, hidx₂.symm⟩
      · rw [if_neg hk, if_neg hk]
        exact hv k
    · rw [← h]
  · rw [if_neg hcond] at h ⊢
    have hst : (m₁, fl) = r₁ := by simpa [pure] using h
    exact ⟨(m₂, fl), rfl, by rw [← hst]; exact hv, by rw [← hst]⟩

theorem domPassFold_congr (fuel : Nat) :
    ∀ (l : List Nat) (m₁ m₂ : List (Nat × CfgNode)) (fl : Bool)
      (r₁ : List (Nat × CfgNode) × Bool),
    DomViewEq m₁ m₂ →
    l.foldlM (domPassStep fuel) (m₁, fl) = some r₁ →
    ∃ r₂, l.foldlM (domPassStep fuel) (m₂, fl) = some r₂ ∧
      DomViewEq r₁.1 r₂.1 ∧ r₁.2 = r₂.2 := by
  intro l
  induction l with
  | nil =>
    intro m₁ m₂ fl r₁ hv h
    simp only [List.foldlM_nil] at h
    obtain rfl : (m₁, fl) = r₁ := by injection h
    exact ⟨(m₂, fl), rfl, hv, rfl⟩
  | cons x t ih =>
    intro m₁ m₂ fl r₁ hv h
    rw [List.foldlM_cons] at h ⊢
    cases hs : domPassStep fuel (m₁, fl) x with
    | none => rw [hs] at h; simp at h
    | some s₁ =>
      rw [hs] at h
      obtain ⟨s₂, hs₂, hv', hfl'⟩ := domPassStep_congr hv fuel x fl s₁ hs
      obtain ⟨m₁', fl₁⟩ := s₁
      obtain ⟨m₂', fl₂⟩ := s₂
      simp only at hv' hfl'
      subst hfl'
      rw [hs₂]
      simp only [bind, Option.some_bind] at h ⊢
      exact ih m₁' m₂' fl₁ r₁ hv' h

theorem domLoop_fixed (topo : List Nat) (innerFuel : Nat) :
    ∀ (outerFuel : Nat) (m m' : List (Nat × CfgNode)),
    domLoop topo innerFuel outerFuel m = some m' →
    domPass m' topo innerFuel = some (m', true) := by
  intro outerFuel
  induction outerFuel with
  | zero => intro m m' h; simp [domLoop] at h
  | succ n ih =>
    intro m m' h
    unfold domLoop at h
    simp only [bind, Option.bind_eq_some] at h
    obtain ⟨r, hr, h⟩ := h
    obtain ⟨rm, rfl2⟩ := r
    cases rfl2 with
    | true =>
      have hid : rm = m := domPass_true_id m rm topo innerFuel hr
      have hm' : rm = m' := by simpa [pure] using h
      subst hm'
      subst hid
      exact hr
    | false =>
      simp only [Bool.false_eq_true, if_false] at h
      exact ih rm m' h

theorem domChildrenStep_view (m m' : List (Nat × CfgNode)) (b : Nat)
    (h : domChildrenStep m b = some m') : DomViewEq m m' := by
  unfold domChildrenStep at h
  simp only [bind, Option.bind_eq_some] at h
  obtain ⟨node, hnode, h⟩ := h
  by_cases hb : b = node.dominatorParent
  · rw [if_pos hb] at h
    have : m = m' := by simpa [pure] using h
    rw [← this]
    exact domViewEq_refl m
  · rw [if_neg hb] at h
    intro k
    rw [nfind?_nmodify? node.dominatorParent _ m m' h k]
    by_cases hk : k = node.dominatorParent
    · rw [if_pos hk, ← hk]
      cases hf : nfind? m k with
      | none => simp
      | some n => simp [CfgNode.domView]
    · rw [if_neg hk]

theorem domChildrenFold_view (l : List Nat) (m m' : List (Nat × CfgNode))
    (h : l.foldlM domChildrenStep m = some m') : DomViewEq m m' :=
  foldlM_option_inv domChildrenStep (fun s => DomViewEq m s)
    (fun s x s' hs hstep => domViewEq_trans hs (domChildrenStep_view s s' x hstep))
    l m m' (domViewEq_refl m) h

theorem afterSplit_frame (exe : Exe) (a1 : Analysis)
    (h : analysisAfterSplit exe = some a1) :
    a1.instructions = decodeProgram exe.prog ∧
    a1.topologicalOrder = [] ∧
    a1.entrypoint = exe.entrypoint ∧
    a1.syscalls = exe.syscalls ∧
    a1.dfgForwardEdges = [] ∧ a1.dfgReverseEdges = [] := by
  unfold analysisAfterSplit splitIntoBasicBlocks at h
  simp only [Bool.false_eq_true, if_false] at h
  split at h
  · exact absurd h (by simp)
  · split at h
    · exact absurd h (by simp)
    · injection h with hh
      rw [← hh]
      exact ⟨rfl, rfl, rfl, rfl, rfl, rfl⟩

theorem tarjan_topo (fuel : Nat) (a a3 : Analysis)
    (h : controlFlowGraphTarjan fuel a = some a3) :
    a3.topologicalOrder = a.topologicalOrder ∨
    a3.topologicalOrder = sortBy (cfgOrderD a3.cfgNodes) (nkeys a3.cfgNodes) := by
  unfold controlFlowGraphTarjan at h
  split at h
  · left
    have : a = a3 := by injection h
    rw [← this]
  · split at h
    · exact absurd h (by simp)
    · split at h
      · exact absurd h (by simp)
      · right
        injection h with hh
        rw [← hh]

/-- Claim C4: the dominator assignment `control_flow_graph_dominance_hierarchy`
leaves behind is a fixed point — running one further full pass of the
Cooper-Harvey-Kennedy iteration over the computed `dominator_parent`
values changes no block's `dominator_parent` (the pass reports
`terminate = true` and returns the map unchanged). -/
theorem claim_C4 (exe : Exe) (fuel : Nat) (a' : Analysis)
    (h : analysisUpToDominance exe fuel = some a') :
    domPass a'.cfgNodes a'.topologicalOrder fuel = some (a'.cfgNodes, true) := by
  unfold analysisUpToDominance at h
  simp only [bind, Option.bind_eq_some] at h
  obtain ⟨a3, ha3, hdom⟩ := h
  unfold controlFlowGraphDominanceHierarchy at hdom
  by_cases hemp : a3.cfgNodes.isEmpty
  · rw [if_pos hemp] at hdom
    have ha' : a3 = a' := by injection hdom
    subst ha'
    have hcfg : a3.cfgNodes = [] := List.isEmpty_iff.mp hemp
    have htopo : a3.topologicalOrder = [] := by
      unfold analysisUpToTarjan at ha3
      simp only [bind, Option.bind_eq_some] at ha3
      obtain ⟨a1, ha1, htj⟩ := ha3
      rcases tarjan_topo fuel (labelBasicBlocks a1) a3 htj with hh | hh
      · rw [hh]
        show a1.topologicalOrder = []
        exact (afterSplit_frame exe a1 ha1).2.1
      · rw [hh, hcfg]
        rfl
    rw [htopo]
    rfl
  · rw [if_neg hemp] at hdom
    simp only [bind, Option.bind_eq_some] at hdom
    obtain ⟨cfg0, hcfg0, cfg1, hcfg1, cfg2, hcfg2, hfin⟩ := hdom
    have ha' : { a3 with cfgNodes := cfg2 } = a' := by
      simpa [pure] using hfin
    have h1 : domPass cfg1 a3.topologicalOrder fuel = some (cfg1, true) :=
      domLoop_fixed a3.topologicalOrder fuel fuel cfg0 cfg1 hcfg1
    have hv : DomViewEq cfg1 cfg2 :=
      domChildrenFold_view a3.topologicalOrder cfg1 cfg2 hcfg2
    unfold domPass at h1 ⊢
    obtain ⟨r₂, hr₂, hv₂, hfl₂⟩ :=
      domPassFold_congr fuel a3.topologicalOrder cfg1 cfg2 true (cfg1, true)
        hv h1
    have hr₂id : r₂ = (cfg2, true) := by
      have := domPassFold_true fuel a3.topologicalOrder (cfg2, true) r₂ hr₂
        (by rw [← hfl₂])
      rw [this]
    rw [← ha']
    show List.foldlM (domPassStep fuel) (cfg2, true) a3.topologicalOrder =
      some (cfg2, true)
    rw [hr₂, hr₂id]

/-- Witness for `claim_C4` at the single-`exit` program. -/
theorem claim_C4_witness :
    analysisUpToDominance exeExit 50 = some exeExitA4 ∧
    domPass exeExitA4.cfgNodes exeExitA4.topologicalOrder 50 =
      some (exeExitA4.cfgNodes, true) :=
  ⟨by decide, claim_C4 exeExit 50 exeExitA4 (by decide)⟩

/-! Lemmas about `advance`: it never moves backwards, stays within the
instruction list, and consumes everything when the bound dominates every
instruction pointer. -/

theorem advanceFrom_ge :
    ∀ (l : List Insn) (bound idx : Nat), idx ≤ advanceFrom l bound idx := by
  intro l
  induction l with
  | nil => intro bound idx; simp [advanceFrom]
  | cons insn rest ih =>
    intro bound idx
    unfold advanceFrom
    by_cases h : insn.ptr ≤ bound
    · rw [if_pos h]
      exact le_trans (Nat.le_succ idx) (ih bound (idx + 1))
    · rw [if_neg h]

theorem advanceFrom_le :
    ∀ (l : List Insn) (bound idx : Nat),
      advanceFrom l bound idx ≤ idx + l.length := by
  intro l
  induction l with
  | nil => intro bound idx; simp [advanceFrom]
  | cons insn rest ih =>
    intro bound idx
    unfold advanceFrom
    by_cases h : insn.ptr ≤ bound
    · rw [if_pos h]
      have := ih bound (idx + 1)
      simp only [List.length_cons]
      omega
    · rw [if_neg h]
      simp

theorem advanceFrom_all :
    ∀ (l : List Insn) (bound idx : Nat),
      (∀ insn ∈ l, insn.ptr ≤ bound) →
      advanceFrom l bound idx = idx + l.length := by
  intro l
  induction l with
  | nil => intro bound idx _; simp [advanceFrom]
  | cons insn rest ih =>
    intro bound idx hall
    unfold advanceFrom
    rw [if_pos (hall insn (List.mem_cons_self insn rest))]
    rw [ih bound (idx + 1) (fun i hi => hall i (List.mem_cons_of_mem insn hi))]
    simp only [List.length_cons]
    omega

theorem advance_ge (insns : List Insn) (bound idx : Nat) :
    idx ≤ advance insns bound idx :=
  advanceFrom_ge (insns.drop idx) bound idx

theorem advance_le (insns : List Insn) (bound idx : Nat)
    (h : idx ≤ insns.length) : advance insns bound idx ≤ insns.length := by
  unfold advance
  have := advanceFrom_le (insns.drop idx) bound idx
  rw [List.length_drop] at this
  omega

theorem advance_all (insns : List Insn) (bound idx : Nat)
    (hall : ∀ insn ∈ insns, insn.ptr ≤ bound) (h : idx ≤ insns.length) :
    advance insns bound idx = insns.length := by
  unfold advance
  rw [advanceFrom_all (insns.drop idx) bound idx
    (fun i hi => hall i (List.mem_of_mem_drop hi))]
  rw [List.length_drop]
  omega

/-! Lemmas about the decoder's instruction pointers: they start at the
running word index and the last decoded instruction carries the largest
pointer. -/

theorem decodeAux_ptr_ge :
    ∀ (l : List RawIns) (i : Nat), ∀ insn ∈ decodeAux l i, i ≤ insn.ptr := by
  suffices H : ∀ (n : Nat) (l : List RawIns), l.length = n →
      ∀ (i : Nat), ∀ insn ∈ decodeAux l i, i ≤ insn.ptr by
    intro l i
    exact H l.length l rfl i
  intro n
  induction n using Nat.strong_induction_on with
  | _ n ih =>
    intro l hl i insn hmem
    match l, hl with
    | [], hl =>
      rw [show decodeAux [] i = [] from rfl] at hmem
      exact absurd hmem (List.not_mem_nil insn)
    | x :: rest, hl =>
      by_cases hx : x.opc = Ebpf.LD_DW_IMM
      · match rest, hl with
        | [], hl =>
          rw [decodeAux_lddw_nil x i hx] at hmem
          exact absurd hmem (List.not_mem_nil insn)
        | y :: rest2, hl =>
          rw [decodeAux_lddw_cons x y rest2 i hx, List.mem_cons] at hmem
          rcases hmem with hmem | hmem
          · subst hmem; exact le_refl i
          · have hlen : rest2.length < n := by subst hl; simp; omega
            have := ih rest2.length hlen rest2 rfl (i + 2) insn hmem
            omega
      · rw [decodeAux_cons_other x rest i hx, List.mem_cons] at hmem
        rcases hmem with hmem | hmem
        · subst hmem; exact le_refl i
        · have hlen : rest.length < n := by subst hl; simp
          have := ih rest.length hlen rest rfl (i + 1) insn hmem
          omega

theorem decodeAux_ptr_le_last :
    ∀ (l : List RawIns) (i : Nat) (last : Insn),
      (decodeAux l i).getLast? = some last →
      ∀ insn ∈ decodeAux l i, insn.ptr ≤ last.ptr := by
  suffices H : ∀ (n : Nat) (l : List RawIns), l.length = n →
      ∀ (i : Nat) (last : Insn), (decodeAux l i).getLast? = some last →
      ∀ insn ∈ decodeAux l i, insn.ptr ≤ last.ptr by
    intro l i
    exact H l.length l rfl i
  intro n
  induction n using Nat.strong_induction_on with
  | _ n ih =>
    intro l hl i last hlast insn hmem
    match l, hl with
    | [], hl =>
      rw [show decodeAux [] i = [] from rfl] at hmem
      exact absurd hmem (List.not_mem_nil insn)
    | x :: rest, hl =>
      by_cases hx : x.opc = Ebpf.LD_DW_IMM
      · match rest, hl with
        | [], hl =>
          rw [decodeAux_lddw_nil x i hx] at hmem
          exact absurd hmem (List.not_mem_nil insn)
        | y :: rest2, hl =>
          rw [decodeAux_lddw_cons x y rest2 i hx] at hmem hlast
          cases hd : decodeAux rest2 (i + 2) with
          | nil =>
            rw [hd] at hmem hlast
            rw [List.getLast?_singleton] at hlast
            injection hlast with hlast
            rw [List.mem_singleton] at hmem
            rw [hmem, hlast]
          | cons z zs =>
            rw [hd] at hmem hlast
            rw [List.getLast?_cons_cons] at hlast
            have hlen : rest2.length < n := by subst hl; simp; omega
            have hlast' : (decodeAux rest2 (i + 2)).getLast? = some last := by
              rw [hd]; exact hlast
            rw [List.mem_cons] at hmem
            rcases hmem with hmem | hmem
            · subst hmem
              have hlm : last ∈ decodeAux rest2 (i + 2) := by
                rcases List.mem_getLast?_eq_getLast hlast' with ⟨hne, hgl⟩
                rw [hgl]
                exact List.getLast_mem hne
              have := decodeAux_ptr_ge rest2 (i + 2) last hlm
              show i ≤ last.ptr
              omega
            · exact ih rest2.length hlen rest2 rfl (i + 2) last hlast' insn
                (by rw [hd]; exact hmem)
      · rw [decodeAux_cons_other x rest i hx] at hmem hlast
        cases hd : decodeAux rest (i + 1) with
        | nil =>
          rw [hd] at hmem hlast
          rw [List.getLast?_singleton] at hlast
          injection hlast with hlast
          rw [List.mem_singleton] at hmem
          rw [hmem, hlast]
        | cons z zs =>
          rw [hd] at hmem hlast
          rw [List.getLast?_cons_cons] at hlast
          have hlen : rest.length < n := by subst hl; simp
          have hlast' : (decodeAux rest (i + 1)).getLast? = some last := by
            rw [hd]; exact hlast
          rw [List.mem_cons] at hmem
          rcases hmem with hmem | hmem
          · subst hmem
            have hlm : last ∈ decodeAux rest (i + 1) := by
              rcases List.mem_getLast?_eq_getLast hlast' with ⟨hne, hgl⟩
              rw [hgl]
              exact List.getLast_mem hne
            have := decodeAux_ptr_ge rest (i + 1) last hlm
            show i ≤ last.ptr
            omega
          · exact ih rest.length hlen rest rfl (i + 1) last hlast' insn
              (by rw [hd]; exact hmem)

/-! Lemmas about `RangesSpec`: the ranges walk forward, and each
instruction index below the final cut is covered by exactly one node. -/

theorem rangesSpec_le :
    ∀ (l : List (Nat × CfgNode)) (s f : Nat), RangesSpec s l f → s ≤ f := by
  intro l
  induction l with
  | nil => intro s f h; exact le_of_eq h.symm
  | cons p t ih =>
    intro s f h
    obtain ⟨k, node⟩ := p
    obtain ⟨_, c, hsc, _, hrest⟩ := h
    exact le_trans hsc (ih c f hrest)

theorem rangesSpec_count :
    ∀ (l : List (Nat × CfgNode)) (s f : Nat), RangesSpec s l f →
      ∀ pc : Nat,
        (l.filter fun p =>
          p.2.instructionsStart ≤ pc ∧ pc < p.2.instructionsEnd).length =
        if s ≤ pc ∧ pc < f then 1 else 0 := by
  intro l
  induction l with
  | nil =>
    intro s f h pc
    have : f = s := h
    subst this
    simp only [List.filter_nil, List.length_nil]
    rw [if_neg (by omega)]
  | cons p t ih =>
    intro s f h pc
    obtain ⟨k, node⟩ := p
    obtain ⟨hstart, c, hsc, hend, hrest⟩ := h
    have hcf : c ≤ f := rangesSpec_le t c f hrest
    have hrec := ih c f hrest pc
    rw [List.filter_cons]
    by_cases hin : s ≤ pc ∧ pc < c
    · have hcond : (node.instructionsStart ≤ pc ∧
          pc < node.instructionsEnd) := by
        rw [hstart, hend, if_pos (show s < c by omega)]
        exact hin
      rw [if_pos (by simpa using hcond)]
      simp only [List.length_cons]
      rw [hrec, if_neg (show ¬(c ≤ pc ∧ pc < f) by omega),
        if_pos (show s ≤ pc ∧ pc < f by omega)]
    · have hcond : ¬(node.instructionsStart ≤ pc ∧
          pc < node.instructionsEnd) := by
        rw [hstart, hend]
        by_cases hsltc : s < c
        · rw [if_pos hsltc]; exact hin
        · rw [if_neg hsltc]; omega
      rw [if_neg (by simpa using hcond)]
      rw [hrec]
      by_cases hpc : pc < s
      · rw [if_neg (show ¬(c ≤ pc ∧ pc < f) by omega),
          if_neg (show ¬(s ≤ pc ∧ pc < f) by omega)]
      · by_cases hf : pc < f
        · rw [if_pos (show c ≤ pc ∧ pc < f by omega),
            if_pos (show s ≤ pc ∧ pc < f by omega)]
        · rw [if_neg (show ¬(c ≤ pc ∧ pc < f) by omega),
          if_neg (show ¬(s ≤ pc ∧ pc < f) by omega)]

/-- One-step equation of `walkNodes` for a non-last node with no pending
edges. -/
theorem walkNodes_cons_cons_nil (insns : List Insn)
    (functions : List (Nat × (Nat × String))) (lastPtr? : Option Nat)
    (k : Nat) (node : CfgNode) (k2 : Nat) (n2 : CfgNode)
    (tail : List (Nat × CfgNode)) (idx : Nat) :
    walkNodes insns functions lastPtr? ((k, node) :: (k2, n2) :: tail) []
        idx =
      match walkNodes insns functions lastPtr? ((k2, n2) :: tail) []
          (advance insns (k2 - 1) idx) with
      | none => none
      | some rest' =>
        some ((k,
          if ncontains functions k then
            { node with
              instructionsStart := idx
              instructionsEnd := if idx < advance insns (k2 - 1) idx
                then advance insns (k2 - 1) idx else node.instructionsEnd }
          else
            { node with
              destinations := node.destinations ++ [k2]
              instructionsStart := idx
              instructionsEnd := if idx < advance insns (k2 - 1) idx
                then advance insns (k2 - 1) idx
                else node.instructionsEnd }) :: rest') := rfl

/-- One-step equation of `walkNodes` for a non-last node with a pending
edge. -/
theorem walkNodes_cons_cons_cons (insns : List Insn)
    (functions : List (Nat × (Nat × String))) (lastPtr? : Option Nat)
    (k : Nat) (node : CfgNode) (k2 : Nat) (n2 : CfgNode)
    (tail : List (Nat × CfgNode)) (ek : Nat) (ev : Nat × List Nat)
    (erest : List (Nat × (Nat × List Nat))) (idx : Nat) :
    walkNodes insns functions lastPtr? ((k, node) :: (k2, n2) :: tail)
        ((ek, ev) :: erest) idx =
      if ek ≤ k2 - 1 then
        match walkNodes insns functions lastPtr? ((k2, n2) :: tail) erest
            (advance insns (k2 - 1) idx) with
        | none => none
        | some rest' =>
          some ((k,
            { node with
              destinations := ev.2
              instructionsStart := idx
              instructionsEnd := if idx < advance insns (k2 - 1) idx
                then advance insns (k2 - 1) idx
                else node.instructionsEnd }) :: rest')
      else
        match walkNodes insns functions lastPtr? ((k2, n2) :: tail)
            ((ek, ev) :: erest) (advance insns (k2 - 1) idx) with
        | none => none
        | some rest' =>
          some ((k,
            if ncontains functions k then
              { node with
                instructionsStart := idx
                instructionsEnd := if idx < advance insns (k2 - 1) idx
                  then advance insns (k2 - 1) idx
                  else node.instructionsEnd }
            else
              { node with
                destinations := node.destinations ++ [k2]
                instructionsStart := idx
                instructionsEnd := if idx < advance insns (k2 - 1) idx
                  then advance insns (k2 - 1) idx
                  else node.instructionsEnd }) :: rest') := rfl

/-- The range-assignment walk: it keeps the block keys unchanged, only
emits destinations drawn from the consumed edge values, the input
destinations, or the next block's key, and assigns consecutive
instruction-index ranges that consume the whole instruction list (the
bound of the last block is the last instruction's pointer, which dominates
every pointer). -/
theorem walkNodes_main (insns : List Insn)
    (functions : List (Nat × (Nat × String))) (lp : Nat)
    (hall : ∀ insn ∈ insns, insn.ptr ≤ lp) (K : Nat → Prop) :
    ∀ (l : List (Nat × CfgNode)) (edges : List (Nat × (Nat × List Nat)))
      (idx : Nat) (out : List (Nat × CfgNode)),
      walkNodes insns functions (some lp) l edges idx = some out →
      (∀ p ∈ l, p.2 = CfgNode.default) →
      (∀ p ∈ l, K p.1) →
      (∀ e ∈ edges, ∀ d ∈ e.2.2, K d) →
      idx ≤ insns.length →
      nkeys out = nkeys l ∧
      (∀ p ∈ out, ∀ d ∈ p.2.destinations, K d) ∧
      ∃ final, RangesSpec idx out final ∧ (l = [] ∨ final = insns.length) := by
  intro l
  induction l with
  | nil =>
    intro edges idx out h _ _ _ _
    rw [show walkNodes insns functions (some lp) [] edges idx = some []
      from rfl] at h
    injection h with h
    subst h
    exact ⟨rfl, fun p hp => absurd hp (List.not_mem_nil p), idx, rfl,
      Or.inl rfl⟩
  | cons hd rest ih =>
    intro edges idx out h hval hK hKe hidx
    obtain ⟨k, node⟩ := hd
    have hnode : node = CfgNode.default :=
      hval (k, node) (List.mem_cons_self _ _)
    have hend0 : node.instructionsEnd = 0 := by rw [hnode]; rfl
    have hdest0 : node.destinations = [] := by rw [hnode]; rfl
    have hvalr : ∀ p ∈ rest, p.2 = CfgNode.default :=
      fun p hp => hval p (List.mem_cons_of_mem _ hp)
    have hKr : ∀ p ∈ rest, K p.1 :=
      fun p hp => hK p (List.mem_cons_of_mem _ hp)
    cases rest with
    | nil =>
      have hfin : advance insns lp idx = insns.length :=
        advance_all insns lp idx hall hidx
      cases edges with
      | nil =>
        simp only [walkNodes] at h
        injection h with h
        subst h
        refine ⟨rfl, ?_, advance insns lp idx,
          ⟨rfl, advance insns lp idx, advance_ge insns lp idx,
            by simp [hend0], rfl⟩, Or.inr hfin⟩
        intro p hp d hd
        rw [List.mem_singleton] at hp
        subst hp
        exact absurd hd (by simp [hdest0])
      | cons e erest =>
        obtain ⟨ek, ev⟩ := e
        simp only [walkNodes] at h
        by_cases hek : ek ≤ lp
        · rw [if_pos hek] at h
          injection h with h
          subst h
          refine ⟨rfl, ?_, advance insns lp idx,
            ⟨rfl, advance insns lp idx, advance_ge insns lp idx,
              by simp [hend0], rfl⟩, Or.inr hfin⟩
          intro p hp d hd
          rw [List.mem_singleton] at hp
          subst hp
          exact hKe (ek, ev) (List.mem_cons_self _ _) d hd
        · rw [if_neg hek] at h
          injection h with h
          subst h
          refine ⟨rfl, ?_, advance insns lp idx,
            ⟨rfl, advance insns lp idx, advance_ge insns lp idx,
              by simp [hend0], rfl⟩, Or.inr hfin⟩
          intro p hp d hd
          rw [List.mem_singleton] at hp
          subst hp
          exact absurd hd (by simp [hdest0])
    | cons q rest' =>
      obtain ⟨k2, n2⟩ := q
      have hidx' : advance insns (k2 - 1) idx ≤ insns.length :=
        advance_le insns (k2 - 1) idx hidx
      cases edges with
      | nil =>
        rw [walkNodes_cons_cons_nil] at h
        cases hrec : walkNodes insns functions (some lp) ((k2, n2) :: rest')
            [] (advance insns (k2 - 1) idx) with
        | none =>
          rw [hrec] at h
          exact Option.noConfusion h
        | some rest_out =>
          rw [hrec] at h
          injection h with h
          obtain ⟨ihkeys, ihdest, final, ihranges, ihfin⟩ :=
            ih [] (advance insns (k2 - 1) idx) rest_out hrec hvalr hKr
              (fun e he => absurd he (List.not_mem_nil e)) hidx'
          have hfin : final = insns.length := by
            rcases ihfin with hbad | hfin
            · exact absurd hbad (by simp)
            · exact hfin
          by_cases hfk : ncontains functions k = true
          · rw [if_pos hfk] at h
            subst h
            refine ⟨?_, ?_, final,
              ⟨rfl, advance insns (k2 - 1) idx,
                advance_ge insns (k2 - 1) idx, by simp [hend0], ihranges⟩,
              Or.inr hfin⟩
            · show k :: nkeys rest_out = k :: nkeys ((k2, n2) :: rest')
              rw [ihkeys]
            · intro p hp d hd
              rcases List.mem_cons.mp hp with hp | hp
              · subst hp
                exact absurd hd (by simp [hdest0])
              · exact ihdest p hp d hd
          · rw [if_neg hfk] at h
            subst h
            refine ⟨?_, ?_, final,
              ⟨rfl, advance insns (k2 - 1) idx,
                advance_ge insns (k2 - 1) idx, by simp [hend0], ihranges⟩,
              Or.inr hfin⟩
            · show k :: nkeys rest_out = k :: nkeys ((k2, n2) :: rest')
              rw [ihkeys]
            · intro p hp d hd
              rcases List.mem_cons.mp hp with hp | hp
              · subst hp
                simp [hdest0] at hd
                rw [hd]
                exact hK (k2, n2)
                  (List.mem_cons_of_mem _ (List.mem_cons_self _ _))
              · exact ihdest p hp d hd
      | cons e erest =>
        obtain ⟨ek, ev⟩ := e
        rw [walkNodes_cons_cons_cons] at h
        by_cases hek : ek ≤ k2 - 1
        · rw [if_pos hek] at h
          cases hrec : walkNodes insns functions (some lp) ((k2, n2) :: rest')
              erest (advance insns (k2 - 1) idx) with
          | none =>
            rw [hrec] at h
            exact Option.noConfusion h
          | some rest_out =>
            rw [hrec] at h
            injection h with h
            subst h
            obtain ⟨ihkeys, ihdest, final, ihranges, ihfin⟩ :=
              ih erest (advance insns (k2 - 1) idx) rest_out hrec hvalr hKr
                (fun e he => hKe e (List.mem_cons_of_mem _ he)) hidx'
            have hfin : final = insns.length := by
              rcases ihfin with hbad | hfin
              · exact absurd hbad (by simp)
              · exact hfin
            refine ⟨?_, ?_, final,
              ⟨rfl, advance insns (k2 - 1) idx,
                advance_ge insns (k2 - 1) idx, by simp [hend0], ihranges⟩,
              Or.inr hfin⟩
            · show k :: nkeys rest_out = k :: nkeys ((k2, n2) :: rest')
              rw [ihkeys]
            · intro p hp d hd
              rcases List.mem_cons.mp hp with hp | hp
              · subst hp
                exact hKe (ek, ev) (List.mem_cons_self _ _) d hd
              · exact ihdest p hp d hd
        · rw [if_neg hek] at h
          cases hrec : walkNodes insns functions (some lp) ((k2, n2) :: rest')
              ((ek, ev) :: erest) (advance insns (k2 - 1) idx) with
          | none =>
            rw [hrec] at h
            exact Option.noConfusion h
          | some rest_out =>
            rw [hrec] at h
            injection h with h
            obtain ⟨ihkeys, ihdest, final, ihranges, ihfin⟩ :=
              ih ((ek, ev) :: erest) (advance insns (k2 - 1) idx) rest_out
                hrec hvalr hKr hKe hidx'
            have hfin : final = insns.length := by
              rcases ihfin with hbad | hfin
              · exact absurd hbad (by simp)
              · exact hfin
            by_cases hfk : ncontains functions k = true
            · rw [if_pos hfk] at h
              subst h
              refine ⟨?_, ?_, final,
                ⟨rfl, advance insns (k2 - 1) idx,
                  advance_ge insns (k2 - 1) idx, by simp [hend0], ihranges⟩,
                Or.inr hfin⟩
              · show k :: nkeys rest_out = k :: nkeys ((k2, n2) :: rest')
                rw [ihkeys]
              · intro p hp d hd
                rcases List.mem_cons.mp hp with hp | hp
                · subst hp
                  exact absurd hd (by simp [hdest0])
                · exact ihdest p hp d hd
            · rw [if_neg hfk] at h
              subst h
              refine ⟨?_, ?_, final,
                ⟨rfl, advance insns (k2 - 1) idx,
                  advance_ge insns (k2 - 1) idx, by simp [hend0], ihranges⟩,
                Or.inr hfin⟩
              · show k :: nkeys rest_out = k :: nkeys ((k2, n2) :: rest')
                rw [ihkeys]
              · intro p hp d hd
                rcases List.mem_cons.mp hp with hp | hp
                · subst hp
                  simp [hdest0] at hd
                  rw [hd]
                  exact hK (k2, n2)
                    (List.mem_cons_of_mem _ (List.mem_cons_self _ _))
                · exact ihdest p hp d hd

/-! `link_cfg_edges` with `both_directions = false` only appends to
`sources` fields: modulo `stripSources` the node map is unchanged. -/

theorem stripSources_cons (k : Nat) (v : CfgNode) (t : List (Nat × CfgNode)) :
    stripSources ((k, v) :: t) =
      (k, { v with sources := [] }) :: stripSources t := rfl

theorem foldl_option_none {α σ : Type} (g : Option σ → α → Option σ)
    (hnone : ∀ x, g none x = none) :
    ∀ l : List α, l.foldl g none = none := by
  intro l
  induction l with
  | nil => rfl
  | cons x t ih => rw [List.foldl_cons, hnone]; exact ih

theorem foldl_option_inv {α σ : Type} (g : Option σ → α → Option σ)
    (P : σ → Prop) :
    ∀ (l : List α) (s₀ s₁ : σ),
      l.foldl g (some s₀) = some s₁ →
      (∀ x, g none x = none) →
      (∀ s x s', g (some s) x = some s' → P s → P s') →
      P s₀ → P s₁ := by
  intro l
  induction l with
  | nil =>
    intro s₀ s₁ h _ _ hP
    rw [List.foldl_nil] at h
    injection h with h
    rw [← h]
    exact hP
  | cons x t ih =>
    intro s₀ s₁ h hnone hstep hP
    rw [List.foldl_cons] at h
    cases hg : g (some s₀) x with
    | none =>
      rw [hg, foldl_option_none g hnone t] at h
      exact Option.noConfusion h
    | some s2 =>
      rw [hg] at h
      exact ih s2 s₁ h hnone hstep (hstep s₀ x s2 hg hP)

theorem stripSources_nmodify? (k : Nat) (f : CfgNode → CfgNode)
    (hf : ∀ n, ({ f n with sources := [] } : CfgNode) =
      { n with sources := [] }) :
    ∀ (m m' : List (Nat × CfgNode)), nmodify? k f m = some m' →
      stripSources m' = stripSources m := by
  intro m
  induction m with
  | nil => intro m' h; exact Option.noConfusion h
  | cons p t ih =>
    intro m' h
    obtain ⟨k', v'⟩ := p
    by_cases hk : k = k'
    · subst hk
      rw [nmodify?_cons_self] at h
      injection h with h
      rw [← h, stripSources_cons, stripSources_cons, hf v']
    · rw [nmodify?_cons_ne k k' f v' t hk] at h
      cases hm : nmodify? k f t with
      | none => rw [hm] at h; exact Option.noConfusion h
      | some t' =>
        rw [hm] at h
        injection h with h
        rw [← h, stripSources_cons, stripSources_cons, ih t' hm]

/-- `linkCfgEdges` at `bothDirections = false`, with the dead
`destinations` write reduced away. -/
theorem linkCfgEdges_false_eq (m : List (Nat × CfgNode))
    (edges : List (Nat × List Nat)) :
    linkCfgEdges m edges false =
      edges.foldl
        (fun acc p =>
          match acc with
          | none => none
          | some m =>
            p.2.foldl
              (fun acc2 d =>
                match acc2 with
                | none => none
                | some m2 =>
                  nmodify? d (fun node =>
                    { node with sources := node.sources ++ [p.1] }) m2)
              (some m))
        (some m) := rfl

theorem linkCfgEdges_strip (m : List (Nat × CfgNode))
    (edges : List (Nat × List Nat)) (m' : List (Nat × CfgNode))
    (h : linkCfgEdges m edges false = some m') :
    stripSources m' = stripSources m := by
  rw [linkCfgEdges_false_eq] at h
  refine foldl_option_inv _ (fun s => stripSources s = stripSources m)
    edges m m' h (fun x => rfl) ?_ rfl
  intro s x s' hg hP
  have hg2 : x.2.foldl
      (fun acc2 d =>
        match acc2 with
        | none => none
        | some m2 =>
          nmodify? d (fun node =>
            { node with sources := node.sources ++ [x.1] }) m2)
      (some s) = some s' := hg
  refine Eq.trans
    (foldl_option_inv _ (fun t => stripSources t = stripSources s)
      x.2 s s' hg2 (fun d => rfl) ?_ rfl) hP
  intro t d t' hmod hPt
  have hmod2 : nmodify? d
      (fun node => { node with sources := node.sources ++ [x.1] }) t =
      some t' := hmod
  exact (stripSources_nmodify? d
    (fun node => { node with sources := node.sources ++ [x.1] })
    (fun n => rfl) t t' hmod2).trans hPt

/-! Every value the block-start scan ever inserts is `CfgNode.default`. -/

theorem mem_nset_elim {β : Type} (k : Nat) (v : β) :
    ∀ (m : List (Nat × β)) (p : Nat × β),
      p ∈ nset k v m → p ∈ m ∨ p = (k, v) := by
  intro m
  induction m with
  | nil =>
    intro p hp
    rw [show nset k v ([] : List (Nat × β)) = [(k, v)] from rfl,
      List.mem_singleton] at hp
    exact Or.inr hp
  | cons q t ih =>
    intro p hp
    obtain ⟨k', v'⟩ := q
    rw [show nset k v ((k', v') :: t) =
        if k < k' then (k, v) :: (k', v') :: t
        else if k = k' then (k, v) :: t
        else (k', v') :: nset k v t from rfl] at hp
    by_cases h1 : k < k'
    · rw [if_pos h1] at hp
      rcases List.mem_cons.mp hp with hp | hp
      · exact Or.inr hp
      · exact Or.inl hp
    · rw [if_neg h1] at hp
      by_cases h2 : k = k'
      · rw [if_pos h2] at hp
        rcases List.mem_cons.mp hp with hp | hp
        · exact Or.inr hp
        · exact Or.inl (List.mem_cons_of_mem _ hp)
      · rw [if_neg h2] at hp
        rcases List.mem_cons.mp hp with hp | hp
        · exact Or.inl (by rw [hp]; exact List.mem_cons_self _ _)
        · rcases ih p hp with hh | hh
          · exact Or.inl (List.mem_cons_of_mem _ hh)
          · exact Or.inr hh

theorem mem_ninsertIfAbsent_elim {β : Type} (k : Nat) (v : β)
    (m : List (Nat × β)) (p : Nat × β) (hp : p ∈ ninsertIfAbsent k v m) :
    p ∈ m ∨ p = (k, v) := by
  unfold ninsertIfAbsent at hp
  by_cases hc : ncontains m k = true
  · rw [if_pos hc] at hp
    exact Or.inl hp
  · rw [if_neg hc] at hp
    exact mem_nset_elim k v m p hp

theorem collectEdges_nodes_default (exe : Exe) (fc : Bool) (insn : Insn)
    (st : List (Nat × CfgNode) × List (Nat × (Nat × List Nat)))
    (hv : ∀ p ∈ st.1, p.2 = CfgNode.default) :
    ∀ p ∈ (collectEdges exe fc insn st).1, p.2 = CfgNode.default := by
  have hone : ∀ (k : Nat) (m : List (Nat × CfgNode)),
      (∀ p ∈ m, p.2 = CfgNode.default) →
      ∀ p ∈ ninsertIfAbsent k CfgNode.default m, p.2 = CfgNode.default := by
    intro k m hm p hp
    rcases mem_ninsertIfAbsent_elim k CfgNode.default m p hp with h | h
    · exact hm p h
    · rw [h]
  unfold collectEdges
  dsimp only
  split
  · split
    · split
      · exact hone _ _ hv
      · exact hv
    · split
      · exact hone _ _ (hone _ _ hv)
      · exact hv
  · split
    · exact hone _ _ hv
    · split
      · exact hone _ _ hv
      · split
        · exact hone _ _ (hone _ _ hv)
        · split
          · exact hone _ _ (hone _ _ hv)
          · exact hv

theorem scanned_nodes_default (exe : Exe) (fc : Bool) :
    ∀ (insns : List Insn)
      (st : List (Nat × CfgNode) × List (Nat × (Nat × List Nat))),
      (∀ p ∈ st.1, p.2 = CfgNode.default) →
      ∀ p ∈ (insns.foldl (fun st insn => collectEdges exe fc insn st) st).1,
        p.2 = CfgNode.default := by
  intro insns
  induction insns with
  | nil => intro st hv; exact hv
  | cons i t ih =>
    intro st hv
    rw [List.foldl_cons]
    exact ih _ (collectEdges_nodes_default exe fc i st hv)

theorem foldl_ninsert_default :
    ∀ (fns : List (Nat × (Nat × String))) (m : List (Nat × CfgNode)),
      (∀ p ∈ m, p.2 = CfgNode.default) →
      ∀ p ∈ fns.foldl (fun m q => ninsertIfAbsent q.1 CfgNode.default m) m,
        p.2 = CfgNode.default := by
  intro fns
  induction fns with
  | nil => intro m hv; exact hv
  | cons q t ih =>
    intro m hv
    rw [List.foldl_cons]
    refine ih _ ?_
    intro p hp
    rcases mem_ninsertIfAbsent_elim q.1 CfgNode.default m p hp with h | h
    · exact hv p h
    · rw [h]

theorem splitNodes2_default (exe : Exe) (a : Analysis) (fc : Bool)
    (h0 : a.cfgNodes = []) :
    ∀ p ∈ splitNodes2 exe a fc, p.2 = CfgNode.default := by
  intro p hp
  have hp2 : p ∈ (splitScanned exe a fc).1 := List.mem_of_mem_filter hp
  have h1 : ∀ q ∈ splitNodes0 a, q.2 = CfgNode.default := by
    unfold splitNodes0
    rw [h0]
    exact foldl_ninsert_default a.functions []
      (fun q hq => absurd hq (List.not_mem_nil q))
  exact scanned_nodes_default exe fc a.instructions (splitNodes0 a, []) h1
    p hp2

theorem ncontains_of_mem {β : Type} :
    ∀ (m : List (Nat × β)) (p : Nat × β), p ∈ m → ncontains m p.1 = true := by
  intro m
  induction m with
  | nil => intro p hp; exact absurd hp (List.not_mem_nil p)
  | cons q t ih =>
    intro p hp
    obtain ⟨k', v'⟩ := q
    rcases List.mem_cons.mp hp with hp | hp
    · rw [hp]
      show (nfind? ((k', v') :: t) (k', v').1).isSome = true
      rw [show nfind? ((k', v') :: t) (k', v').1 = some v' from
        nfind?_cons_self k' v' t]
      rfl
    · show (nfind? ((k', v') :: t) p.1).isSome = true
      by_cases hk : p.1 = k'
      · rw [show nfind? ((k', v') :: t) p.1 = some v' from by
          rw [hk]; exact nfind?_cons_self k' v' t]
        rfl
      · rw [nfind?_cons_ne p.1 k' v' t hk]
        exact ih p hp

theorem ncontains_congr {β γ : Type} (m₁ : List (Nat × β))
    (m₂ : List (Nat × γ)) (h : nkeys m₁ = nkeys m₂) (k : Nat) :
    ncontains m₁ k = ncontains m₂ k := by
  by_cases hc : ncontains m₁ k = true
  · rw [hc]
    have := (ncontains_iff m₁ k).mp hc
    rw [h] at this
    exact ((ncontains_iff m₂ k).mpr this).symm
  · have h1 : ncontains m₁ k = false := by
      cases hx : ncontains m₁ k
      · rfl
      · exact absurd hx hc
    rw [h1]
    cases hx : ncontains m₂ k
    · rfl
    · have := (ncontains_iff m₂ k).mp hx
      rw [← h] at this
      exact absurd ((ncontains_iff m₁ k).mpr this) hc

theorem nkeys_stripSources (m : List (Nat × CfgNode)) :
    nkeys (stripSources m) = nkeys m := by
  unfold nkeys stripSources
  rw [List.map_map]
  rfl

theorem countP_stripSources (m : List (Nat × CfgNode))
    (f : Nat × CfgNode → Bool)
    (hf : ∀ p, f (p.1, { p.2 with sources := [] }) = f p) :
    (stripSources m).countP f = m.countP f := by
  unfold stripSources
  rw [List.countP_map]
  refine List.countP_congr ?_
  intro p _
  show f (p.1, { p.2 with sources := [] }) = true ↔ f p = true
  rw [hf p]

/-- Claim C2 (amended): after `split_into_basic_blocks`, **provided the
split produced at least one basic block**, every instruction index `pc` of
the decoded program is contained in exactly one CfgNode's instructions
range, and every entry in every CfgNode's `destinations` list equals the
start key of some CfgNode in `cfg_nodes`.  (The unamended claim fails when
no block exists at all — no function entry and no terminator — while the
program still has instructions; see the counterexample.) -/
theorem claim_C2_amended (exe : Exe) (a1 : Analysis)
    (h : analysisAfterSplit exe = some a1) :
    (a1.cfgNodes ≠ [] →
      ∀ pc, pc < a1.instructions.length →
        (a1.cfgNodes.filter fun p =>
          p.2.instructionsStart ≤ pc ∧ pc < p.2.instructionsEnd).length
          = 1) ∧
    (∀ p ∈ a1.cfgNodes, ∀ d ∈ p.2.destinations,
      ncontains a1.cfgNodes d = true) := by
  unfold analysisAfterSplit splitIntoBasicBlocks at h
  simp only [Bool.false_eq_true, if_false] at h
  split at h
  · exact absurd h (by simp)
  · next cfgNodes3 hwalk =>
    split at h
    · exact absurd h (by simp)
    · next cfgNodes4 hlink =>
      injection h with h
      have hcfg : a1.cfgNodes = cfgNodes4 := by rw [← h]
      have hins : a1.instructions = (initialAnalysis exe).instructions := by
        rw [← h]
      have hdef : ∀ p ∈ splitNodes2 exe (initialAnalysis exe) false,
          p.2 = CfgNode.default :=
        splitNodes2_default exe (initialAnalysis exe) false rfl
      have hKkeys : ∀ p ∈ splitNodes2 exe (initialAnalysis exe) false,
          ncontains (splitNodes2 exe (initialAnalysis exe) false) p.1
            = true :=
        fun p hp => ncontains_of_mem _ p hp
      have hKe : ∀ e ∈ splitEdges2 exe (initialAnalysis exe) false,
          ∀ d ∈ e.2.2,
            ncontains (splitNodes2 exe (initialAnalysis exe) false) d
              = true := by
        intro e he d hd
        unfold splitEdges2 at he
        rcases List.mem_map.mp he with ⟨q, _, hqe⟩
        rw [← hqe] at hd
        exact List.of_mem_filter hd
      have hstrip : stripSources cfgNodes4 = stripSources cfgNodes3 :=
        linkCfgEdges_strip cfgNodes3 _ cfgNodes4 hlink
      by_cases hins0 : (initialAnalysis exe).instructions = []
      · have hN2 : splitNodes2 exe (initialAnalysis exe) false = [] := by
          unfold splitNodes2
          rw [hins0]
          simp [isInsnPtr]
        rw [hN2] at hwalk
        have h3 : some ([] : List (Nat × CfgNode)) = some cfgNodes3 := hwalk
        injection h3 with h3
        rw [← h3] at hlink
        have h4 : some ([] : List (Nat × CfgNode)) = some cfgNodes4 := hlink
        injection h4 with h4
        constructor
        · intro hne
          exact absurd (hcfg.trans h4.symm) hne
        · intro p hp
          rw [hcfg, ← h4] at hp
          exact absurd hp (List.not_mem_nil p)
      · obtain ⟨lastI, hlast⟩ :
            ∃ li, (initialAnalysis exe).instructions.getLast? = some li := by
          cases hgl : (initialAnalysis exe).instructions.getLast? with
          | none => exact absurd (List.getLast?_eq_none_iff.mp hgl) hins0
          | some li => exact ⟨li, rfl⟩
        have hallptr : ∀ insn ∈ (initialAnalysis exe).instructions,
            insn.ptr ≤ lastI.ptr := by
          intro insn hmem
          exact decodeAux_ptr_le_last exe.prog 0 lastI hlast insn hmem
        rw [hlast] at hwalk
        obtain ⟨hkeys3, hdest3, final, hranges, hfin⟩ :=
          walkNodes_main (initialAnalysis exe).instructions
            (splitFunctions2 exe (initialAnalysis exe) false) lastI.ptr
            hallptr
            (fun d =>
              ncontains (splitNodes2 exe (initialAnalysis exe) false) d
                = true)
            (splitNodes2 exe (initialAnalysis exe) false)
            (splitEdges2 exe (initialAnalysis exe) false) 0 cfgNodes3
            hwalk hdef hKkeys hKe (Nat.zero_le _)
        have hlen34 : cfgNodes4.length = cfgNodes3.length := by
          have hh := congrArg List.length hstrip
          simpa [stripSources] using hh
        have hkeys4 : nkeys cfgNodes4 = nkeys cfgNodes3 := by
          rw [← nkeys_stripSources cfgNodes4, ← nkeys_stripSources cfgNodes3,
            hstrip]
        constructor
        · intro hne pc hpc
          have hne4 : cfgNodes4 ≠ [] := by rw [hcfg] at hne; exact hne
          have hne3 : cfgNodes3 ≠ [] := by
            intro hnil
            apply hne4
            have hl : cfgNodes4.length = 0 := by rw [hlen34, hnil]; rfl
            exact List.length_eq_zero.mp hl
          have hN2ne : splitNodes2 exe (initialAnalysis exe) false ≠ [] := by
            intro hnil
            apply hne3
            rw [hnil] at hkeys3
            exact List.map_eq_nil_iff.mp hkeys3
          have hfinal : final = (initialAnalysis exe).instructions.length := by
            rcases hfin with hh | hh
            · exact absurd hh hN2ne
            · exact hh
          have hcount3 := rangesSpec_count cfgNodes3 0 final hranges pc
          rw [if_pos ⟨Nat.zero_le pc, by
            rw [hfinal]
            rw [hins] at hpc
            exact hpc⟩] at hcount3
          have htrans :
              (cfgNodes4.filter fun p =>
                p.2.instructionsStart ≤ pc ∧
                  pc < p.2.instructionsEnd).length =
              (cfgNodes3.filter fun p =>
                p.2.instructionsStart ≤ pc ∧
                  pc < p.2.instructionsEnd).length := by
            rw [← List.countP_eq_length_filter,
              ← List.countP_eq_length_filter]
            have hc4 := countP_stripSources cfgNodes4
              (fun p => decide (p.2.instructionsStart ≤ pc ∧
                pc < p.2.instructionsEnd)) (fun p => rfl)
            have hc3 := countP_stripSources cfgNodes3
              (fun p => decide (p.2.instructionsStart ≤ pc ∧
                pc < p.2.instructionsEnd)) (fun p => rfl)
            rw [← hc4, ← hc3, hstrip]
          rw [hcfg, htrans]
          exact hcount3
        · intro p hp d hd
          rw [hcfg] at hp ⊢
          have hp' : (p.1, { p.2 with sources := [] }) ∈
              stripSources cfgNodes4 :=
            List.mem_map_of_mem _ hp
          rw [hstrip] at hp'
          rcases List.mem_map.mp hp' with ⟨q, hq, hqe⟩
          have hqdest : q.2.destinations = p.2.destinations := by
            have hh := congrArg (fun r => r.2.destinations) hqe
            simpa using hh
          have hKd :
              ncontains (splitNodes2 exe (initialAnalysis exe) false) d
                = true :=
            hdest3 q hq d (by rw [hqdest]; exact hd)
          rw [ncontains_congr cfgNodes4
            (splitNodes2 exe (initialAnalysis exe) false)
            (by rw [hkeys4, hkeys3]) d]
          exact hKd

/-- Witness for `claim_C2_amended` at the single-`exit` program. -/
theorem claim_C2_amended_witness :
    analysisAfterSplit exeExit = some exeExitA1 ∧
    ((exeExitA1.cfgNodes ≠ [] →
      ∀ pc, pc < exeExitA1.instructions.length →
        (exeExitA1.cfgNodes.filter fun p =>
          p.2.instructionsStart ≤ pc ∧ pc < p.2.instructionsEnd).length
          = 1) ∧
     (∀ p ∈ exeExitA1.cfgNodes, ∀ d ∈ p.2.destinations,
       ncontains exeExitA1.cfgNodes d = true)) :=
  ⟨by decide, claim_C2_amended exeExit exeExitA1 (by decide)⟩

/-- The range-assignment walk keeps the block keys unchanged (no
hypotheses on the instruction list). -/
theorem walkNodes_keys (insns : List Insn)
    (functions : List (Nat × (Nat × String))) (lastPtr? : Option Nat) :
    ∀ (l : List (Nat × CfgNode)) (edges : List (Nat × (Nat × List Nat)))
      (idx : Nat) (out : List (Nat × CfgNode)),
      walkNodes insns functions lastPtr? l edges idx = some out →
      nkeys out = nkeys l := by
  intro l
  induction l with
  | nil =>
    intro edges idx out h
    have h2 : some ([] : List (Nat × CfgNode)) = some out := h
    injection h2 with h2
    rw [← h2]
  | cons hd rest ih =>
    intro edges idx out h
    obtain ⟨k, node⟩ := hd
    cases rest with
    | nil =>
      cases hlp : lastPtr? with
      | none =>
        rw [hlp] at h
        cases edges with
        | nil =>
          simp only [walkNodes] at h
          exact Option.noConfusion h
        | cons e erest =>
          obtain ⟨ek, ev⟩ := e
          simp only [walkNodes] at h
          exact Option.noConfusion h
      | some lp =>
        rw [hlp] at h
        cases edges with
        | nil =>
          simp only [walkNodes] at h
          injection h with h
          rw [← h]
          rfl
        | cons e erest =>
          obtain ⟨ek, ev⟩ := e
          simp only [walkNodes] at h
          by_cases hek : ek ≤ lp
          · rw [if_pos hek] at h
            injection h with h
            rw [← h]
            rfl
          · rw [if_neg hek] at h
            injection h with h
            rw [← h]
            rfl
    | cons q rest' =>
      obtain ⟨k2, n2⟩ := q
      cases edges with
      | nil =>
        rw [walkNodes_cons_cons_nil] at h
        cases hrec : walkNodes insns functions lastPtr? ((k2, n2) :: rest')
            [] (advance insns (k2 - 1) idx) with
        | none => rw [hrec] at h; exact Option.noConfusion h
        | some rest_out =>
          rw [hrec] at h
          injection h with h
          rw [← h]
          show k :: nkeys rest_out = k :: nkeys ((k2, n2) :: rest')
          rw [ih [] (advance insns (k2 - 1) idx) rest_out hrec]
      | cons e erest =>
        obtain ⟨ek, ev⟩ := e
        rw [walkNodes_cons_cons_cons] at h
        by_cases hek : ek ≤ k2 - 1
        · rw [if_pos hek] at h
          cases hrec : walkNodes insns functions lastPtr? ((k2, n2) :: rest')
              erest (advance insns (k2 - 1) idx) with
          | none => rw [hrec] at h; exact Option.noConfusion h
          | some rest_out =>
            rw [hrec] at h
            injection h with h
            rw [← h]
            show k :: nkeys rest_out = k :: nkeys ((k2, n2) :: rest')
            rw [ih erest (advance insns (k2 - 1) idx) rest_out hrec]
        · rw [if_neg hek] at h
          cases hrec : walkNodes insns functions lastPtr? ((k2, n2) :: rest')
              ((ek, ev) :: erest) (advance insns (k2 - 1) idx) with
          | none => rw [hrec] at h; exact Option.noConfusion h
          | some rest_out =>
            rw [hrec] at h
            injection h with h
            rw [← h]
            show k :: nkeys rest_out = k :: nkeys ((k2, n2) :: rest')
            rw [ih ((ek, ev) :: erest) (advance insns (k2 - 1) idx)
              rest_out hrec]

/-- The split keeps exactly the kept block-start keys, and leaves the
instruction list unchanged. -/
theorem afterSplit_keys (exe : Exe) (a1 : Analysis)
    (h : analysisAfterSplit exe = some a1) :
    nkeys a1.cfgNodes = nkeys (splitNodes2 exe (initialAnalysis exe) false) ∧
    a1.instructions = (initialAnalysis exe).instructions := by
  unfold analysisAfterSplit splitIntoBasicBlocks at h
  simp only [Bool.false_eq_true, if_false] at h
  split at h
  · exact absurd h (by simp)
  · next cfgNodes3 hwalk =>
    split at h
    · exact absurd h (by simp)
    · next cfgNodes4 hlink =>
      injection h with h
      constructor
      · rw [← h]
        show nkeys cfgNodes4 = _
        rw [← nkeys_stripSources cfgNodes4,
          linkCfgEdges_strip cfgNodes3 _ cfgNodes4 hlink,
          nkeys_stripSources cfgNodes3]
        exact walkNodes_keys (initialAnalysis exe).instructions
          (splitFunctions2 exe (initialAnalysis exe) false)
          ((initialAnalysis exe).instructions.getLast?.map Insn.ptr)
          (splitNodes2 exe (initialAnalysis exe) false)
          (splitEdges2 exe (initialAnalysis exe) false) 0 cfgNodes3 hwalk
      · rw [← h]

/-- A key survives a key-predicate filter when it satisfies the
predicate. -/
theorem ncontains_filter_key {β : Type} (pred : Nat → Bool) :
    ∀ (m : List (Nat × β)) (k : Nat),
      ncontains m k = true → pred k = true →
      ncontains (m.filter fun p => pred p.1) k = true := by
  intro m
  induction m with
  | nil => intro k hm _; exact absurd hm (by simp [ncontains, nfind?])
  | cons q t ih =>
    intro k hm hk
    obtain ⟨k', v'⟩ := q
    rw [List.filter_cons]
    by_cases hkk : k = k'
    · rw [if_pos (show pred (k', v').1 = true from by rw [← hkk]; exact hk)]
      show (nfind? ((k', v') :: List.filter _ t) k).isSome = true
      rw [show nfind? ((k', v') :: List.filter (fun p => pred p.1) t) k =
        some v' from by rw [hkk]; exact nfind?_cons_self k' v' _]
      rfl
    · have hm' : ncontains t k = true := by
        show (nfind? t k).isSome = true
        rw [← nfind?_cons_ne k k' v' t hkk]
        exact hm
      by_cases hp : pred (k', v').1 = true
      · rw [if_pos hp]
        show (nfind? ((k', v') :: List.filter _ t) k).isSome = true
        rw [nfind?_cons_ne k k' v' _ hkk]
        exact ih k hm' hk
      · rw [if_neg hp]
        exact ih k hm' hk

theorem foldl_ninsert_ncontains_mono :
    ∀ (bs : List Nat) (m : List (Nat × CfgNode)) (k : Nat),
      ncontains m k = true →
      ncontains (bs.foldl
        (fun m b => ninsertIfAbsent b CfgNode.default m) m) k = true := by
  intro bs
  induction bs with
  | nil => intro m k hk; exact hk
  | cons b t ih =>
    intro m k hk
    rw [List.foldl_cons]
    exact ih _ k (ncontains_ninsertIfAbsent_mono b CfgNode.default m k hk)

theorem mem_foldl_ninsert_contains :
    ∀ (bs : List Nat) (m : List (Nat × CfgNode)) (b : Nat),
      b ∈ bs →
      ncontains (bs.foldl
        (fun m b => ninsertIfAbsent b CfgNode.default m) m) b = true := by
  intro bs
  induction bs with
  | nil => intro m b hb; exact absurd hb (List.not_mem_nil b)
  | cons x t ih =>
    intro m b hb
    rw [List.foldl_cons]
    rcases List.mem_cons.mp hb with hb | hb
    · rw [hb]
      exact foldl_ninsert_ncontains_mono t _ x
        (ncontains_ninsertIfAbsent_self x CfgNode.default m)
    · exact ih _ b hb

/-- The node half of the first-pass scan of one instruction is exactly the
insertion of its `branchBoundaries`. -/
theorem collectEdges_nodes_eq (exe : Exe) (fc : Bool) (insn : Insn)
    (st : List (Nat × CfgNode) × List (Nat × (Nat × List Nat))) :
    (collectEdges exe fc insn st).1 =
      (branchBoundaries exe insn).foldl
        (fun m b => ninsertIfAbsent b CfgNode.default m) st.1 := by
  unfold collectEdges branchBoundaries
  dsimp only
  by_cases h1 : insn.opc = Ebpf.CALL_IMM
  · rw [if_pos h1, if_pos h1]
    cases hs : nfind? exe.syscalls (u32OfInt insn.imm) with
    | some name =>
      dsimp only
      by_cases ha : name = "abort"
      · rw [if_pos ha, if_pos ha]
        rfl
      · rw [if_neg ha, if_neg ha]
        rfl
    | none =>
      dsimp only
      cases hf : exe.lookupBpfFunction (u32OfInt insn.imm) with
      | some target => rfl
      | none => rfl
  · rw [if_neg h1, if_neg h1]
    by_cases h2 : insn.opc = Ebpf.CALL_REG
    · rw [if_pos h2, if_pos h2]
      rfl
    · rw [if_neg h2, if_neg h2]
      by_cases h3 : insn.opc = Ebpf.EXIT
      · rw [if_pos h3, if_pos h3]
        rfl
      · rw [if_neg h3, if_neg h3]
        by_cases h4 : insn.opc = Ebpf.JA
        · rw [if_pos h4, if_pos h4]
          rfl
        · rw [if_neg h4, if_neg h4]
          by_cases h5 : insn.opc = Ebpf.JEQ_IMM ∨ insn.opc = Ebpf.JGT_IMM ∨
              insn.opc = Ebpf.JGE_IMM ∨ insn.opc = Ebpf.JLT_IMM ∨
              insn.opc = Ebpf.JLE_IMM ∨ insn.opc = Ebpf.JSET_IMM ∨
              insn.opc = Ebpf.JNE_IMM ∨ insn.opc = Ebpf.JSGT_IMM ∨
              insn.opc = Ebpf.JSGE_IMM ∨ insn.opc = Ebpf.JSLT_IMM ∨
              insn.opc = Ebpf.JSLE_IMM ∨ insn.opc = Ebpf.JEQ_REG ∨
              insn.opc = Ebpf.JGT_REG ∨ insn.opc = Ebpf.JGE_REG ∨
              insn.opc = Ebpf.JLT_REG ∨ insn.opc = Ebpf.JLE_REG ∨
              insn.opc = Ebpf.JSET_REG ∨ insn.opc = Ebpf.JNE_REG ∨
              insn.opc = Ebpf.JSGT_REG ∨ insn.opc = Ebpf.JSGE_REG ∨
              insn.opc = Ebpf.JSLT_REG ∨ insn.opc = Ebpf.JSLE_REG
          · rw [if_pos h5, if_pos h5]
            rfl
          · rw [if_neg h5, if_neg h5]
            rfl

theorem scanned_ncontains_mono (exe : Exe) (fc : Bool) :
    ∀ (insns : List Insn)
      (st : List (Nat × CfgNode) × List (Nat × (Nat × List Nat))) (k : Nat),
      ncontains st.1 k = true →
      ncontains
        ((insns.foldl (fun st insn => collectEdges exe fc insn st) st)).1 k
        = true := by
  intro insns
  induction insns with
  | nil => intro st k hk; exact hk
  | cons i t ih =>
    intro st k hk
    rw [List.foldl_cons]
    refine ih _ k ?_
    rw [collectEdges_nodes_eq]
    exact foldl_ninsert_ncontains_mono _ _ k hk

theorem scanned_ncontains_of_mem (exe : Exe) (fc : Bool)
    (insns : List Insn)
    (st : List (Nat × CfgNode) × List (Nat × (Nat × List Nat)))
    (insn : Insn) (hmem : insn ∈ insns) (b : Nat)
    (hb : b ∈ branchBoundaries exe insn) :
    ncontains
      ((insns.foldl (fun st insn => collectEdges exe fc insn st) st)).1 b
      = true := by
  obtain ⟨s, t, rfl⟩ := List.append_of_mem hmem
  rw [List.foldl_append, List.foldl_cons]
  refine scanned_ncontains_mono exe fc t _ b ?_
  rw [collectEdges_nodes_eq]
  exact mem_foldl_ninsert_contains _ _ b hb

theorem foldl_ninsert_pairs_mono :
    ∀ (fns : List (Nat × (Nat × String))) (m : List (Nat × CfgNode))
      (k : Nat),
      ncontains m k = true →
      ncontains (fns.foldl
        (fun m q => ninsertIfAbsent q.1 CfgNode.default m) m) k = true := by
  intro fns
  induction fns with
  | nil => intro m k hk; exact hk
  | cons q t ih =>
    intro m k hk
    rw [List.foldl_cons]
    exact ih _ k (ncontains_ninsertIfAbsent_mono q.1 CfgNode.default m k hk)

theorem splitNodes0_contains (a : Analysis) :
    ∀ p ∈ a.functions, ncontains (splitNodes0 a) p.1 = true := by
  unfold splitNodes0
  have key : ∀ (fns : List (Nat × (Nat × String)))
      (m : List (Nat × CfgNode)) (p : Nat × (Nat × String)), p ∈ fns →
      ncontains (fns.foldl
        (fun m q => ninsertIfAbsent q.1 CfgNode.default m) m) p.1 = true := by
    intro fns
    induction fns with
    | nil => intro m p hp; exact absurd hp (List.not_mem_nil p)
    | cons q t ih =>
      intro m p hp
      rw [List.foldl_cons]
      rcases List.mem_cons.mp hp with hp | hp
      · rw [hp]
        exact foldl_ninsert_pairs_mono t _ q.1
          (ncontains_ninsertIfAbsent_self q.1 CfgNode.default m)
      · exact ih _ p hp
  exact key a.functions a.cfgNodes

/-- Claim C8 (amended): in the basic-block split, a block key exists (when
the candidate index is an instruction boundary) at every function entry
and at every boundary a terminator forces — the instruction after a jump,
`CALL_REG`, `EXIT`, an `abort` call or an internal call, and the target of
every jump and internal call.  A `CALL_IMM` that resolves to a registered
non-`abort` syscall forces **no** boundary (the unamended claim's
"including calls to registered helpers/syscalls" fails; see the
counterexample). -/
theorem claim_C8_amended (exe : Exe) (a1 : Analysis)
    (h : analysisAfterSplit exe = some a1) :
    (∀ p ∈ exe.functions, isInsnPtr a1.instructions p.1 = true →
      ncontains a1.cfgNodes p.1 = true) ∧
    (∀ insn ∈ a1.instructions, ∀ b ∈ branchBoundaries exe insn,
      isInsnPtr a1.instructions b = true →
      ncontains a1.cfgNodes b = true) := by
  obtain ⟨hkeys, hins⟩ := afterSplit_keys exe a1 h
  have hcont : ∀ k,
      ncontains (splitScanned exe (initialAnalysis exe) false).1 k = true →
      isInsnPtr (initialAnalysis exe).instructions k = true →
      ncontains a1.cfgNodes k = true := by
    intro k hk hptr
    rw [ncontains_congr a1.cfgNodes
      (splitNodes2 exe (initialAnalysis exe) false) hkeys k]
    unfold splitNodes2
    exact ncontains_filter_key _ _ k hk hptr
  constructor
  · intro p hp hptr
    refine hcont p.1 ?_ (by rw [← hins]; exact hptr)
    unfold splitScanned
    refine scanned_ncontains_mono exe false _ _ p.1 ?_
    exact splitNodes0_contains (initialAnalysis exe) p hp
  · intro insn hmem b hb hptr
    refine hcont b ?_ (by rw [← hins]; exact hptr)
    unfold splitScanned
    refine scanned_ncontains_of_mem exe false _ _ insn ?_ b hb
    rw [← hins]
    exact hmem

/-- Witness for `claim_C8_amended` at `exePhi` (a jump and an exit, with a
function entry at 0). -/
theorem claim_C8_amended_witness :
    analysisAfterSplit exePhi = some exePhiA1 ∧
    ((∀ p ∈ exePhi.functions, isInsnPtr exePhiA1.instructions p.1 = true →
      ncontains exePhiA1.cfgNodes p.1 = true) ∧
     (∀ insn ∈ exePhiA1.instructions, ∀ b ∈ branchBoundaries exePhi insn,
      isInsnPtr exePhiA1.instructions b = true →
      ncontains exePhiA1.cfgNodes b = true)) :=
  ⟨by decide, claim_C8_amended exePhi exePhiA1 (by decide)⟩

/-! The intra-block `bind` step: it files exactly one new edge (keyed by
its source) and records the writer, leaving everything else unchanged. -/

theorem memEdges_update (m : List (DfgNode × List DfgEdge)) (e0 e : DfgEdge) :
    memEdges
      (dset e0.source (einsert e0 ((dfind? m e0.source).getD [])) m) e ↔
      memEdges m e ∨ e = e0 := by
  unfold memEdges
  constructor
  · rintro ⟨b, hb, he⟩
    rw [dfind?_dset] at hb
    by_cases hk : e.source = e0.source
    · rw [if_pos hk] at hb
      injection hb with hb
      rw [← hb] at he
      rcases (mem_einsert e e0 _).mp he with h | h
      · exact Or.inr h
      · cases hd : dfind? m e0.source with
        | none =>
          rw [hd] at h
          exact absurd h (List.not_mem_nil e)
        | some b0 =>
          rw [hd] at h
          exact Or.inl ⟨b0, by rw [hk]; exact hd, h⟩
    · rw [if_neg hk] at hb
      exact Or.inl ⟨b, hb, he⟩
  · rintro (⟨b, hb, he⟩ | rfl)
    · by_cases hk : e.source = e0.source
      · refine ⟨einsert e0 ((dfind? m e0.source).getD []), ?_, ?_⟩
        · rw [dfind?_dset, if_pos hk]
        · rw [hk] at hb
          rw [hb]
          exact (mem_einsert e e0 b).mpr (Or.inr he)
      · exact ⟨b, by rw [dfind?_dset, if_neg hk]; exact hb, he⟩
    · refine ⟨einsert e ((dfind? m e.source).getD []), ?_,
        self_mem_einsert e _⟩
      rw [dfind?_dset, if_pos rfl]

theorem bindFold_lastWriter (insn : Insn) (R : DataResource) :
    ∀ (accs : List (Bool × DataResource)) (st : BindState),
      rfind?
        ((accs.foldl (fun s a => bindAccess s insn a.1 a.2) st).lastWriter)
        R =
      if accs.any (fun a => a.1 && decide (a.2 = R)) then some insn.ptr
      else rfind? st.lastWriter R := by
  intro accs
  induction accs with
  | nil => intro st; simp
  | cons a t ih =>
    intro st
    rw [List.foldl_cons, ih (bindAccess st insn a.1 a.2), List.any_cons]
    obtain ⟨o, S⟩ := a
    by_cases ht : t.any (fun a => a.1 && decide (a.2 = R)) = true
    · rw [ht]
      simp
    · rw [Bool.not_eq_true] at ht
      rw [ht]
      simp only [Bool.or_false]
      have hlw : (bindAccess st insn o S).lastWriter =
          if o = true then rset S insn.ptr st.lastWriter
          else st.lastWriter := rfl
      rw [hlw]
      cases o with
      | false => simp
      | true =>
        rw [if_pos rfl, if_neg Bool.false_ne_true,
          rfind?_rset S insn.ptr st.lastWriter R]
        simp only [Bool.true_and]
        by_cases hSR : S = R
        · subst hSR
          simp
        · rw [if_neg (fun hh => hSR hh.symm),
            if_neg (by simp [hSR])]

theorem foldl_processInsn_lastWriter (R : DataResource) :
    ∀ (insns : List Insn) (bst : BindState),
      rfind? ((insns.foldl processInsn bst).lastWriter) R =
        match lastWriterSpec? insns R with
        | some p => some p
        | none => rfind? bst.lastWriter R := by
  intro insns
  induction insns with
  | nil => intro bst; rfl
  | cons insn t ih =>
    intro bst
    rw [List.foldl_cons, ih (processInsn bst insn)]
    have hstep : rfind? ((processInsn bst insn).lastWriter) R =
        if (insnAccesses insn).any (fun a => a.1 && decide (a.2 = R)) then
          some insn.ptr
        else rfind? bst.lastWriter R :=
      bindFold_lastWriter insn R (insnAccesses insn) bst
    show _ =
      match
        (match lastWriterSpec? t R with
         | some p => some p
         | none =>
           if (insnAccesses insn).any (fun a => a.1 && decide (a.2 = R)) then
             some insn.ptr
           else none) with
      | some p => some p
      | none => rfind? bst.lastWriter R
    cases hLW : lastWriterSpec? t R with
    | some p => rfl
    | none =>
      rw [hstep]
      by_cases hw :
          (insnAccesses insn).any (fun a => a.1 && decide (a.2 = R)) = true
      · rw [if_pos hw, if_pos hw]
      · rw [if_neg hw, if_neg hw]

/-- Claim C7: within a basic block, walked in instruction order with a
map from resource to last-writing pc, each access of resource `R` at
instruction `I` files exactly one edge — `Filled` for a read, `Empty` for
a write — whose source is the recorded last writer of `R` (or
`PhiNode(block_start)` when none is recorded) and whose destination is
`I`, and a write then records `I` as the last writer of `R`; moreover the
threaded last-writer map always holds, for each resource, the pc of the
last instruction processed so far that writes it.  (`processInsn` runs
`bindAccess` over `insnAccesses insn` in order, and
`intraBasicBlockDataFlow` runs `processInsn` over each block's
instruction slice in order, by definition.) -/
theorem claim_C7 :
    (∀ (st : BindState) (insn : Insn) (isOutput : Bool) (R : DataResource),
      (bindAccess st insn isOutput R).blockStart = st.blockStart ∧
      (bindAccess st insn isOutput R).lastWriter =
        (if isOutput then rset R insn.ptr st.lastWriter
         else st.lastWriter) ∧
      ∀ e : DfgEdge,
        memEdges (bindAccess st insn isOutput R).edges e ↔
          memEdges st.edges e ∨
          e = { source :=
                  match rfind? st.lastWriter R with
                  | some s => DfgNode.instructionNode s
                  | none => DfgNode.phiNode st.blockStart
                destination := DfgNode.instructionNode insn.ptr
                kind := if isOutput then DfgEdgeKind.empty
                  else DfgEdgeKind.filled
                resource := R }) ∧
    (∀ (insns : List Insn) (bst : BindState) (R : DataResource),
      rfind? ((insns.foldl processInsn bst).lastWriter) R =
        match lastWriterSpec? insns R with
        | some p => some p
        | none => rfind? bst.lastWriter R) := by
  constructor
  · intro st insn isOutput R
    refine ⟨rfl, rfl, ?_⟩
    intro e
    exact memEdges_update st.edges
      { source :=
          match rfind? st.lastWriter R with
          | some s => DfgNode.instructionNode s
          | none => DfgNode.phiNode st.blockStart
        destination := DfgNode.instructionNode insn.ptr
        kind := if isOutput then DfgEdgeKind.empty else DfgEdgeKind.filled
        resource := R } e
  · intro insns bst R
    exact foldl_processInsn_lastWriter R insns bst

/-! The Φ-dropping and reverse-adjacency phases of
`inter_basic_block_data_flow`. -/

theorem eraseFold_none_preserve :
    ∀ (l : List (Nat × CfgNode)) (f : List (DfgNode × List DfgEdge))
      (k : DfgNode), dfind? f k = none →
      dfind? (l.foldl
        (fun f p => if p.2.sources.length = 1 then
          derase (DfgNode.phiNode p.1) f else f) f) k = none := by
  intro l
  induction l with
  | nil => intro f k hk; exact hk
  | cons q t ih =>
    intro f k hk
    rw [List.foldl_cons]
    refine ih _ k ?_
    by_cases hq : q.2.sources.length = 1
    · rw [if_pos hq, dfind?_derase]
      by_cases hkq : k = DfgNode.phiNode q.1
      · rw [if_pos hkq]
      · rw [if_neg hkq]; exact hk
    · rw [if_neg hq]; exact hk

theorem eraseFold_none (l : List (Nat × CfgNode))
    (f : List (DfgNode × List DfgEdge)) (p : Nat × CfgNode)
    (hp : p ∈ l) (hlen : p.2.sources.length = 1) :
    dfind? (l.foldl
      (fun f p => if p.2.sources.length = 1 then
        derase (DfgNode.phiNode p.1) f else f) f)
      (DfgNode.phiNode p.1) = none := by
  obtain ⟨s, t, rfl⟩ := List.append_of_mem hp
  rw [List.foldl_append, List.foldl_cons, if_pos hlen]
  refine eraseFold_none_preserve t _ _ ?_
  rw [dfind?_derase, if_pos rfl]

theorem revFold_dest :
    ∀ (l : List (DfgNode × List DfgEdge))
      (r0 : List (DfgNode × List DfgEdge)),
      (∀ (k : DfgNode) (b : List DfgEdge), dfind? r0 k = some b →
        ∀ e ∈ b, e.destination = k) →
      ∀ (k : DfgNode) (b : List DfgEdge),
        dfind? (l.foldl
          (fun r p =>
            p.2.foldl
              (fun r2 e =>
                dset e.destination
                  (einsert e ((dfind? r2 e.destination).getD [])) r2)
              r)
          r0) k = some b →
        ∀ e ∈ b, e.destination = k := by
  have inner : ∀ (es : List DfgEdge) (r0 : List (DfgNode × List DfgEdge)),
      (∀ (k : DfgNode) (b : List DfgEdge), dfind? r0 k = some b →
        ∀ e ∈ b, e.destination = k) →
      ∀ (k : DfgNode) (b : List DfgEdge),
        dfind? (es.foldl
          (fun r2 e => dset e.destination
            (einsert e ((dfind? r2 e.destination).getD [])) r2) r0) k
          = some b →
        ∀ e ∈ b, e.destination = k := by
    intro es
    induction es with
    | nil => intro r0 hinv; exact hinv
    | cons e0 t ih =>
      intro r0 hinv
      rw [List.foldl_cons]
      refine ih _ ?_
      intro k b hb e he
      rw [dfind?_dset] at hb
      by_cases hk : k = e0.destination
      · rw [if_pos hk] at hb
        injection hb with hb
        rw [← hb] at he
        rcases (mem_einsert e e0 _).mp he with hh | hh
        · rw [hh, hk]
        · cases hd : dfind? r0 e0.destination with
          | none =>
            rw [hd] at hh
            exact absurd hh (List.not_mem_nil e)
          | some b0 =>
            rw [hd] at hh
            rw [hk]
            exact hinv e0.destination b0 hd e hh
      · rw [if_neg hk] at hb
        exact hinv k b hb e he
  intro l
  induction l with
  | nil => intro r0 hinv; exact hinv
  | cons q t ih =>
    intro r0 hinv
    rw [List.foldl_cons]
    exact ih _ (inner q.2 r0 hinv)

/-- Claim C6 (amended): after the full pipeline, the Φ node of every block
with **exactly one** predecessor is dropped from the keys of
`dfg_forward_edges`, and the reverse adjacency is keyed by destination
(every edge in a reverse bucket has that bucket's key as its
destination).  The stronger original claim is false: Φ keys of blocks with
**zero** predecessors are never dropped, and propagated edges keep stale
Φ sources pointing at single-predecessor blocks (see the
counterexample). -/
theorem claim_C6_amended (exe : Exe) (fuel : Nat) (a' : Analysis)
    (h : fromExecutable exe fuel = some a') :
    (∀ p ∈ a'.cfgNodes, p.2.sources.length = 1 →
      dfind? a'.dfgForwardEdges (DfgNode.phiNode p.1) = none) ∧
    (∀ (k : DfgNode) (b : List DfgEdge),
      dfind? a'.dfgReverseEdges k = some b →
      ∀ e ∈ b, e.destination = k) := by
  unfold fromExecutable at h
  simp only [bind, Option.bind_eq_some] at h
  obtain ⟨a4, ha4, hinter⟩ := h
  unfold interBasicBlockDataFlow at hinter
  simp only [bind, Option.bind_eq_some] at hinter
  obtain ⟨fwd, hfwd, hpure⟩ := hinter
  injection hpure with ha'
  subst ha'
  constructor
  · intro p hp hlen
    exact eraseFold_none (intraBasicBlockDataFlow a4).1.cfgNodes fwd p hp hlen
  · exact revFold_dest _ []
      (fun k b hb => Option.noConfusion hb)

/-- Witness for `claim_C6_amended` at `exePhi`. -/
theorem claim_C6_amended_witness :
    fromExecutable exePhi 50 = some exePhiFull ∧
    ((∀ p ∈ exePhiFull.cfgNodes, p.2.sources.length = 1 →
      dfind? exePhiFull.dfgForwardEdges (DfgNode.phiNode p.1) = none) ∧
     (∀ (k : DfgNode) (b : List DfgEdge),
      dfind? exePhiFull.dfgReverseEdges k = some b →
      ∀ e ∈ b, e.destination = k)) :=
  ⟨by decide, claim_C6_amended exePhi 50 exePhiFull (by decide)⟩

/-! The comparator `control_flow_graph_order` is a total preorder, and
`sort_by` with it yields a sorted permutation of the keys. -/

theorem Ordering.then_eq_gt_iff (a b : Ordering) :
    a.then b = .gt ↔ a = .gt ∨ (a = .eq ∧ b = .gt) := by
  cases a <;> cases b <;> simp [Ordering.then]

theorem cfgOrderOf_gt_iff (na nb : CfgNode) :
    cfgOrderOf na nb = .gt ↔
      (na.sccId < nb.sccId ∨
       (nb.sccId = na.sccId ∧ na.indexInScc < nb.indexInScc)) := by
  unfold cfgOrderOf
  rw [Ordering.then_eq_gt_iff, Nat.compare_eq_gt, Nat.compare_eq_eq,
    Nat.compare_eq_gt]

theorem cfgOrderOf_eq_iff (na nb : CfgNode) :
    cfgOrderOf na nb = .eq ↔
      (nb.sccId = na.sccId ∧ nb.indexInScc = na.indexInScc) := by
  unfold cfgOrderOf
  rw [Ordering.then_eq_eq_iff, Nat.compare_eq_eq, Nat.compare_eq_eq]

theorem cfgOrderD_total (m : List (Nat × CfgNode)) (a b : Nat)
    (h : cfgOrderD m a b = .gt) : cfgOrderD m b a ≠ .gt := by
  unfold cfgOrderD at h ⊢
  rw [cfgOrderOf_gt_iff] at h
  simp only [ne_eq]
  rw [cfgOrderOf_gt_iff]
  omega

theorem cfgOrderD_eq_not_gt (m : List (Nat × CfgNode)) (a b : Nat)
    (h : cfgOrderD m a b = .eq) : cfgOrderD m b a ≠ .gt := by
  unfold cfgOrderD at h ⊢
  rw [cfgOrderOf_eq_iff] at h
  simp only [ne_eq]
  rw [cfgOrderOf_gt_iff]
  omega

theorem cfgOrderD_trans (m : List (Nat × CfgNode)) (a b c : Nat)
    (hab : cfgOrderD m a b ≠ .gt) (hbc : cfgOrderD m b c ≠ .gt) :
    cfgOrderD m a c ≠ .gt := by
  unfold cfgOrderD at hab hbc ⊢
  simp only [ne_eq] at hab hbc ⊢
  rw [cfgOrderOf_gt_iff] at hab hbc ⊢
  omega

theorem insertBy_cons {α : Type} (cmp : α → α → Ordering) (x y : α)
    (t : List α) :
    insertBy cmp x (y :: t) =
      match cmp x y with
      | .lt => x :: y :: t
      | _ => y :: insertBy cmp x t := rfl

theorem mem_insertBy {α : Type} (cmp : α → α → Ordering) (x : α) :
    ∀ (l : List α) (z : α), z ∈ insertBy cmp x l → z = x ∨ z ∈ l := by
  intro l
  induction l with
  | nil =>
    intro z hz
    rw [show insertBy cmp x [] = [x] from rfl, List.mem_singleton] at hz
    exact Or.inl hz
  | cons y t ih =>
    intro z hz
    rw [insertBy_cons] at hz
    cases hcmp : cmp x y with
    | lt =>
      rw [hcmp] at hz
      rcases List.mem_cons.mp hz with hz | hz
      · exact Or.inl hz
      · exact Or.inr hz
    | eq =>
      rw [hcmp] at hz
      rcases List.mem_cons.mp hz with hz | hz
      · exact Or.inr (by rw [hz]; exact List.mem_cons_self y t)
      · rcases ih z hz with hh | hh
        · exact Or.inl hh
        · exact Or.inr (List.mem_cons_of_mem y hh)
    | gt =>
      rw [hcmp] at hz
      rcases List.mem_cons.mp hz with hz | hz
      · exact Or.inr (by rw [hz]; exact List.mem_cons_self y t)
      · rcases ih z hz with hh | hh
        · exact Or.inl hh
        · exact Or.inr (List.mem_cons_of_mem y hh)

theorem insertBy_pairwise {α : Type} (cmp : α → α → Ordering)
    (htot : ∀ a b, cmp a b = .gt → cmp b a ≠ .gt)
    (heqs : ∀ a b, cmp a b = .eq → cmp b a ≠ .gt)
    (htrans : ∀ a b c, cmp a b ≠ .gt → cmp b c ≠ .gt → cmp a c ≠ .gt)
    (x : α) :
    ∀ l : List α, List.Pairwise (fun a b => cmp a b ≠ .gt) l →
      List.Pairwise (fun a b => cmp a b ≠ .gt) (insertBy cmp x l) := by
  intro l
  induction l with
  | nil => intro _; exact List.pairwise_singleton _ x
  | cons y t ih =>
    intro hp
    rw [List.pairwise_cons] at hp
    obtain ⟨hy, ht⟩ := hp
    rw [insertBy_cons]
    cases hcmp : cmp x y with
    | lt =>
      show List.Pairwise (fun a b => cmp a b ≠ .gt) (x :: y :: t)
      have hxy : cmp x y ≠ .gt := by rw [hcmp]; intro hh; cases hh
      rw [List.pairwise_cons]
      constructor
      · intro z hz
        rcases List.mem_cons.mp hz with hz | hz
        · rw [hz]; exact hxy
        · exact htrans x y z hxy (hy z hz)
      · rw [List.pairwise_cons]
        exact ⟨hy, ht⟩
    | eq =>
      show List.Pairwise (fun a b => cmp a b ≠ .gt) (y :: insertBy cmp x t)
      rw [List.pairwise_cons]
      constructor
      · intro z hz
        rcases mem_insertBy cmp x t z hz with hz | hz
        · rw [hz]; exact heqs x y hcmp
        · exact hy z hz
      · exact ih ht
    | gt =>
      show List.Pairwise (fun a b => cmp a b ≠ .gt) (y :: insertBy cmp x t)
      rw [List.pairwise_cons]
      constructor
      · intro z hz
        rcases mem_insertBy cmp x t z hz with hz | hz
        · rw [hz]; exact htot x y hcmp
        · exact hy z hz
      · exact ih ht

theorem insertBy_perm {α : Type} (cmp : α → α → Ordering) (x : α) :
    ∀ l : List α, (insertBy cmp x l).Perm (x :: l) := by
  intro l
  induction l with
  | nil => exact List.Perm.refl [x]
  | cons y t ih =>
    rw [insertBy_cons]
    cases hcmp : cmp x y with
    | lt => exact List.Perm.refl _
    | eq => exact (List.Perm.cons y ih).trans (List.Perm.swap x y t)
    | gt => exact (List.Perm.cons y ih).trans (List.Perm.swap x y t)

theorem sortBy_perm {α : Type} (cmp : α → α → Ordering) :
    ∀ l : List α, (sortBy cmp l).Perm l := by
  intro l
  induction l with
  | nil => exact List.Perm.refl []
  | cons x t ih =>
    show (insertBy cmp x (sortBy cmp t)).Perm (x :: t)
    exact (insertBy_perm cmp x (sortBy cmp t)).trans (List.Perm.cons x ih)

theorem sortBy_pairwise {α : Type} (cmp : α → α → Ordering)
    (htot : ∀ a b, cmp a b = .gt → cmp b a ≠ .gt)
    (heqs : ∀ a b, cmp a b = .eq → cmp b a ≠ .gt)
    (htrans : ∀ a b c, cmp a b ≠ .gt → cmp b c ≠ .gt → cmp a c ≠ .gt) :
    ∀ l : List α, List.Pairwise (fun a b => cmp a b ≠ .gt) (sortBy cmp l) := by
  intro l
  induction l with
  | nil => exact List.Pairwise.nil
  | cons x t ih =>
    show List.Pairwise _ (insertBy cmp x (sortBy cmp t))
    exact insertBy_pairwise cmp htot heqs htrans x (sortBy cmp t) ih

/-- Like `tarjan_topo`, but with the empty-graph branch discharged by the
pipeline's empty initial order. -/
theorem tarjan_topo_sorted (fuel : Nat) (a a3 : Analysis)
    (h : controlFlowGraphTarjan fuel a = some a3)
    (htopo0 : a.topologicalOrder = []) :
    a3.topologicalOrder =
      sortBy (cfgOrderD a3.cfgNodes) (nkeys a3.cfgNodes) := by
  unfold controlFlowGraphTarjan at h
  split at h
  · next hemp =>
    have ha : a = a3 := by injection h
    rw [← ha, htopo0, List.isEmpty_iff.mp hemp]
    rfl
  · split at h
    · exact absurd h (by simp)
    · split at h
      · exact absurd h (by simp)
      · injection h with hh
        rw [← hh]

/-! Reading the DFS observables through `List.set` updates. -/

theorem get?_set_self {α : Type} (l : List α) (i : Nat) (x : α)
    (h : i < l.length) : (l.set i x).get? i = some x := by
  rw [List.get?_eq_getElem?, List.getElem?_set_self h]

theorem get?_set_ne {α : Type} (l : List α) (i j : Nat) (x : α)
    (h : i ≠ j) : (l.set i x).get? j = l.get? j := by
  rw [List.get?_eq_getElem?, List.get?_eq_getElem?, List.getElem?_set_ne h]

theorem get?_lt {α : Type} (l : List α) (i : Nat) (h : i < l.length) :
    ∃ x, l.get? i = some x := by
  cases hx : l.get? i with
  | none =>
    rw [List.get?_eq_none] at hx
    omega
  | some x => exact ⟨x, rfl⟩

theorem ndisc_set_self (ns : List NodeState) (v : Nat) (x : NodeState)
    (h : v < ns.length) : ndisc (ns.set v x) v = x.discovery := by
  unfold ndisc
  rw [get?_set_self ns v x h]
  rfl

theorem ndisc_set_ne (ns : List NodeState) (v : Nat) (x : NodeState)
    (y : Nat) (h : v ≠ y) : ndisc (ns.set v x) y = ndisc ns y := by
  unfold ndisc
  rw [get?_set_ne ns v y x h]

theorem nlow_set_self (ns : List NodeState) (v : Nat) (x : NodeState)
    (h : v < ns.length) : nlow (ns.set v x) v = x.lowlink := by
  unfold nlow
  rw [get?_set_self ns v x h]
  rfl

theorem nlow_set_ne (ns : List NodeState) (v : Nat) (x : NodeState)
    (y : Nat) (h : v ≠ y) : nlow (ns.set v x) y = nlow ns y := by
  unfold nlow
  rw [get?_set_ne ns v y x h]

theorem nscc_set_self (ns : List NodeState) (v : Nat) (x : NodeState)
    (h : v < ns.length) : nscc (ns.set v x) v = x.sccId := by
  unfold nscc
  rw [get?_set_self ns v x h]
  rfl

theorem nscc_set_ne (ns : List NodeState) (v : Nat) (x : NodeState)
    (y : Nat) (h : v ≠ y) : nscc (ns.set v x) y = nscc ns y := by
  unfold nscc
  rw [get?_set_ne ns v y x h]

theorem nonStack_set_self (ns : List NodeState) (v : Nat) (x : NodeState)
    (h : v < ns.length) :
    nonStack (ns.set v x) v ↔ x.isOnSccStack = true := by
  unfold nonStack
  rw [get?_set_self ns v x h]
  exact Iff.rfl

theorem nonStack_set_ne (ns : List NodeState) (v : Nat) (x : NodeState)
    (y : Nat) (h : v ≠ y) : nonStack (ns.set v x) y ↔ nonStack ns y := by
  unfold nonStack
  rw [get?_set_ne ns v y x h]

theorem ncfg_set_self (ns : List NodeState) (v : Nat) (x : NodeState)
    (h : v < ns.length) : ncfg (ns.set v x) v = x.cfgNode := by
  unfold ncfg
  rw [get?_set_self ns v x h]
  rfl

theorem ncfg_set_ne (ns : List NodeState) (v : Nat) (x : NodeState)
    (y : Nat) (h : v ≠ y) : ncfg (ns.set v x) y = ncfg ns y := by
  unfold ncfg
  rw [get?_set_ne ns v y x h]

theorem countD_le (ns : List NodeState) : countD ns ≤ ns.length := by
  unfold countD
  exact List.countP_le_length _

theorem countD_set_fresh :
    ∀ (ns : List NodeState) (v : Nat) (nv x : NodeState),
      ns.get? v = some nv → nv.discovery = SENTINEL →
      x.discovery ≠ SENTINEL → countD (ns.set v x) = countD ns + 1 := by
  intro ns
  induction ns with
  | nil => intro v nv x hg _ _; rw [show (([] : List NodeState).get? v) = none from rfl] at hg; exact Option.noConfusion hg
  | cons y t ih =>
    intro v nv x hg h1 h2
    cases v with
    | zero =>
      injection hg with hg
      subst hg
      show countD (x :: t) = countD (y :: t) + 1
      unfold countD
      rw [List.countP_cons, List.countP_cons]
      simp only [decide_eq_true_eq]
      rw [if_pos h2, if_neg (fun hh => hh h1)]
    | succ v' =>
      show countD (y :: t.set v' x) = countD (y :: t) + 1
      unfold countD
      rw [List.countP_cons, List.countP_cons]
      have := ih v' nv x hg h1 h2
      unfold countD at this
      omega

theorem countD_set_same :
    ∀ (ns : List NodeState) (v : Nat) (nv x : NodeState),
      ns.get? v = some nv →
      (nv.discovery ≠ SENTINEL ↔ x.discovery ≠ SENTINEL) →
      countD (ns.set v x) = countD ns := by
  intro ns
  induction ns with
  | nil => intro v nv x hg _; rw [show (([] : List NodeState).get? v) = none from rfl] at hg; exact Option.noConfusion hg
  | cons y t ih =>
    intro v nv x hg h1
    cases v with
    | zero =>
      injection hg with hg
      subst hg
      show countD (x :: t) = countD (y :: t)
      unfold countD
      rw [List.countP_cons, List.countP_cons]
      by_cases hd : y.discovery ≠ SENTINEL
      · simp only [decide_eq_true_eq]
        rw [if_pos (h1.mp hd), if_pos hd]
      · have hx : ¬x.discovery ≠ SENTINEL := fun hh => hd (h1.mpr hh)
        simp only [decide_eq_true_eq]
        rw [if_neg hx, if_neg hd]
    | succ v' =>
      show countD (y :: t.set v' x) = countD (y :: t)
      unfold countD
      rw [List.countP_cons, List.countP_cons]
      have := ih v' nv x hg h1
      unfold countD at this
      omega

/-! Lemmas about the SCC-stack decomposition. -/

theorem StackDecomp.subset {ns : List NodeState} :
    ∀ {path stack : List Nat}, StackDecomp ns path stack →
      ∀ u ∈ path, u ∈ stack := by
  intro path stack h
  induction h with
  | nil => intro u hu; exact absurd hu (List.not_mem_nil u)
  | seg u T path' stack' _ _ ih =>
    intro z hz
    rcases List.mem_cons.mp hz with hz | hz
    · rw [hz]
      exact List.mem_append_right T (List.mem_cons_self u stack')
    · exact List.mem_append_right T (List.mem_cons_of_mem u (ih z hz))

theorem StackDecomp.congr {ns ns' : List NodeState} :
    ∀ {path stack : List Nat}, StackDecomp ns path stack →
      (∀ x ∈ stack, nlow ns' x = nlow ns x) →
      StackDecomp ns' path stack := by
  intro path stack h
  induction h with
  | nil => intro _; exact StackDecomp.nil
  | seg u T path' stack' hrec hT ih =>
    intro hsame
    have hu : u ∈ T ++ u :: stack' :=
      List.mem_append_right T (List.mem_cons_self u stack')
    refine StackDecomp.seg u T path' stack' ?_ ?_
    · refine ih ?_
      intro x hx
      exact hsame x (List.mem_append_right T (List.mem_cons_of_mem u hx))
    · intro x hx
      rw [hsame x (List.mem_append_left _ hx), hsame u hu]
      exact hT x hx

theorem StackDecomp.stack_nil {ns : List NodeState} :
    ∀ {path stack : List Nat}, StackDecomp ns path stack →
      stack = [] → path = [] := by
  intro path stack h
  induction h with
  | nil => intro _; rfl
  | seg u T path' stack' _ _ _ =>
    intro heq
    exact absurd heq (by simp)

theorem StackDecomp.path_nil {ns : List NodeState} :
    ∀ {stack : List Nat}, StackDecomp ns [] stack → stack = [] := by
  intro stack h
  cases h
  rfl

theorem StackDecomp.lower {ns ns' : List NodeState} (v : Nat) :
    ∀ {path stack : List Nat}, StackDecomp ns path stack →
      stack.Nodup →
      v ∈ path →
      (∀ y ∈ stack, y ≠ v → nlow ns' y = nlow ns y) →
      nlow ns' v ≤ nlow ns v →
      StackDecomp ns' path stack := by
  intro path stack h
  induction h with
  | nil => intro _ hv _ _; exact absurd hv (List.not_mem_nil v)
  | seg u T path' stack' hrec hT ih =>
    intro hnd hv hsame hlow
    have hndparts := List.nodup_append.mp hnd
    have hndcons := hndparts.2.1
    rw [List.nodup_cons] at hndcons
    have hdisj := hndparts.2.2
    rcases List.mem_cons.mp hv with hv | hv
    · subst hv
      refine StackDecomp.seg v T path' stack' ?_ ?_
      · refine hrec.congr ?_
        intro x hx
        refine hsame x
          (List.mem_append_right T (List.mem_cons_of_mem v hx)) ?_
        intro hxv
        rw [hxv] at hx
        exact hndcons.1 hx
      · intro x hx
        have hxv : x ≠ v := by
          intro hxv
          rw [hxv] at hx
          exact hdisj hx (List.mem_cons_self v stack')
        rw [hsame x (List.mem_append_left _ hx) hxv]
        exact le_trans hlow (hT x hx)
    · have hvu : v ≠ u := by
        intro hvu
        rw [hvu] at hv
        have := hrec.subset u hv
        exact hndcons.1 this
      refine StackDecomp.seg u T path' stack' ?_ ?_
      · refine ih hndcons.2 hv ?_ hlow
        intro y hy hyv
        exact hsame y
          (List.mem_append_right T (List.mem_cons_of_mem u hy)) hyv
      · intro x hx
        have hxv : x ≠ v := by
          intro hxv
          rw [hxv] at hx
          exact hdisj hx (List.mem_cons_of_mem u (hrec.subset v hv))
        rw [hsame x (List.mem_append_left _ hx) hxv,
          hsame u (List.mem_append_right T (List.mem_cons_self u stack'))
            (fun h => hvu h.symm)]
        exact hT x hx

theorem get?_some_lt {α : Type} (l : List α) (i : Nat) (x : α)
    (h : l.get? i = some x) : i < l.length := by
  by_contra hh
  rw [List.get?_eq_none.mpr (by omega)] at h
  exact Option.noConfusion h

/-! Preservation lemmas for handled edges and recursion-stack frames. -/

theorem EdgeOK_assigned {ns : List NodeState} {x w : Nat}
    (h : nscc ns w ≠ SENTINEL) : EdgeOK ns x w := Or.inl h

theorem EdgeOK_mono {ns ns' : List NodeState} {x w : Nat}
    (hscc : nscc ns' w = nscc ns w)
    (hon : nonStack ns w → nonStack ns' w ∧ ndisc ns' w = ndisc ns w)
    (hlow : nonStack ns w → nlow ns' x ≤ nlow ns x)
    (h : EdgeOK ns x w) : EdgeOK ns' x w := by
  rcases h with h | ⟨h1, h2⟩
  · exact Or.inl (by rw [hscc]; exact h)
  · obtain ⟨h3, h4⟩ := hon h1
    exact Or.inr ⟨h3, by rw [h4]; exact le_trans (hlow h1) h2⟩

theorem FrameOK_mono {tempCfg : List (Nat × CfgNode)} {key : Nat → Nat}
    {ns ns' : List NodeState} {v j pend : Nat}
    (hEO : ∀ w, EdgeOK ns v w → EdgeOK ns' v w)
    (h : FrameOK tempCfg key ns v j pend) :
    FrameOK tempCfg key ns' v j pend := by
  intro i hi node d dn h1 h2 h3
  exact hEO dn.sccId (h i hi node d dn h1 h2 h3)

theorem FramesTail_mono {tempCfg : List (Nat × CfgNode)} {key : Nat → Nat}
    {n : Nat} {ns ns' : List NodeState} {l : List (Nat × Nat)}
    (hEO : ∀ x w, EdgeOK ns x w → EdgeOK ns' x w)
    (h : FramesTail tempCfg key n ns l) : FramesTail tempCfg key n ns' l := by
  intro f hf
  obtain ⟨h1, h2, h3⟩ := h f hf
  exact ⟨h1, h2, FrameOK_mono (hEO f.1) h3⟩

theorem stampedPath_nil : stampedPath [] = [] := rfl

theorem stampedPath_cons_zero (v : Nat) (l : List (Nat × Nat)) :
    stampedPath ((v, 0) :: l) = stampedPath l := by
  simp [stampedPath]

theorem stampedPath_cons_pos (v j : Nat) (l : List (Nat × Nat)) (h : j ≠ 0) :
    stampedPath ((v, j) :: l) = v :: stampedPath l := by
  simp [stampedPath, h]

theorem StackDecomp.cons_inv {ns : List NodeState} {path stack : List Nat}
    {v : Nat} (h : StackDecomp ns (v :: path) stack) :
    ∃ T S, stack = T ++ v :: S ∧ StackDecomp ns path S ∧
      ∀ x ∈ T, nlow ns v ≤ nlow ns x := by
  cases h with
  | seg u T path' stack' hrec hT => exact ⟨T, stack', rfl, hrec, hT⟩

/-! The edge scan: a one-step unfolding equation and a full
specification covering its effect on the node states and the scanned
edges. -/

theorem tarjanScanFrom_cons (tempCfg : List (Nat × CfgNode)) (v d : Nat)
    (rest : List Nat) (nodes : List NodeState) (j : Nat) :
    tarjanScanFrom tempCfg v (d :: rest) nodes j =
      match nfind? tempCfg d with
      | none => none
      | some dn =>
        match nodes.get? dn.sccId with
        | none => none
        | some nw =>
          if nw.discovery = SENTINEL then some (nodes, some (j + 1, dn.sccId))
          else if nw.isOnSccStack then
            match nodes.get? v with
            | none => none
            | some nv =>
              tarjanScanFrom tempCfg v rest
                (nodes.set v { nv with lowlink := min nv.lowlink nw.discovery })
                (j + 1)
          else tarjanScanFrom tempCfg v rest nodes (j + 1) := rfl

theorem tarjanScanFrom_spec (tempCfg : List (Nat × CfgNode)) (v : Nat) :
    ∀ (l : List Nat) (nodes : List NodeState) (j : Nat)
      (res : List NodeState × Option (Nat × Nat)),
      tarjanScanFrom tempCfg v l nodes j = some res →
      v < nodes.length →
      (∀ x, x < nodes.length → ndisc nodes x ≠ SENTINEL →
        ¬nonStack nodes x → nscc nodes x ≠ SENTINEL) →
      ScanSpec tempCfg v l nodes j res := by
  intro l
  induction l with
  | nil =>
    intro nodes j res h hv hD
    have h2 : some ((nodes, none) :
        List NodeState × Option (Nat × Nat)) = some res := h
    injection h2 with h2
    subst h2
    refine ⟨rfl, fun _ _ => rfl, rfl, rfl, Iff.rfl, rfl, le_refl _,
      fun L hL _ => hL, rfl, ?_, ?_⟩
    · intro _ i d dn hi _
      exact absurd hi (by simp)
    · intro jn w hsw
      exact Option.noConfusion hsw
  | cons d rest ih =>
    intro nodes j res h hv hD
    rw [tarjanScanFrom_cons] at h
    cases hfd : nfind? tempCfg d with
    | none => rw [hfd] at h; exact Option.noConfusion h
    | some dn =>
      simp only [hfd] at h
      cases hgw : nodes.get? dn.sccId with
      | none =>
        simp only [hgw] at h
        exact Option.noConfusion h
      | some nw =>
        simp only [hgw] at h
        have hwlt : dn.sccId < nodes.length := get?_some_lt _ _ _ hgw
        have hwdisc : ndisc nodes dn.sccId = nw.discovery := by
          unfold ndisc; rw [hgw]; rfl
        have hwstk : nonStack nodes dn.sccId ↔ nw.isOnSccStack = true := by
          unfold nonStack; rw [hgw]; exact Iff.rfl
        have hwscc : nscc nodes dn.sccId = nw.sccId := by
          unfold nscc; rw [hgw]; rfl
        by_cases hdis : nw.discovery = SENTINEL
        · rw [if_pos hdis] at h
          injection h with h
          subst h
          refine ⟨rfl, fun _ _ => rfl, rfl, rfl, Iff.rfl, rfl, le_refl _,
            fun L hL _ => hL, rfl, ?_, ?_⟩
          · intro habs
            exact Option.noConfusion habs
          · intro jn w hsw
            injection hsw with hsw
            have hjn : jn = j + 1 := (congrArg Prod.fst hsw).symm
            have hw : w = dn.sccId := (congrArg Prod.snd hsw).symm
            subst hjn
            subst hw
            refine ⟨by omega, hwlt, by rw [hwdisc]; exact hdis, ?_, ?_⟩
            · refine ⟨d, dn, ?_, hfd, rfl⟩
              have : j + 1 - 1 - j = 0 := by omega
              rw [this]
              rfl
            · intro i d' dn' hi
              have : j + 1 - 1 - j = 0 := by omega
              rw [this] at hi
              omega
        · rw [if_neg hdis] at h
          by_cases hos : nw.isOnSccStack = true
          · rw [if_pos hos] at h
            obtain ⟨nv, hnv⟩ := get?_lt nodes v hv
            simp only [hnv] at h
            have hvlow : nlow nodes v = nv.lowlink := by
              unfold nlow; rw [hnv]; rfl
            have hlen' : (nodes.set v
                { nv with lowlink := min nv.lowlink nw.discovery }).length =
                nodes.length := List.length_set ..
            have e1 : ∀ y, ndisc (nodes.set v
                { nv with lowlink := min nv.lowlink nw.discovery }) y =
                ndisc nodes y := by
              intro y
              by_cases hy : y = v
              · subst hy
                rw [ndisc_set_self _ _ _ hv]
                unfold ndisc; rw [hnv]; rfl
              · exact ndisc_set_ne _ _ _ _ (fun hh => hy hh.symm)
            have e2 : ∀ y, nscc (nodes.set v
                { nv with lowlink := min nv.lowlink nw.discovery }) y =
                nscc nodes y := by
              intro y
              by_cases hy : y = v
              · subst hy
                rw [nscc_set_self _ _ _ hv]
                unfold nscc; rw [hnv]; rfl
              · exact nscc_set_ne _ _ _ _ (fun hh => hy hh.symm)
            have e3 : ∀ y, nonStack (nodes.set v
                { nv with lowlink := min nv.lowlink nw.discovery }) y ↔
                nonStack nodes y := by
              intro y
              by_cases hy : y = v
              · subst hy
                rw [nonStack_set_self _ _ _ hv]
                unfold nonStack; rw [hnv]; exact Iff.rfl
              · exact nonStack_set_ne _ _ _ _ (fun hh => hy hh.symm)
            have e4 : ∀ y, ncfg (nodes.set v
                { nv with lowlink := min nv.lowlink nw.discovery }) y =
                ncfg nodes y := by
              intro y
              by_cases hy : y = v
              · subst hy
                rw [ncfg_set_self _ _ _ hv]
                unfold ncfg; rw [hnv]; rfl
              · exact ncfg_set_ne _ _ _ _ (fun hh => hy hh.symm)
            have e5 : nlow (nodes.set v
                { nv with lowlink := min nv.lowlink nw.discovery }) v =
                min nv.lowlink nw.discovery := nlow_set_self _ _ _ hv
            have hs := ih (nodes.set v
                { nv with lowlink := min nv.lowlink nw.discovery }) (j + 1)
              res h (by rw [hlen']; exact hv)
              (by
                intro x hx h1 h2
                rw [hlen'] at hx
                rw [e1 x] at h1
                rw [e3 x] at h2
                rw [e2 x]
                exact hD x hx h1 h2)
            have hedge0 : EdgeOK res.1 v dn.sccId := by
              refine Or.inr ⟨?_, ?_⟩
              · by_cases hy : dn.sccId = v
                · rw [hy]
                  refine hs.hstk.mpr ((e3 v).mpr ?_)
                  rw [← hy]
                  exact hwstk.mpr hos
                · unfold nonStack
                  rw [hs.hfr _ hy,
                    get?_set_ne _ _ _ _ (fun hh => hy hh.symm), hgw]
                  exact hos
              · have hd1 : ndisc res.1 dn.sccId = nw.discovery := by
                  by_cases hy : dn.sccId = v
                  · rw [hy, hs.hdisc, e1 v, ← hy, hwdisc]
                  · unfold ndisc
                    rw [hs.hfr _ hy,
                      get?_set_ne _ _ _ _ (fun hh => hy hh.symm), hgw]
                    rfl
                rw [hd1]
                exact le_trans hs.hlow (by rw [e5]; exact min_le_right _ _)
            refine ⟨hs.hlen.trans hlen', ?_, ?_, ?_, ?_, ?_, ?_, ?_, ?_,
              ?_, ?_⟩
            · intro y hy
              rw [hs.hfr y hy]
              exact get?_set_ne _ _ _ _ (fun hh => hy hh.symm)
            · rw [hs.hdisc, e1]
            · rw [hs.hscc, e2]
            · rw [hs.hstk]; exact e3 v
            · rw [hs.hcfg, e4]
            · exact le_trans hs.hlow (by
                rw [e5, hvlow]; exact min_le_left _ _)
            · intro L hL hLs
              refine hs.hlb L ?_ ?_
              · rw [e5]
                refine le_min (by rw [hvlow] at hL; exact hL) ?_
                have := hLs dn.sccId hwlt (hwstk.mpr hos)
                rw [hwdisc] at this
                exact this
              · intro x hx h1
                rw [hlen'] at hx
                rw [e1 x]
                exact hLs x hx ((e3 x).mp h1)
            · rw [hs.hcnt]
              exact countD_set_same nodes v nv _ hnv Iff.rfl
            · intro hres2 i d' dn' hi hfd'
              cases i with
              | zero =>
                have hd' : d = d' := by
                  have hdd : some d = some d' := hi
                  injection hdd
                subst hd'
                have hdn' : dn = dn' := by
                  rw [hfd] at hfd'
                  injection hfd'
                subst hdn'
                exact hedge0
              | succ i' =>
                exact hs.hnone hres2 i' d' dn' hi hfd'
            · intro jn w hsw
              obtain ⟨hj1, hw1, hw2, ⟨d', dn', hg', hf', hs'⟩, hpre⟩ :=
                hs.hstop jn w hsw
              refine ⟨by omega, by rw [hlen'] at hw1; exact hw1, hw2,
                ?_, ?_⟩
              · refine ⟨d', dn', ?_, hf', hs'⟩
                have harith : jn - 1 - j = (jn - 1 - (j + 1)) + 1 := by omega
                rw [harith]
                exact hg'
              · intro i d'' dn'' hi hg'' hf''
                cases i with
                | zero =>
                  have hd'' : d = d'' := by
                    have hdd : some d = some d'' := hg''
                    injection hdd
                  subst hd''
                  have hdn'' : dn = dn'' := by
                    rw [hfd] at hf''
                    injection hf''
                  subst hdn''
                  exact hedge0
                | succ i' =>
                  have harith : jn - 1 - j = (jn - 1 - (j + 1)) + 1 := by
                    omega
                  rw [harith] at hi
                  exact hpre i' d'' dn'' (by omega) hg'' hf''
          · rw [if_neg hos] at h
            have hs := ih nodes (j + 1) res h hv hD
            have hedge0 : EdgeOK res.1 v dn.sccId := by
              refine Or.inl ?_
              have hassigned : nscc nodes dn.sccId ≠ SENTINEL := by
                refine hD dn.sccId hwlt (by rw [hwdisc]; exact hdis) ?_
                intro hh
                exact hos (hwstk.mp hh)
              by_cases hy : dn.sccId = v
              · rw [hy, hs.hscc, ← hy]
                exact hassigned
              · unfold nscc
                rw [hs.hfr _ hy, hgw]
                show nw.sccId ≠ SENTINEL
                rw [← hwscc]
                exact hassigned
            refine ⟨hs.hlen, hs.hfr, hs.hdisc, hs.hscc, hs.hstk, hs.hcfg,
              hs.hlow, hs.hlb, hs.hcnt, ?_, ?_⟩
            · intro hres2 i d' dn' hi hfd'
              cases i with
              | zero =>
                have hd' : d = d' := by
                  have hdd : some d = some d' := hi
                  injection hdd
                subst hd'
                have hdn' : dn = dn' := by
                  rw [hfd] at hfd'
                  injection hfd'
                subst hdn'
                exact hedge0
              | succ i' =>
                exact hs.hnone hres2 i' d' dn' hi hfd'
            · intro jn w hsw
              obtain ⟨hj1, hw1, hw2, ⟨d', dn', hg', hf', hs'⟩, hpre⟩ :=
                hs.hstop jn w hsw
              refine ⟨by omega, hw1, hw2, ?_, ?_⟩
              · refine ⟨d', dn', ?_, hf', hs'⟩
                have harith : jn - 1 - j = (jn - 1 - (j + 1)) + 1 := by omega
                rw [harith]
                exact hg'
              · intro i d'' dn'' hi hg'' hf''
                cases i with
                | zero =>
                  have hd'' : d = d'' := by
                    have hdd : some d = some d'' := hg''
                    injection hdd
                  subst hd''
                  have hdn'' : dn = dn'' := by
                    rw [hfd] at hf''
                    injection hf''
                  subst hdn''
                  exact hedge0
                | succ i' =>
                  have harith : jn - 1 - j = (jn - 1 - (j + 1)) + 1 := by
                    omega
                  rw [harith] at hi
                  exact hpre i' d'' dn'' (by omega) hg'' hf''

/-! The SCC pop loop: a one-step unfolding equation and its
specification — the stack prefix down to `v` is stamped off-stack with
the new `scc_id` and small `discovery` values, the remainder of the
stack and all other node states are untouched. -/

theorem sccPop_cons (c v : Nat) (nodes : List NodeState) (w : Nat)
    (rest : List Nat) (k : Nat) :
    sccPop c v nodes (w :: rest) k =
      match nodes.get? w with
      | none => none
      | some nw =>
        if w = v then
          some (nodes.set w
            { nw with isOnSccStack := false, sccId := c, discovery := k },
            rest)
        else
          sccPop c v
            (nodes.set w
              { nw with isOnSccStack := false, sccId := c, discovery := k })
            rest (k + 1) := rfl

theorem sccPop_spec (c v : Nat) (rest : List Nat) :
    ∀ (T : List Nat) (nodes : List NodeState) (k : Nat)
      (res : List NodeState × List Nat),
      sccPop c v nodes (T ++ v :: rest) k = some res →
      v ∉ T →
      (∀ w, w ∈ T ∨ w = v → w < nodes.length) →
      k + T.length < SENTINEL →
      (∀ w, w ∈ T ∨ w = v → ndisc nodes w ≠ SENTINEL) →
      res.2 = rest ∧
      res.1.length = nodes.length ∧
      (∀ y, y ∉ T → y ≠ v → res.1.get? y = nodes.get? y) ∧
      countD res.1 = countD nodes ∧
      (∀ w, w ∈ T ∨ w = v → ∃ nw m, nodes.get? w = some nw ∧
        res.1.get? w = some { nw with
          isOnSccStack := false
          sccId := c
          discovery := m } ∧ m < SENTINEL) := by
  intro T
  induction T with
  | nil =>
    intro nodes k res h _ hb hk hd
    obtain ⟨nv, hnv⟩ := get?_lt nodes v (hb v (Or.inr rfl))
    rw [show ([] : List Nat) ++ v :: rest = v :: rest from rfl,
      sccPop_cons] at h
    simp only [hnv, if_true] at h
    injection h with h
    subst h
    have hkS : k ≠ SENTINEL := by
      simp only [List.length_nil] at hk
      omega
    have hvd : nv.discovery ≠ SENTINEL := by
      have := hd v (Or.inr rfl)
      unfold ndisc at this
      rw [hnv] at this
      exact this
    refine ⟨rfl, List.length_set .., ?_, ?_, ?_⟩
    · intro y _ hy
      exact get?_set_ne _ _ _ _ (fun hh => hy hh.symm)
    · exact countD_set_same nodes v nv _ hnv (iff_of_true hvd hkS)
    · intro w hw
      rcases hw with hw | hw
      · exact absurd hw (List.not_mem_nil w)
      · subst hw
        refine ⟨nv, k, hnv, ?_, by omega⟩
        exact get?_set_self _ _ _ (hb w (Or.inr rfl))
  | cons t T' ih =>
    intro nodes k res h hvT hb hk hd
    have htv : ¬t = v := by
      intro hh
      exact hvT (hh ▸ List.mem_cons_self t T')
    have htlt : t < nodes.length := hb t (Or.inl (List.mem_cons_self t T'))
    obtain ⟨nt, hnt⟩ := get?_lt nodes t htlt
    rw [show (t :: T') ++ v :: rest = t :: (T' ++ v :: rest) from rfl,
      sccPop_cons] at h
    simp only [hnt] at h
    rw [if_neg htv] at h
    have hkS : k ≠ SENTINEL := by
      simp only [List.length_cons] at hk
      omega
    have htd : nt.discovery ≠ SENTINEL := by
      have := hd t (Or.inl (List.mem_cons_self t T'))
      unfold ndisc at this
      rw [hnt] at this
      exact this
    have hlen' : (nodes.set t
        { nt with
          isOnSccStack := false
          sccId := c
          discovery := k }).length = nodes.length := List.length_set ..
    obtain ⟨r1, r2, r3, r4, r5⟩ := ih
      (nodes.set t
        { nt with isOnSccStack := false, sccId := c, discovery := k })
      (k + 1) res h (fun hh => hvT (List.mem_cons_of_mem t hh))
      (by
        intro w hw
        rw [hlen']
        rcases hw with hw | hw
        · exact hb w (Or.inl (List.mem_cons_of_mem t hw))
        · exact hb w (Or.inr hw))
      (by
        simp only [List.length_cons] at hk
        omega)
      (by
        intro w hw
        by_cases hwt : w = t
        · subst hwt
          rw [ndisc_set_self _ _ _ htlt]
          exact hkS
        · rw [ndisc_set_ne _ _ _ _ (fun hh => hwt hh.symm)]
          rcases hw with hw | hw
          · exact hd w (Or.inl (List.mem_cons_of_mem t hw))
          · exact hd w (Or.inr hw))
    refine ⟨r1, r2.trans hlen', ?_, ?_, ?_⟩
    · intro y hy1 hy2
      have hyt : y ≠ t := by
        intro hh
        exact hy1 (hh ▸ List.mem_cons_self t T')
      have hy1' : y ∉ T' := fun hh => hy1 (List.mem_cons_of_mem t hh)
      rw [r3 y hy1' hy2]
      exact get?_set_ne _ _ _ _ (fun hh => hyt hh.symm)
    · rw [r4]
      exact countD_set_same nodes t nt _ hnt (iff_of_true htd hkS)
    · intro w hw
      by_cases hwt : w = t
      · subst hwt
        by_cases hwT' : w ∈ T'
        · obtain ⟨nw', m, hg', hr', hm⟩ := r5 w (Or.inl hwT')
          rw [get?_set_self _ _ _ htlt] at hg'
          have hnw' : { nt with
              isOnSccStack := false
              sccId := c
              discovery := k } = nw' := by injection hg'
          refine ⟨nt, m, hnt, ?_, hm⟩
          rw [← hnw'] at hr'
          exact hr'
        · refine ⟨nt, k, hnt, ?_, by omega⟩
          rw [r3 w hwT' htv]
          exact get?_set_self _ _ _ htlt
      · have hw' : w ∈ T' ∨ w = v := by
          rcases hw with hw | hw
          · rcases List.mem_cons.mp hw with hh | hh
            · exact absurd hh hwt
            · exact Or.inl hh
          · exact Or.inr hw
        obtain ⟨nw', m, hg', hr', hm⟩ := r5 w hw'
        rw [get?_set_ne _ _ _ _ (fun hh => hwt hh.symm)] at hg'
        exact ⟨nw', m, hg', hr', hm⟩

/-! The restart search: a skipped prefix is fully discovered and the
returned index is undiscovered. -/

theorem findNextFrom_spec :
    ∀ (l : List NodeState) (v : Nat),
      (findNextFrom l v = none →
        ∀ i nd, l.get? i = some nd → nd.discovery ≠ SENTINEL) ∧
      (∀ idx, findNextFrom l v = some idx → v ≤ idx ∧ idx - v < l.length ∧
        (∃ nd, l.get? (idx - v) = some nd ∧ nd.discovery = SENTINEL) ∧
        ∀ i nd, i < idx - v → l.get? i = some nd →
          nd.discovery ≠ SENTINEL) := by
  intro l
  induction l with
  | nil =>
    intro v
    refine ⟨?_, ?_⟩
    · intro _ i nd hg
      exact absurd hg (by simp)
    · intro idx h
      exact Option.noConfusion h
  | cons nd0 rest ih =>
    intro v
    by_cases hd : nd0.discovery = SENTINEL
    · rw [show findNextFrom (nd0 :: rest) v =
          (if nd0.discovery = SENTINEL then some v
           else findNextFrom rest (v + 1)) from rfl, if_pos hd]
      refine ⟨?_, ?_⟩
      · intro h
        exact Option.noConfusion h
      · intro idx h
        injection h with h
        subst h
        refine ⟨le_refl _, ?_, ⟨nd0, ?_, hd⟩, ?_⟩
        · simp
        · rw [Nat.sub_self]
          rfl
        · intro i nd hi
          rw [Nat.sub_self] at hi
          omega
    · rw [show findNextFrom (nd0 :: rest) v =
          (if nd0.discovery = SENTINEL then some v
           else findNextFrom rest (v + 1)) from rfl, if_neg hd]
      refine ⟨?_, ?_⟩
      · intro h i nd hg
        cases i with
        | zero =>
          have hnd : nd0 = nd := by
            have hdd : some nd0 = some nd := hg
            injection hdd
          rw [← hnd]
          exact hd
        | succ i' =>
          exact (ih (v + 1)).1 h i' nd hg
      · intro idx h
        obtain ⟨h1, h2, ⟨nd1, hg1, hd1⟩, h4⟩ := (ih (v + 1)).2 idx h
        have harith : idx - v = (idx - (v + 1)) + 1 := by omega
        refine ⟨by omega, ?_, ⟨nd1, ?_, hd1⟩, ?_⟩
        · rw [harith]
          simp only [List.length_cons]
          omega
        · rw [harith]
          exact hg1
        · intro i nd hi hg
          cases i with
          | zero =>
            have hnd : nd0 = nd := by
              have hdd : some nd0 = some nd := hg
              injection hdd
            rw [← hnd]
            exact hd
          | succ i' =>
            rw [harith] at hi
            exact h4 i' nd (by omega) hg

theorem nodup_length_le (stack : List Nat) (n : Nat) (hnd : stack.Nodup)
    (hb : ∀ x ∈ stack, x < n) : stack.length ≤ n := by
  have h1 : stack ⊆ List.range n := fun x hx => List.mem_range.mpr (hb x hx)
  have h2 := (hnd.subperm h1).length_le
  rw [List.length_range] at h2
  exact h2

theorem mem_get?_of_mem {α : Type} (l : List α) (a : α) (h : a ∈ l) :
    ∃ i, l.get? i = some a := by
  obtain ⟨⟨i, hi⟩, hg⟩ := List.mem_iff_get.mp h
  exact ⟨i, by rw [List.get?_eq_get hi, hg]⟩

theorem getLast?_mem {α : Type} (l : List α) (a : α)
    (h : l.getLast? = some a) : a ∈ l :=
  List.mem_of_mem_getLast? (by rw [h]; rfl)

/-- The pointwise observables a scan leaves unchanged. -/
theorem ScanSpec.obs {tempCfg : List (Nat × CfgNode)} {v : Nat}
    {l : List Nat} {nodes : List NodeState} {j : Nat}
    {res : List NodeState × Option (Nat × Nat)}
    (hS : ScanSpec tempCfg v l nodes j res) :
    (∀ y, ndisc res.1 y = ndisc nodes y) ∧
    (∀ y, nscc res.1 y = nscc nodes y) ∧
    (∀ y, nonStack res.1 y ↔ nonStack nodes y) ∧
    (∀ y, ncfg res.1 y = ncfg nodes y) ∧
    (∀ y, y ≠ v → nlow res.1 y = nlow nodes y) := by
  refine ⟨?_, ?_, ?_, ?_, ?_⟩
  · intro y
    by_cases hy : y = v
    · subst hy; exact hS.hdisc
    · unfold ndisc; rw [hS.hfr y hy]
  · intro y
    by_cases hy : y = v
    · subst hy; exact hS.hscc
    · unfold nscc; rw [hS.hfr y hy]
  · intro y
    by_cases hy : y = v
    · subst hy; exact hS.hstk
    · unfold nonStack; rw [hS.hfr y hy]
  · intro y
    by_cases hy : y = v
    · subst hy; exact hS.hcfg
    · unfold ncfg; rw [hS.hfr y hy]
  · intro y hy
    unfold nlow; rw [hS.hfr y hy]

/-- Handled edges stay handled across a scan. -/
theorem ScanSpec.edgeok {tempCfg : List (Nat × CfgNode)} {v : Nat}
    {l : List Nat} {nodes : List NodeState} {j : Nat}
    {res : List NodeState × Option (Nat × Nat)}
    (hS : ScanSpec tempCfg v l nodes j res) :
    ∀ x ω, EdgeOK nodes x ω → EdgeOK res.1 x ω := by
  intro x ω h
  obtain ⟨e1, e2, e3, e4, e5⟩ := hS.obs
  refine EdgeOK_mono (e2 ω) (fun h1 => ⟨(e3 ω).mpr h1, e1 ω⟩) ?_ h
  intro _
  by_cases hx : x = v
  · subst hx; exact hS.hlow
  · rw [e5 x hx]

/-- After a completed (`none`) scan every DFS edge out of `v` is
handled: the first `eI` were handled before the scan, the scan handled
the rest. -/
theorem tarjanStep_alledges (tempCfg : List (Nat × CfgNode)) (key : Nat → Nat)
    (n : Nat) (v eI : Nat) (rest : List (Nat × Nat))
    (nodes1 : List NodeState) (sccStack1 : List Nat)
    (sccId0 discovered1 nextV0 : Nat)
    (M : MidInv tempCfg key n v eI rest nodes1 sccStack1 sccId0 discovered1
      nextV0)
    (cfgNode : CfgNode) (hfk : nfind? tempCfg (key v) = some cfgNode)
    (nodes2 : List NodeState)
    (hS : ScanSpec tempCfg v (cfgNode.destinations.drop eI) nodes1 eI
      (nodes2, none)) :
    ∀ ω, tSuccIdx tempCfg key v ω → EdgeOK nodes2 v ω := by
  intro ω hsucc
  obtain ⟨node, h1, d, hd, dn, h3, h4⟩ := hsucc
  have hnode : cfgNode = node := by
    rw [hfk] at h1
    injection h1
  subst hnode
  obtain ⟨i, hgi⟩ := mem_get?_of_mem _ _ hd
  subst h4
  by_cases hiI : i < eI
  · exact hS.edgeok v dn.sccId
      (M.hFrame i (by omega) cfgNode d dn hfk hgi h3)
  · refine hS.hnone rfl (i - eI) d dn ?_ h3
    rw [List.get?_drop]
    have harith : eI + (i - eI) = i := by omega
    rw [harith]
    exact hgi

/-- One loop iteration, stop case: the scan stopped at an undiscovered
successor `w`, which is pushed as a fresh frame over the suspended frame
`(v, jN)`; the loop invariant holds again. -/
theorem tarjanStep_push (tempCfg : List (Nat × CfgNode)) (key : Nat → Nat)
    (n : Nat)
    (v eI : Nat) (rest : List (Nat × Nat)) (nodes1 : List NodeState)
    (sccStack1 : List Nat) (sccId0 discovered1 nextV0 : Nat)
    (M : MidInv tempCfg key n v eI rest nodes1 sccStack1 sccId0 discovered1
      nextV0)
    (cfgNode : CfgNode) (hfk : nfind? tempCfg (key v) = some cfgNode)
    (nodes2 : List NodeState) (jN w : Nat)
    (hS : ScanSpec tempCfg v (cfgNode.destinations.drop eI) nodes1 eI
      (nodes2, some (jN, w))) :
    TarjanInv tempCfg key n
      { nodes := nodes2
        sccStack := sccStack1
        recursionStack := (w, 0) :: (v, jN) :: rest
        sccId := sccId0
        discovered := discovered1
        nextV := nextV0 } := by
  obtain ⟨e1, e2, e3, e4, e5⟩ := hS.obs
  obtain ⟨hjlt, hwlt, hwund, ⟨d0, dn0, hg0, hf0, hs0⟩, hpre⟩ :=
    hS.hstop jN w rfl
  have hl2 : nodes2.length = n := hS.hlen.trans M.hlen
  have hEO := hS.edgeok
  have hvmem : v ∈ sccStack1 := M.hdecomp.subset v (List.mem_cons_self _ _)
  have hpath : stampedPath ((w, 0) :: (v, jN) :: rest) =
      v :: stampedPath rest := by
    rw [stampedPath_cons_zero, stampedPath_cons_pos v jN rest (by omega)]
  have hFrameNew : FrameOK tempCfg key nodes2 v jN 1 := by
    intro i hi node d dn h1 h2 h3
    have hnode : cfgNode = node := by
      rw [hfk] at h1
      injection h1
    subst hnode
    by_cases hiI : i < eI
    · exact hEO v dn.sccId (M.hFrame i (by omega) cfgNode d dn hfk h2 h3)
    · refine hpre (i - eI) d dn (by omega) ?_ h3
      rw [List.get?_drop]
      have harith : eI + (i - eI) = i := by omega
      rw [harith]
      exact h2
  have hLink : ∀ node d dn, nfind? tempCfg (key v) = some node →
      node.destinations.get? (jN - 1) = some d →
      nfind? tempCfg d = some dn → dn.sccId = w := by
    intro node d dn h1 h2 h3
    have hnode : cfgNode = node := by
      rw [hfk] at h1
      injection h1
    subst hnode
    rw [List.get?_drop] at hg0
    have harith : eI + (jN - 1 - eI) = jN - 1 := by omega
    rw [harith] at hg0
    have hdd : d0 = d := by
      rw [hg0] at h2
      injection h2
    subst hdd
    have hdnn : dn0 = dn := by
      rw [hf0] at h3
      injection h3
    subst hdnn
    exact hs0
  refine
    { hlen := hl2
      hkey := fun x hx => (e4 x).trans (M.hkey x hx)
      hframes := ?_
      hdecomp := ?_
      hnodup := M.hnodup
      hmem := fun y hy => ⟨(M.hmem y hy).1, (e3 y).mpr (M.hmem y hy).2⟩
      honmem := fun x hx hox => M.honmem x hx ((e3 x).mp hox)
      hsorted := M.hsorted.imp ?_
      hA := ?_
      hOn := ?_
      hD := ?_
      hcount := M.hcount.trans hS.hcnt.symm
      hdiscLt := fun x hx hox => by
        rw [e1 x]
        exact M.hdiscLt x hx ((e3 x).mp hox)
      hlowle := ?_
      hbot := ?_
      hE := ?_
      hG := ?_
      hN := ?_
      hsccb := M.hsccb }
  · exact ⟨M.hlen ▸ hwlt, hwund, M.hv, by omega, hFrameNew, hLink,
      FramesTail_mono hEO M.hTail⟩
  · show StackDecomp nodes2 (stampedPath ((w, 0) :: (v, jN) :: rest))
      sccStack1
    rw [hpath]
    exact StackDecomp.lower v M.hdecomp M.hnodup (List.mem_cons_self _ _)
      (fun y _ hy => e5 y hy) hS.hlow
  · intro a b h
    rw [e1 a, e1 b]
    exact h
  · intro x hx hsc
    rw [e2 x] at hsc
    obtain ⟨a1, a2, a3⟩ := M.hA x hx hsc
    refine ⟨fun hh => a1 ((e3 x).mp hh), ?_, ?_⟩
    · rw [e1 x]
      exact a2
    · rw [e2 x]
      exact a3
  · intro x hx hox
    have hh := M.hOn x hx ((e3 x).mp hox)
    refine ⟨?_, ?_⟩
    · rw [e1 x]
      exact hh.1
    · rw [e2 x]
      exact hh.2
  · intro x hx hdx
    rw [e1 x] at hdx
    rcases M.hD x hx hdx with hh | hh
    · exact Or.inl ((e3 x).mpr hh)
    · refine Or.inr ?_
      rw [e2 x]
      exact hh
  · intro x hx hox
    by_cases hxv : x = v
    · subst hxv
      rw [e1 x]
      exact le_trans hS.hlow (M.hlowle x M.hv M.hvon)
    · rw [e1 x, e5 x hxv]
      exact M.hlowle x hx ((e3 x).mp hox)
  · intro b hb x hx
    have hb' : (v :: stampedPath rest).getLast? = some b := by
      rw [← hpath]
      exact hb
    rw [e1 b]
    by_cases hxv : x = v
    · subst hxv
      refine hS.hlb (ndisc nodes1 b) (M.hbot b hb' x hvmem) ?_
      intro y hy hoy
      rw [M.hlen] at hy
      exact le_trans (M.hbot b hb' y (M.honmem y hy hoy))
        (M.hlowle y hy hoy)
    · rw [e5 x hxv]
      exact M.hbot b hb' x hx
  · intro u hu hsc ω hsucc
    rw [e2 u] at hsc
    obtain ⟨q1, q2⟩ := M.hE u hu hsc ω hsucc
    refine ⟨?_, ?_⟩
    · rw [e2 ω]
      exact q1
    · rw [e2 ω, e2 u]
      exact q2
  · intro x hx hox hnf ω hsucc
    have hxv : x ≠ v := by
      intro hh
      exact hnf jN
        (by rw [hh]; exact List.mem_cons_of_mem _ (List.mem_cons_self _ _))
    have hnr : ∀ j, (x, j) ∉ rest := by
      intro j hj
      exact hnf j (List.mem_cons_of_mem _ (List.mem_cons_of_mem _ hj))
    exact hEO x ω (M.hG x hx ((e3 x).mp hox) hxv hnr ω hsucc)
  · intro x hx
    rcases M.hN x hx with hh | hh | hh
    · refine Or.inl ?_
      rw [e1 x]
      exact hh
    · exact Or.inr ⟨jN,
        by rw [hh]; exact List.mem_cons_of_mem _ (List.mem_cons_self _ _)⟩
    · obtain ⟨j, hj⟩ := hh
      exact Or.inr ⟨j, List.mem_cons_of_mem _ (List.mem_cons_of_mem _ hj)⟩

/-- One loop iteration, root pop: `v`'s scan completed with
`discovery = lowlink`, so the SCC stack is popped down to `v`. -/
theorem tarjanStep_popfacts (tempCfg : List (Nat × CfgNode)) (key : Nat → Nat)
    (n : Nat) (hn : n < SENTINEL)
    (htemp : ∀ k node, nfind? tempCfg k = some node → node.sccId < n)
    (v eI : Nat) (rest : List (Nat × Nat)) (nodes1 : List NodeState)
    (sccStack1 : List Nat) (sccId0 discovered1 nextV0 : Nat)
    (M : MidInv tempCfg key n v eI rest nodes1 sccStack1 sccId0 discovered1
      nextV0)
    (cfgNode : CfgNode) (hfk : nfind? tempCfg (key v) = some cfgNode)
    (nodes2 : List NodeState)
    (hS : ScanSpec tempCfg v (cfgNode.destinations.drop eI) nodes1 eI
      (nodes2, none))
    (hpopc : ndisc nodes2 v = nlow nodes2 v)
    (popped : List NodeState × List Nat)
    (hpopeq : sccPop sccId0 v nodes2 sccStack1 0 = some popped) :
    ∃ T S, PopFacts tempCfg key n v rest nodes2 sccStack1 sccId0 popped
      T S := by
  obtain ⟨e1, e2, e3, e4, e5⟩ := hS.obs
  have hl2 : nodes2.length = n := hS.hlen.trans M.hlen
  have hEO21 : ∀ x ω, EdgeOK nodes1 x ω → EdgeOK nodes2 x ω := hS.edgeok
  have hAllE := tarjanStep_alledges tempCfg key n v eI rest nodes1 sccStack1
    sccId0 discovered1 nextV0 M cfgNode hfk nodes2 hS
  have hdec2 : StackDecomp nodes2 (v :: stampedPath rest) sccStack1 :=
    StackDecomp.lower v M.hdecomp M.hnodup (List.mem_cons_self _ _)
      (fun y _ hy => e5 y hy) hS.hlow
  obtain ⟨T, S, hsplit, hdecS, hTcond⟩ := hdec2.cons_inv
  have hnd : (T ++ v :: S).Nodup := by
    rw [← hsplit]
    exact M.hnodup
  obtain ⟨hndT, hndvS, hdisj⟩ := List.nodup_append.mp hnd
  obtain ⟨hvS, hndS⟩ := List.nodup_cons.mp hndvS
  have hvT : v ∉ T := fun hh => hdisj hh (List.mem_cons_self _ _)
  have hdisjTS : ∀ x ∈ T, x ∉ S :=
    fun x hx hxS => hdisj hx (List.mem_cons_of_mem _ hxS)
  have hmem2 : ∀ y ∈ sccStack1, y < n ∧ nonStack nodes2 y :=
    fun y hy => ⟨(M.hmem y hy).1, (e3 y).mpr (M.hmem y hy).2⟩
  have hstackbound : sccStack1.length ≤ n :=
    nodup_length_le sccStack1 n M.hnodup (fun x hx => (hmem2 x hx).1)
  have hlenTS : T.length + 1 + S.length = sccStack1.length := by
    rw [hsplit]
    simp only [List.length_append, List.length_cons]
    omega
  have hbmem : ∀ x, x ∈ T ∨ x = v → x ∈ sccStack1 := by
    intro x hx
    rw [hsplit]
    rcases hx with hx | hx
    · exact List.mem_append_left _ hx
    · rw [hx]
      exact List.mem_append_right _ (List.mem_cons_self _ _)
  rw [hsplit] at hpopeq
  obtain ⟨r1, r2, r3, r4, r5⟩ := sccPop_spec sccId0 v S T nodes2 0 popped
    hpopeq hvT
    (by
      intro w hw
      rw [hl2]
      exact (hmem2 w (hbmem w hw)).1)
    (by
      have hTle : T.length ≤ sccStack1.length := by omega
      omega)
    (by
      intro w hw
      have hon2 := (hmem2 w (hbmem w hw)).2
      rw [e1 w]
      exact (M.hOn w (hmem2 w (hbmem w hw)).1 ((e3 w).mp hon2)).1)
  have hbatch : ∀ x, x ∈ T ∨ x = v →
      ¬nonStack popped.1 x ∧ nscc popped.1 x = sccId0 ∧
      ndisc popped.1 x ≠ SENTINEL ∧ ncfg popped.1 x = ncfg nodes2 x := by
    intro x hx
    obtain ⟨nw, m, hgw, hrw, hm⟩ := r5 x hx
    refine ⟨?_, ?_, ?_, ?_⟩
    · unfold nonStack
      rw [hrw]
      exact Bool.false_ne_true
    · unfold nscc
      rw [hrw]
      rfl
    · unfold ndisc
      rw [hrw]
      show ¬m = SENTINEL
      omega
    · unfold ncfg
      rw [hrw, hgw]
      rfl
  have hlowE : ∀ y, nlow popped.1 y = nlow nodes2 y := by
    intro y
    by_cases hy : y ∈ T ∨ y = v
    · obtain ⟨nw, m, hgw, hrw, _⟩ := r5 y hy
      unfold nlow
      rw [hrw, hgw]
      rfl
    · obtain ⟨hy1, hy2⟩ := not_or.mp hy
      unfold nlow
      rw [r3 y hy1 hy2]
  have hnb : ∀ y, y ∉ T → y ≠ v →
      ndisc popped.1 y = ndisc nodes2 y ∧ nscc popped.1 y = nscc nodes2 y ∧
      (nonStack popped.1 y ↔ nonStack nodes2 y) ∧
      ncfg popped.1 y = ncfg nodes2 y := by
    intro y hy1 hy2
    refine ⟨?_, ?_, ?_, ?_⟩
    · unfold ndisc
      rw [r3 y hy1 hy2]
    · unfold nscc
      rw [r3 y hy1 hy2]
    · unfold nonStack
      rw [r3 y hy1 hy2]
    · unfold ncfg
      rw [r3 y hy1 hy2]
  have hon3char : ∀ x, x < n → nonStack popped.1 x → x ∈ S := by
    intro x hx hox
    by_cases hb : x ∈ T ∨ x = v
    · exact absurd hox (hbatch x hb).1
    · obtain ⟨hb1, hb2⟩ := not_or.mp hb
      have hon2 : nonStack nodes2 x := ((hnb x hb1 hb2).2.2.1).mp hox
      have hx1 := M.honmem x hx ((e3 x).mp hon2)
      rw [hsplit] at hx1
      rcases List.mem_append.mp hx1 with hh | hh
      · exact absurd hh hb1
      · rcases List.mem_cons.mp hh with hh | hh
        · exact absurd hh hb2
        · exact hh
  have hsccid0ne : sccId0 ≠ SENTINEL := by
    have h1 := M.hsccb
    have h2 := M.hcount
    have h3 := countD_le nodes1
    rw [M.hlen] at h3
    omega
  have hEO3 : ∀ x ω, EdgeOK nodes2 x ω → EdgeOK popped.1 x ω := by
    intro x ω h
    by_cases hb : ω ∈ T ∨ ω = v
    · refine EdgeOK_assigned ?_
      rw [(hbatch ω hb).2.1]
      exact hsccid0ne
    · obtain ⟨hb1, hb2⟩ := not_or.mp hb
      obtain ⟨q1, q2, q3, _⟩ := hnb ω hb1 hb2
      exact EdgeOK_mono q2 (fun hh => ⟨q3.mpr hh, q1⟩)
        (fun _ => le_of_eq (hlowE x)) h
  have hdiscvx : ∀ x ∈ S, ndisc nodes2 x < ndisc nodes2 v := by
    have hp := M.hsorted
    rw [hsplit] at hp
    obtain ⟨_, hp2, _⟩ := List.pairwise_append.mp hp
    rw [List.pairwise_cons] at hp2
    intro x hx
    have hh := hp2.1 x hx
    rw [e1 x, e1 v]
    exact hh
  have hE3 : ∀ x, x ∈ T ∨ x = v → ∀ ω, tSuccIdx tempCfg key x ω →
      nscc popped.1 ω ≠ SENTINEL ∧ nscc popped.1 ω ≤ sccId0 := by
    intro x hx ω hsucc
    have hωn : ω < n := by
      obtain ⟨node, _, d, _, dn, hdn, hdnscc⟩ := hsucc
      rw [← hdnscc]
      exact htemp d dn hdn
    have hedge : EdgeOK nodes2 x ω := by
      rcases hx with hxT | hxv
      · have hxS1 : x ∈ sccStack1 := hbmem x (Or.inl hxT)
        have hxn : x < n := (hmem2 x hxS1).1
        have hxon1 : nonStack nodes1 x := (M.hmem x hxS1).2
        have hxnv : x ≠ v := fun hh => hvT (hh ▸ hxT)
        have hxnoframe : ∀ j, (x, j) ∉ rest := by
          intro j hj
          have hj1 : 1 ≤ j := (M.hTail (x, j) hj).2.1
          have hxpath : x ∈ stampedPath rest := by
            unfold stampedPath
            refine List.mem_map.mpr ⟨(x, j), ?_, rfl⟩
            refine List.mem_filter.mpr ⟨hj, ?_⟩
            simp only [decide_eq_true_eq]
            omega
          exact hdisjTS x hxT (hdecS.subset x hxpath)
        exact hEO21 x ω (M.hG x hxn hxon1 hxnv hxnoframe ω hsucc)
      · rw [hxv] at hsucc ⊢
        exact hAllE ω hsucc
    rcases hedge with hass | ⟨hon, hle⟩
    · have hωT : ω ∉ T := by
        intro hh
        have hωS1 : ω ∈ sccStack1 := hbmem ω (Or.inl hh)
        have hsen := (M.hOn ω (hmem2 ω hωS1).1 (M.hmem ω hωS1).2).2
        rw [e2 ω] at hass
        exact hass hsen
      have hωv : ω ≠ v := by
        intro hh
        have hsen := (M.hOn v M.hv M.hvon).2
        rw [hh, e2 v] at hass
        exact hass hsen
      obtain ⟨_, hq2, _, _⟩ := hnb ω hωT hωv
      constructor
      · rw [hq2]
        exact hass
      · rw [hq2, e2 ω]
        rw [e2 ω] at hass
        exact le_of_lt (M.hA ω hωn hass).2.2
    · have hωstack : ω ∈ sccStack1 := M.honmem ω hωn ((e3 ω).mp hon)
      rw [hsplit] at hωstack
      rcases List.mem_append.mp hωstack with hh | hh
      · have hb := (hbatch ω (Or.inl hh)).2.1
        exact ⟨by rw [hb]; exact hsccid0ne, le_of_eq hb⟩
      · rcases List.mem_cons.mp hh with hh | hh
        · have hb := (hbatch ω (Or.inr hh)).2.1
          exact ⟨by rw [hb]; exact hsccid0ne, le_of_eq hb⟩
        · exfalso
          have hd1 : ndisc nodes2 ω < ndisc nodes2 v := hdiscvx ω hh
          have hx2 : nlow nodes2 v ≤ nlow nodes2 x := by
            rcases hx with hxT | hxv
            · exact hTcond x hxT
            · rw [hxv]
          omega
  have hSmem : ∀ x ∈ S, x < n ∧ nonStack nodes2 x := by
    intro x hx
    refine hmem2 x ?_
    rw [hsplit]
    exact List.mem_append_right _ (List.mem_cons_of_mem _ hx)
  exact ⟨T, S,
    { hsplit := hsplit
      hrest2 := r1
      hlen3 := r2.trans hl2
      hfr3 := r3
      hcnt3 := r4
      hbatch := hbatch
      hlowE := hlowE
      hnb := hnb
      hdecS := hdecS
      hTcond := hTcond
      hndS := hndS
      hvT := hvT
      hvS := hvS
      hdisjTS := hdisjTS
      hon3char := hon3char
      hsccid0ne := hsccid0ne
      hEO3 := hEO3
      hE3 := hE3
      hlenTS := hlenTS
      hSmem := hSmem }⟩

/-- One loop iteration, root pop with a suspended parent frame below:
after the pop, the parent `w2` absorbs `v`'s lowlink and the loop
invariant holds for the shortened recursion stack. -/
theorem tarjanStep_pop_parent (tempCfg : List (Nat × CfgNode))
    (key : Nat → Nat) (n : Nat) (hn : n < SENTINEL)
    (htemp : ∀ k node, nfind? tempCfg k = some node → node.sccId < n)
    (v eI w2 j2 : Nat) (rest'' : List (Nat × Nat))
    (nodes1 : List NodeState) (sccStack1 : List Nat)
    (sccId0 discovered1 nextV0 : Nat)
    (M : MidInv tempCfg key n v eI ((w2, j2) :: rest'') nodes1 sccStack1
      sccId0 discovered1 nextV0)
    (cfgNode : CfgNode) (hfk : nfind? tempCfg (key v) = some cfgNode)
    (nodes2 : List NodeState)
    (hS : ScanSpec tempCfg v (cfgNode.destinations.drop eI) nodes1 eI
      (nodes2, none))
    (popped : List NodeState × List Nat) (T S : List Nat)
    (P : PopFacts tempCfg key n v ((w2, j2) :: rest'') nodes2 sccStack1
      sccId0 popped T S)
    (nw2 nv3 : NodeState)
    (hnw2 : popped.1.get? w2 = some nw2)
    (hnv3 : popped.1.get? v = some nv3)
    (nodes4 : List NodeState)
    (hn4 : nodes4 =
      popped.1.set w2 { nw2 with lowlink := min nw2.lowlink nv3.lowlink }) :
    TarjanInv tempCfg key n
      { nodes := nodes4
        sccStack := popped.2
        recursionStack := (w2, j2) :: rest''
        sccId := sccId0 + 1
        discovered := discovered1
        nextV := nextV0 } := by
  obtain ⟨e1, e2, e3, e4, e5⟩ := hS.obs
  have hl2 : nodes2.length = n := hS.hlen.trans M.hlen
  have hl3 : popped.1.length = n := P.hlen3
  obtain ⟨hw2n, hj2, hFw2⟩ := M.hTail (w2, j2) (List.mem_cons_self _ _)
  have hpathrest : stampedPath ((w2, j2) :: rest'') =
      w2 :: stampedPath rest'' :=
    stampedPath_cons_pos w2 j2 rest'' (by omega)
  have hw2S : w2 ∈ S := by
    refine P.hdecS.subset w2 ?_
    rw [hpathrest]
    exact List.mem_cons_self _ _
  have hSnotbatch : ∀ y ∈ S, y ∉ T ∧ y ≠ v :=
    fun y hy => ⟨fun hh => P.hdisjTS y hh hy, fun hh => P.hvS (hh ▸ hy)⟩
  have hw2T : w2 ∉ T := (hSnotbatch w2 hw2S).1
  have hw2v : w2 ≠ v := (hSnotbatch w2 hw2S).2
  have hw2lt : w2 < popped.1.length := by
    rw [hl3]
    exact hw2n
  have hbmem : ∀ x, x ∈ T ∨ x = v → x ∈ sccStack1 := by
    intro x hx
    rw [P.hsplit]
    rcases hx with hx | hx
    · exact List.mem_append_left _ hx
    · rw [hx]
      exact List.mem_append_right _ (List.mem_cons_self _ _)
  have hSmem1 : ∀ x ∈ S, x ∈ sccStack1 := by
    intro x hx
    rw [P.hsplit]
    exact List.mem_append_right _ (List.mem_cons_of_mem _ hx)
  have f1 : ∀ y, ndisc nodes4 y = ndisc popped.1 y := by
    intro y
    rw [hn4]
    by_cases hy : y = w2
    · subst hy
      rw [ndisc_set_self _ _ _ hw2lt]
      unfold ndisc
      rw [hnw2]
      rfl
    · exact ndisc_set_ne _ _ _ _ (fun hh => hy hh.symm)
  have f2 : ∀ y, nscc nodes4 y = nscc popped.1 y := by
    intro y
    rw [hn4]
    by_cases hy : y = w2
    · subst hy
      rw [nscc_set_self _ _ _ hw2lt]
      unfold nscc
      rw [hnw2]
      rfl
    · exact nscc_set_ne _ _ _ _ (fun hh => hy hh.symm)
  have f3 : ∀ y, nonStack nodes4 y ↔ nonStack popped.1 y := by
    intro y
    rw [hn4]
    by_cases hy : y = w2
    · subst hy
      rw [nonStack_set_self _ _ _ hw2lt]
      unfold nonStack
      rw [hnw2]
      exact Iff.rfl
    · exact nonStack_set_ne _ _ _ _ (fun hh => hy hh.symm)
  have f4 : ∀ y, ncfg nodes4 y = ncfg popped.1 y := by
    intro y
    rw [hn4]
    by_cases hy : y = w2
    · subst hy
      rw [ncfg_set_self _ _ _ hw2lt]
      unfold ncfg
      rw [hnw2]
      rfl
    · exact ncfg_set_ne _ _ _ _ (fun hh => hy hh.symm)
  have f5 : ∀ y, y ≠ w2 → nlow nodes4 y = nlow popped.1 y := by
    intro y hy
    rw [hn4]
    exact nlow_set_ne _ _ _ _ (fun hh => hy hh.symm)
  have f6 : nlow nodes4 w2 = min nw2.lowlink nv3.lowlink := by
    rw [hn4]
    exact nlow_set_self _ _ _ hw2lt
  have hnw2low : nlow popped.1 w2 = nw2.lowlink := by
    unfold nlow
    rw [hnw2]
    rfl
  have hnv3low : nlow popped.1 v = nv3.lowlink := by
    unfold nlow
    rw [hnv3]
    rfl
  have hv3eq : nv3.lowlink = nlow nodes2 v := by
    rw [← hnv3low]
    exact P.hlowE v
  have hw2low2 : nw2.lowlink = nlow nodes2 w2 := by
    rw [← hnw2low]
    exact P.hlowE w2
  have hEO4 : ∀ x ω, EdgeOK popped.1 x ω → EdgeOK nodes4 x ω := by
    intro x ω h
    refine EdgeOK_mono (f2 ω) (fun h1 => ⟨(f3 ω).mpr h1, f1 ω⟩) ?_ h
    intro _
    by_cases hx : x = w2
    · subst hx
      rw [f6, hnw2low]
      exact min_le_left _ _
    · rw [f5 x hx]
  have hEO1to4 : ∀ x ω, EdgeOK nodes1 x ω → EdgeOK nodes4 x ω :=
    fun x ω h => hEO4 x ω (P.hEO3 x ω (hS.edgeok x ω h))
  have hcfg32 : ∀ y, ncfg popped.1 y = ncfg nodes2 y := by
    intro y
    by_cases hb : y ∈ T ∨ y = v
    · exact (P.hbatch y hb).2.2.2
    · obtain ⟨h1, h2⟩ := not_or.mp hb
      exact (P.hnb y h1 h2).2.2.2
  have hdiscS : ∀ y, y ∉ T → y ≠ v → ndisc nodes4 y = ndisc nodes1 y := by
    intro y h1 h2
    rw [f1 y, (P.hnb y h1 h2).1, e1 y]
  have hdiscPres : ∀ y, ndisc nodes1 y ≠ SENTINEL →
      ndisc nodes4 y ≠ SENTINEL := by
    intro y hy
    by_cases hb : y ∈ T ∨ y = v
    · rw [f1 y]
      exact (P.hbatch y hb).2.2.1
    · obtain ⟨h1, h2⟩ := not_or.mp hb
      rw [hdiscS y h1 h2]
      exact hy
  have hbatchscc1 : ∀ y, y ∈ T ∨ y = v → nscc nodes1 y = SENTINEL := by
    intro y hy
    have hy1 := hbmem y hy
    exact (M.hOn y (M.hmem y hy1).1 (M.hmem y hy1).2).2
  have hsccNb : ∀ y, y ∉ T → y ≠ v → nscc nodes4 y = nscc nodes1 y := by
    intro y h1 h2
    rw [f2 y, (P.hnb y h1 h2).2.1, e2 y]
  have honNb : ∀ y, y ∉ T → y ≠ v →
      (nonStack nodes4 y ↔ nonStack nodes1 y) := by
    intro y h1 h2
    rw [f3 y, (P.hnb y h1 h2).2.2.1, e3 y]
  have hlowNb : ∀ y, y ≠ w2 → y ≠ v → nlow nodes4 y = nlow nodes1 y := by
    intro y h1 h2
    rw [f5 y h1, P.hlowE y, e5 y h2]
  have hvpmem : v ∈ sccStack1 := M.hdecomp.subset v (List.mem_cons_self _ _)
  have hbold : ∀ b, (w2 :: stampedPath rest'').getLast? = some b →
      (v :: stampedPath ((w2, j2) :: rest'')).getLast? = some b := by
    intro b hb
    rw [hpathrest, List.getLast?_cons_cons]
    exact hb
  have hLv : ∀ b, (v :: stampedPath ((w2, j2) :: rest'')).getLast? = some b →
      ndisc nodes1 b ≤ nlow nodes2 v := by
    intro b hb
    refine hS.hlb (ndisc nodes1 b) (M.hbot b hb v hvpmem) ?_
    intro y hy hoy
    rw [M.hlen] at hy
    exact le_trans (M.hbot b hb y (M.honmem y hy hoy)) (M.hlowle y hy hoy)
  refine
    { hlen := ?_
      hkey := fun x hx =>
        (f4 x).trans ((hcfg32 x).trans ((e4 x).trans (M.hkey x hx)))
      hframes := ?_
      hdecomp := ?_
      hnodup := ?_
      hmem := ?_
      honmem := ?_
      hsorted := ?_
      hA := ?_
      hOn := ?_
      hD := ?_
      hcount := ?_
      hdiscLt := ?_
      hlowle := ?_
      hbot := ?_
      hE := ?_
      hG := ?_
      hN := ?_
      hsccb := ?_ }
  · show nodes4.length = n
    rw [hn4, List.length_set]
    exact hl3
  · show FramesOK tempCfg key n nodes4 ((w2, j2) :: rest'')
    cases j2 with
    | zero => exact absurd hj2 (by omega)
    | succ j2' =>
      exact ⟨hw2n, FrameOK_mono (fun ω h => hEO1to4 w2 ω h) hFw2,
        FramesTail_mono hEO1to4
          (fun f hf => M.hTail f (List.mem_cons_of_mem _ hf))⟩
  · show StackDecomp nodes4 (stampedPath ((w2, j2) :: rest'')) popped.2
    rw [P.hrest2, hpathrest]
    have hdec3 : StackDecomp popped.1 (w2 :: stampedPath rest'') S := by
      have hh := P.hdecS.congr (fun x _ => P.hlowE x)
      rw [hpathrest] at hh
      exact hh
    refine StackDecomp.lower w2 hdec3 P.hndS (List.mem_cons_self _ _)
      (fun y _ hy => f5 y hy) ?_
    rw [f6, hnw2low]
    exact min_le_left _ _
  · show popped.2.Nodup
    rw [P.hrest2]
    exact P.hndS
  · intro y hy
    rw [P.hrest2] at hy
    refine ⟨(P.hSmem y hy).1, ?_⟩
    obtain ⟨h1, h2⟩ := hSnotbatch y hy
    exact (f3 y).mpr ((P.hnb y h1 h2).2.2.1.mpr (P.hSmem y hy).2)
  · intro x hx hox
    rw [P.hrest2]
    exact P.hon3char x hx ((f3 x).mp hox)
  · show popped.2.Pairwise
      (fun a b => ndisc nodes4 b < ndisc nodes4 a)
    rw [P.hrest2]
    have hsub : List.Sublist S sccStack1 := by
      rw [P.hsplit]
      exact ((List.sublist_cons_self v S).trans
        (List.sublist_append_right T (v :: S)))
    have hSdisc : ∀ y ∈ S, ndisc nodes4 y = ndisc nodes1 y := by
      intro y hy
      obtain ⟨h1, h2⟩ := hSnotbatch y hy
      exact hdiscS y h1 h2
    refine (M.hsorted.sublist hsub).imp_of_mem ?_
    intro a b ha hb h
    rw [hSdisc a ha, hSdisc b hb]
    exact h
  · intro x hx hsc
    by_cases hb : x ∈ T ∨ x = v
    · refine ⟨fun hh => (P.hbatch x hb).1 ((f3 x).mp hh), ?_, ?_⟩
      · rw [f1 x]
        exact (P.hbatch x hb).2.2.1
      · show nscc nodes4 x < sccId0 + 1
        rw [f2 x, (P.hbatch x hb).2.1]
        omega
    · obtain ⟨h1, h2⟩ := not_or.mp hb
      rw [hsccNb x h1 h2] at hsc
      obtain ⟨a1, a2, a3⟩ := M.hA x hx hsc
      refine ⟨fun hh => a1 ((honNb x h1 h2).mp hh), ?_, ?_⟩
      · rw [hdiscS x h1 h2]
        exact a2
      · show nscc nodes4 x < sccId0 + 1
        rw [hsccNb x h1 h2]
        omega
  · intro x hx hox
    have hxS := P.hon3char x hx ((f3 x).mp hox)
    obtain ⟨h1, h2⟩ := hSnotbatch x hxS
    have hon1 : nonStack nodes1 x := (honNb x h1 h2).mp hox
    refine ⟨?_, ?_⟩
    · rw [hdiscS x h1 h2]
      exact (M.hOn x hx hon1).1
    · rw [hsccNb x h1 h2]
      exact (M.hOn x hx hon1).2
  · intro x hx hdx
    by_cases hb : x ∈ T ∨ x = v
    · refine Or.inr ?_
      rw [f2 x, (P.hbatch x hb).2.1]
      exact P.hsccid0ne
    · obtain ⟨h1, h2⟩ := not_or.mp hb
      rw [hdiscS x h1 h2] at hdx
      rcases M.hD x hx hdx with hh | hh
      · exact Or.inl ((honNb x h1 h2).mpr hh)
      · refine Or.inr ?_
        rw [hsccNb x h1 h2]
        exact hh
  · show discovered1 = countD nodes4
    rw [hn4, countD_set_same popped.1 w2 nw2
      { nw2 with lowlink := min nw2.lowlink nv3.lowlink } hnw2 Iff.rfl,
      P.hcnt3, hS.hcnt]
    exact M.hcount
  · intro x hx hox
    have hxS := P.hon3char x hx ((f3 x).mp hox)
    obtain ⟨h1, h2⟩ := hSnotbatch x hxS
    rw [hdiscS x h1 h2]
    exact M.hdiscLt x hx ((honNb x h1 h2).mp hox)
  · intro x hx hox
    have hxS := P.hon3char x hx ((f3 x).mp hox)
    obtain ⟨h1, h2⟩ := hSnotbatch x hxS
    have hon1 : nonStack nodes1 x := (honNb x h1 h2).mp hox
    by_cases hxw : x = w2
    · subst hxw
      rw [f6, hdiscS x h1 h2]
      refine le_trans (min_le_left _ _) ?_
      rw [hw2low2, e5 x h2]
      exact M.hlowle x hx hon1
    · rw [hlowNb x hxw h2, hdiscS x h1 h2]
      exact M.hlowle x hx hon1
  · intro b hb x hx
    rw [hpathrest] at hb
    rw [P.hrest2] at hx
    have hbS : b ∈ S := by
      refine P.hdecS.subset b ?_
      rw [hpathrest]
      exact getLast?_mem _ _ hb
    obtain ⟨hb1, hb2⟩ := hSnotbatch b hbS
    rw [hdiscS b hb1 hb2]
    have hmb := M.hbot b (hbold b hb)
    obtain ⟨hx1, hx2⟩ := hSnotbatch x hx
    by_cases hxw : x = w2
    · subst hxw
      rw [f6]
      refine le_min ?_ ?_
      · rw [hw2low2, e5 x hx2]
        exact hmb x (hSmem1 x hx)
      · rw [hv3eq]
        exact hLv b (hbold b hb)
    · rw [hlowNb x hxw hx2]
      exact hmb x (hSmem1 x hx)
  · intro u hu hsc ω hsucc
    by_cases hb : u ∈ T ∨ u = v
    · have hq := P.hE3 u hb ω hsucc
      refine ⟨?_, ?_⟩
      · rw [f2 ω]
        exact hq.1
      · rw [f2 ω, f2 u, (P.hbatch u hb).2.1]
        rw [f2 u, (P.hbatch u hb).2.1] at hsc
        exact hq.2
    · obtain ⟨h1, h2⟩ := not_or.mp hb
      rw [hsccNb u h1 h2] at hsc
      obtain ⟨q1, q2⟩ := M.hE u hu hsc ω hsucc
      have hωn : ω < n := by
        obtain ⟨node, _, d, _, dn, hdn, hdnscc⟩ := hsucc
        rw [← hdnscc]
        exact htemp d dn hdn
      have hωnb : ω ∉ T ∧ ω ≠ v := by
        constructor
        · intro hh
          exact q1 (hbatchscc1 ω (Or.inl hh))
        · intro hh
          exact q1 (hbatchscc1 ω (Or.inr hh))
      refine ⟨?_, ?_⟩
      · rw [hsccNb ω hωnb.1 hωnb.2]
        exact q1
      · rw [hsccNb ω hωnb.1 hωnb.2, hsccNb u h1 h2]
        exact q2
  · intro x hx hox hnf ω hsucc
    have hxS := P.hon3char x hx ((f3 x).mp hox)
    obtain ⟨h1, h2⟩ := hSnotbatch x hxS
    have hon1 : nonStack nodes1 x := (honNb x h1 h2).mp hox
    exact hEO1to4 x ω (M.hG x hx hon1 h2 hnf ω hsucc)
  · intro x hx
    rcases M.hN x hx with hh | hh | hh
    · exact Or.inl (hdiscPres x hh)
    · refine Or.inl ?_
      rw [hh, f1 v]
      exact (P.hbatch v (Or.inr rfl)).2.2.1
    · exact Or.inr hh
  · show sccId0 + 1 + popped.2.length ≤ discovered1
    rw [P.hrest2]
    have h1 := M.hsccb
    have h2 := P.hlenTS
    omega

/-- One loop iteration, bottom-frame pop: after the root pop of the last
active frame the SCC stack is empty, every node that was on it is
assigned, and every node below `nextV` is discovered. -/
theorem tarjanStep_pop_end (tempCfg : List (Nat × CfgNode))
    (key : Nat → Nat) (n : Nat) (hn : n < SENTINEL)
    (htemp : ∀ k node, nfind? tempCfg k = some node → node.sccId < n)
    (v eI : Nat)
    (nodes1 : List NodeState) (sccStack1 : List Nat)
    (sccId0 discovered1 nextV0 : Nat)
    (M : MidInv tempCfg key n v eI [] nodes1 sccStack1 sccId0 discovered1
      nextV0)
    (cfgNode : CfgNode) (hfk : nfind? tempCfg (key v) = some cfgNode)
    (nodes2 : List NodeState)
    (hS : ScanSpec tempCfg v (cfgNode.destinations.drop eI) nodes1 eI
      (nodes2, none))
    (popped : List NodeState × List Nat) (T S : List Nat)
    (P : PopFacts tempCfg key n v [] nodes2 sccStack1 sccId0 popped T S) :
    S = [] ∧
    (∀ x, x < nextV0 → ndisc popped.1 x ≠ SENTINEL) ∧
    (∀ rec2 nv2, FramesOK tempCfg key n popped.1 rec2 →
      (∀ b, (stampedPath rec2).getLast? = some b → False) →
      (∀ x, x < nv2 → ndisc popped.1 x ≠ SENTINEL ∨
        ∃ j, (x, j) ∈ rec2) →
      TarjanInv tempCfg key n
        { nodes := popped.1
          sccStack := popped.2
          recursionStack := rec2
          sccId := sccId0 + 1
          discovered := discovered1
          nextV := nv2 }) := by
  obtain ⟨e1, e2, e3, e4, e5⟩ := hS.obs
  have hS0 : S = [] := StackDecomp.path_nil P.hdecS
  have hnostack : ∀ x, x < n → ¬nonStack popped.1 x := by
    intro x hx hox
    have hh := P.hon3char x hx hox
    rw [hS0] at hh
    exact List.not_mem_nil x hh
  have hbmem : ∀ x, x ∈ T ∨ x = v → x ∈ sccStack1 := by
    intro x hx
    rw [P.hsplit]
    rcases hx with hx | hx
    · exact List.mem_append_left _ hx
    · rw [hx]
      exact List.mem_append_right _ (List.mem_cons_self _ _)
  have hstackbatch : ∀ x, x ∈ sccStack1 → x ∈ T ∨ x = v := by
    intro x hx
    rw [P.hsplit] at hx
    rcases List.mem_append.mp hx with hh | hh
    · exact Or.inl hh
    · rcases List.mem_cons.mp hh with hh | hh
      · exact Or.inr hh
      · rw [hS0] at hh
        exact absurd hh (List.not_mem_nil x)
  have hsccNb3 : ∀ y, y ∉ T → y ≠ v → nscc popped.1 y = nscc nodes1 y :=
    fun y h1 h2 => ((P.hnb y h1 h2).2.1).trans (e2 y)
  have hdiscNb3 : ∀ y, y ∉ T → y ≠ v → ndisc popped.1 y = ndisc nodes1 y :=
    fun y h1 h2 => ((P.hnb y h1 h2).1).trans (e1 y)
  have honNb3 : ∀ y, y ∉ T → y ≠ v →
      (nonStack popped.1 y ↔ nonStack nodes1 y) :=
    fun y h1 h2 => ((P.hnb y h1 h2).2.2.1).trans (e3 y)
  have hcfg3 : ∀ y, ncfg popped.1 y = ncfg nodes1 y := by
    intro y
    by_cases hb : y ∈ T ∨ y = v
    · exact ((P.hbatch y hb).2.2.2).trans (e4 y)
    · obtain ⟨h1, h2⟩ := not_or.mp hb
      exact ((P.hnb y h1 h2).2.2.2).trans (e4 y)
  have hbatchscc1 : ∀ y, y ∈ T ∨ y = v → nscc nodes1 y = SENTINEL := by
    intro y hy
    have hy1 := hbmem y hy
    exact (M.hOn y (M.hmem y hy1).1 (M.hmem y hy1).2).2
  have hdiscPres : ∀ y, ndisc nodes1 y ≠ SENTINEL →
      ndisc popped.1 y ≠ SENTINEL := by
    intro y hy
    by_cases hb : y ∈ T ∨ y = v
    · exact (P.hbatch y hb).2.2.1
    · obtain ⟨h1, h2⟩ := not_or.mp hb
      rw [hdiscNb3 y h1 h2]
      exact hy
  have hdisclow : ∀ x, x < nextV0 → ndisc popped.1 x ≠ SENTINEL := by
    intro x hx
    rcases M.hN x hx with hh | hh | hh
    · exact hdiscPres x hh
    · rw [hh]
      exact (P.hbatch v (Or.inr rfl)).2.2.1
    · obtain ⟨j, hj⟩ := hh
      exact absurd hj (List.not_mem_nil _)
  refine ⟨hS0, hdisclow, ?_⟩
  intro rec2 nv2 hframes2 hbot2 hN2
  refine
    { hlen := P.hlen3
      hkey := fun x hx => (hcfg3 x).trans (M.hkey x hx)
      hframes := hframes2
      hdecomp := ?_
      hnodup := ?_
      hmem := ?_
      honmem := fun x hx hox => absurd hox (hnostack x hx)
      hsorted := ?_
      hA := ?_
      hOn := fun x hx hox => absurd hox (hnostack x hx)
      hD := ?_
      hcount := ?_
      hdiscLt := fun x hx hox => absurd hox (hnostack x hx)
      hlowle := fun x hx hox => absurd hox (hnostack x hx)
      hbot := ?_
      hE := ?_
      hG := fun x hx hox => absurd hox (hnostack x hx)
      hN := hN2
      hsccb := ?_ }
  · show StackDecomp popped.1 (stampedPath rec2) popped.2
    have hpempty : stampedPath rec2 = [] := by
      cases hp : stampedPath rec2 with
      | nil => rfl
      | cons b t =>
        exfalso
        have hsome := List.getLast?_isSome.mpr (List.cons_ne_nil b t)
        obtain ⟨b', hb'⟩ := Option.isSome_iff_exists.mp hsome
        refine hbot2 b' ?_
        rw [hp]
        exact hb'
    rw [hpempty, P.hrest2, hS0]
    exact StackDecomp.nil
  · show popped.2.Nodup
    rw [P.hrest2, hS0]
    exact List.nodup_nil
  · intro y hy
    rw [P.hrest2, hS0] at hy
    exact absurd hy (List.not_mem_nil y)
  · show popped.2.Pairwise _
    rw [P.hrest2, hS0]
    exact List.Pairwise.nil
  · intro x hx hsc
    by_cases hb : x ∈ T ∨ x = v
    · refine ⟨(P.hbatch x hb).1, (P.hbatch x hb).2.2.1, ?_⟩
      show nscc popped.1 x < sccId0 + 1
      rw [(P.hbatch x hb).2.1]
      omega
    · obtain ⟨h1, h2⟩ := not_or.mp hb
      rw [hsccNb3 x h1 h2] at hsc
      obtain ⟨a1, a2, a3⟩ := M.hA x hx hsc
      refine ⟨fun hh => a1 ((honNb3 x h1 h2).mp hh), ?_, ?_⟩
      · rw [hdiscNb3 x h1 h2]
        exact a2
      · show nscc popped.1 x < sccId0 + 1
        rw [hsccNb3 x h1 h2]
        omega
  · intro x hx hdx
    by_cases hb : x ∈ T ∨ x = v
    · refine Or.inr ?_
      rw [(P.hbatch x hb).2.1]
      exact P.hsccid0ne
    · obtain ⟨h1, h2⟩ := not_or.mp hb
      rw [hdiscNb3 x h1 h2] at hdx
      rcases M.hD x hx hdx with hh | hh
      · exfalso
        have hon2 := M.honmem x hx hh
        exact absurd (hstackbatch x hon2) hb
      · refine Or.inr ?_
        rw [hsccNb3 x h1 h2]
        exact hh
  · show discovered1 = countD popped.1
    rw [P.hcnt3, hS.hcnt]
    exact M.hcount
  · intro b hb
    exact (hbot2 b hb).elim
  · intro u hu hsc ω hsucc
    by_cases hb : u ∈ T ∨ u = v
    · have hq := P.hE3 u hb ω hsucc
      refine ⟨hq.1, ?_⟩
      rw [(P.hbatch u hb).2.1]
      exact hq.2
    · obtain ⟨h1, h2⟩ := not_or.mp hb
      rw [hsccNb3 u h1 h2] at hsc
      obtain ⟨q1, q2⟩ := M.hE u hu hsc ω hsucc
      have hωnb : ω ∉ T ∧ ω ≠ v := by
        constructor
        · intro hh
          exact q1 (hbatchscc1 ω (Or.inl hh))
        · intro hh
          exact q1 (hbatchscc1 ω (Or.inr hh))
      refine ⟨?_, ?_⟩
      · rw [hsccNb3 ω hωnb.1 hωnb.2]
        exact q1
      · rw [hsccNb3 ω hωnb.1 hωnb.2, hsccNb3 u h1 h2]
        exact q2
  · show sccId0 + 1 + popped.2.length ≤ discovered1
    rw [P.hrest2, hS0]
    have h1 := M.hsccb
    have h2 := P.hlenTS
    simp only [List.length_nil]
    omega

/-- At a bottom frame the pop always fires: the lowlink of the last
active node has nowhere lower to go, so `discovery = lowlink` holds when
its scan completes. -/
theorem tarjanStep_nopop_forced (tempCfg : List (Nat × CfgNode))
    (key : Nat → Nat) (n : Nat) (v eI : Nat)
    (nodes1 : List NodeState) (sccStack1 : List Nat)
    (sccId0 discovered1 nextV0 : Nat)
    (M : MidInv tempCfg key n v eI [] nodes1 sccStack1 sccId0 discovered1
      nextV0)
    (cfgNode : CfgNode)
    (nodes2 : List NodeState)
    (hS : ScanSpec tempCfg v (cfgNode.destinations.drop eI) nodes1 eI
      (nodes2, none)) :
    ndisc nodes2 v = nlow nodes2 v := by
  have hvmem : v ∈ sccStack1 := M.hdecomp.subset v (List.mem_cons_self _ _)
  have hlastv : (v :: stampedPath ([] : List (Nat × Nat))).getLast? =
      some v := List.getLast?_singleton v
  have hmb := M.hbot v hlastv
  have h1 : ndisc nodes1 v ≤ nlow nodes2 v := by
    refine hS.hlb _ (hmb v hvmem) ?_
    intro y hy hoy
    rw [M.hlen] at hy
    exact le_trans (hmb y (M.honmem y hy hoy)) (M.hlowle y hy hoy)
  have h2 : nlow nodes2 v ≤ ndisc nodes1 v :=
    le_trans hS.hlow (M.hlowle v M.hv M.hvon)
  have h3 : ndisc nodes2 v = ndisc nodes1 v := hS.obs.1 v
  omega

/-- One loop iteration, non-root completion: `v`'s scan completed but
`discovery ≠ lowlink`, so `v` stays on the SCC stack and only the parent
frame absorbs its lowlink. -/
theorem tarjanStep_nopop_parent (tempCfg : List (Nat × CfgNode))
    (key : Nat → Nat) (n : Nat) (hn : n < SENTINEL)
    (htemp : ∀ k node, nfind? tempCfg k = some node → node.sccId < n)
    (v eI w2 j2 : Nat) (rest'' : List (Nat × Nat))
    (nodes1 : List NodeState) (sccStack1 : List Nat)
    (sccId0 discovered1 nextV0 : Nat)
    (M : MidInv tempCfg key n v eI ((w2, j2) :: rest'') nodes1 sccStack1
      sccId0 discovered1 nextV0)
    (cfgNode : CfgNode) (hfk : nfind? tempCfg (key v) = some cfgNode)
    (nodes2 : List NodeState)
    (hS : ScanSpec tempCfg v (cfgNode.destinations.drop eI) nodes1 eI
      (nodes2, none))
    (nw2 nv3 : NodeState)
    (hnw2 : nodes2.get? w2 = some nw2)
    (hnv3 : nodes2.get? v = some nv3)
    (nodes4 : List NodeState)
    (hn4 : nodes4 =
      nodes2.set w2 { nw2 with lowlink := min nw2.lowlink nv3.lowlink }) :
    TarjanInv tempCfg key n
      { nodes := nodes4
        sccStack := sccStack1
        recursionStack := (w2, j2) :: rest''
        sccId := sccId0
        discovered := discovered1
        nextV := nextV0 } := by
  obtain ⟨e1, e2, e3, e4, e5⟩ := hS.obs
  have hl2 : nodes2.length = n := hS.hlen.trans M.hlen
  have hAllE := tarjanStep_alledges tempCfg key n v eI ((w2, j2) :: rest'')
    nodes1 sccStack1 sccId0 discovered1 nextV0 M cfgNode hfk nodes2 hS
  obtain ⟨hw2n, hj2, hFw2⟩ := M.hTail (w2, j2) (List.mem_cons_self _ _)
  have hpathrest : stampedPath ((w2, j2) :: rest'') =
      w2 :: stampedPath rest'' :=
    stampedPath_cons_pos w2 j2 rest'' (by omega)
  have hdec2 : StackDecomp nodes2
      (v :: stampedPath ((w2, j2) :: rest'')) sccStack1 :=
    StackDecomp.lower v M.hdecomp M.hnodup (List.mem_cons_self _ _)
      (fun y _ hy => e5 y hy) hS.hlow
  obtain ⟨T, S, hsplit, hdecS, hTcond⟩ := hdec2.cons_inv
  have hnd : (T ++ v :: S).Nodup := by
    rw [← hsplit]
    exact M.hnodup
  obtain ⟨hndT, hndvS, hdisj⟩ := List.nodup_append.mp hnd
  obtain ⟨hvS, hndS⟩ := List.nodup_cons.mp hndvS
  have hvT : v ∉ T := fun hh => hdisj hh (List.mem_cons_self _ _)
  have hdecS' : StackDecomp nodes2 (w2 :: stampedPath rest'') S := by
    rw [hpathrest] at hdecS
    exact hdecS
  obtain ⟨T2, S2, hSeq, hdecS2, hT2cond⟩ := hdecS'.cons_inv
  have hndS' : (T2 ++ w2 :: S2).Nodup := by
    rw [← hSeq]
    exact hndS
  obtain ⟨hndT2, hndw2S2, hdisj2⟩ := List.nodup_append.mp hndS'
  obtain ⟨hw2S2, hndS2⟩ := List.nodup_cons.mp hndw2S2
  have hw2S : w2 ∈ S := by
    rw [hSeq]
    exact List.mem_append_right _ (List.mem_cons_self _ _)
  have hw2T : w2 ∉ T := fun hh => hdisj hh (List.mem_cons_of_mem _ hw2S)
  have hw2v : w2 ≠ v := fun hh => hvS (hh ▸ hw2S)
  have hw2T2 : w2 ∉ T2 := fun hh => hdisj2 hh (List.mem_cons_self _ _)
  have hw2stack : w2 ∈ sccStack1 := by
    rw [hsplit]
    exact List.mem_append_right _ (List.mem_cons_of_mem _ hw2S)
  have hw2lt : w2 < nodes2.length := by
    rw [hl2]
    exact hw2n
  have f1 : ∀ y, ndisc nodes4 y = ndisc nodes2 y := by
    intro y
    rw [hn4]
    by_cases hy : y = w2
    · subst hy
      rw [ndisc_set_self _ _ _ hw2lt]
      unfold ndisc
      rw [hnw2]
      rfl
    · exact ndisc_set_ne _ _ _ _ (fun hh => hy hh.symm)
  have f2 : ∀ y, nscc nodes4 y = nscc nodes2 y := by
    intro y
    rw [hn4]
    by_cases hy : y = w2
    · subst hy
      rw [nscc_set_self _ _ _ hw2lt]
      unfold nscc
      rw [hnw2]
      rfl
    · exact nscc_set_ne _ _ _ _ (fun hh => hy hh.symm)
  have f3 : ∀ y, nonStack nodes4 y ↔ nonStack nodes2 y := by
    intro y
    rw [hn4]
    by_cases hy : y = w2
    · subst hy
      rw [nonStack_set_self _ _ _ hw2lt]
      unfold nonStack
      rw [hnw2]
      exact Iff.rfl
    · exact nonStack_set_ne _ _ _ _ (fun hh => hy hh.symm)
  have f4 : ∀ y, ncfg nodes4 y = ncfg nodes2 y := by
    intro y
    rw [hn4]
    by_cases hy : y = w2
    · subst hy
      rw [ncfg_set_self _ _ _ hw2lt]
      unfold ncfg
      rw [hnw2]
      rfl
    · exact ncfg_set_ne _ _ _ _ (fun hh => hy hh.symm)
  have f5 : ∀ y, y ≠ w2 → nlow nodes4 y = nlow nodes2 y := by
    intro y hy
    rw [hn4]
    exact nlow_set_ne _ _ _ _ (fun hh => hy hh.symm)
  have f6 : nlow nodes4 w2 = min nw2.lowlink nv3.lowlink := by
    rw [hn4]
    exact nlow_set_self _ _ _ hw2lt
  have hnw2low : nlow nodes2 w2 = nw2.lowlink := by
    unfold nlow
    rw [hnw2]
    rfl
  have hnv3low : nlow nodes2 v = nv3.lowlink := by
    unfold nlow
    rw [hnv3]
    rfl
  have hEO24 : ∀ x ω, EdgeOK nodes2 x ω → EdgeOK nodes4 x ω := by
    intro x ω h
    refine EdgeOK_mono (f2 ω) (fun h1 => ⟨(f3 ω).mpr h1, f1 ω⟩) ?_ h
    intro _
    by_cases hx : x = w2
    · subst hx
      rw [f6, hnw2low]
      exact min_le_left _ _
    · rw [f5 x hx]
  have hEO1to4 : ∀ x ω, EdgeOK nodes1 x ω → EdgeOK nodes4 x ω :=
    fun x ω h => hEO24 x ω (hS.edgeok x ω h)
  have hdisc41 : ∀ y, ndisc nodes4 y = ndisc nodes1 y :=
    fun y => (f1 y).trans (e1 y)
  have hscc41 : ∀ y, nscc nodes4 y = nscc nodes1 y :=
    fun y => (f2 y).trans (e2 y)
  have hon41 : ∀ y, nonStack nodes4 y ↔ nonStack nodes1 y :=
    fun y => (f3 y).trans (e3 y)
  have hvpmem : v ∈ sccStack1 := M.hdecomp.subset v (List.mem_cons_self _ _)
  have hbold : ∀ b, (w2 :: stampedPath rest'').getLast? = some b →
      (v :: stampedPath ((w2, j2) :: rest'')).getLast? = some b := by
    intro b hb
    rw [hpathrest, List.getLast?_cons_cons]
    exact hb
  have hLv : ∀ b, (v :: stampedPath ((w2, j2) :: rest'')).getLast? = some b →
      ndisc nodes1 b ≤ nlow nodes2 v := by
    intro b hb
    refine hS.hlb (ndisc nodes1 b) (M.hbot b hb v hvpmem) ?_
    intro y hy hoy
    rw [M.hlen] at hy
    exact le_trans (M.hbot b hb y (M.honmem y hy hoy)) (M.hlowle y hy hoy)
  refine
    { hlen := ?_
      hkey := fun x hx => (f4 x).trans ((e4 x).trans (M.hkey x hx))
      hframes := ?_
      hdecomp := ?_
      hnodup := M.hnodup
      hmem := fun y hy =>
        ⟨(M.hmem y hy).1, (f3 y).mpr ((e3 y).mpr (M.hmem y hy).2)⟩
      honmem := fun x hx hox => M.honmem x hx ((hon41 x).mp hox)
      hsorted := ?_
      hA := ?_
      hOn := ?_
      hD := ?_
      hcount := ?_
      hdiscLt := fun x hx hox => by
        rw [hdisc41 x]
        exact M.hdiscLt x hx ((hon41 x).mp hox)
      hlowle := ?_
      hbot := ?_
      hE := ?_
      hG := ?_
      hN := ?_
      hsccb := M.hsccb }
  · show nodes4.length = n
    rw [hn4, List.length_set]
    exact hl2
  · show FramesOK tempCfg key n nodes4 ((w2, j2) :: rest'')
    cases j2 with
    | zero => exact absurd hj2 (by omega)
    | succ j2' =>
      exact ⟨hw2n, FrameOK_mono (fun ω h => hEO1to4 w2 ω h) hFw2,
        FramesTail_mono hEO1to4
          (fun f hf => M.hTail f (List.mem_cons_of_mem _ hf))⟩
  · show StackDecomp nodes4 (stampedPath ((w2, j2) :: rest'')) sccStack1
    rw [hpathrest, hsplit, hSeq,
      show T ++ v :: (T2 ++ w2 :: S2) = (T ++ v :: T2) ++ w2 :: S2 from
        (List.append_assoc T (v :: T2) (w2 :: S2)).symm]
    refine StackDecomp.seg w2 (T ++ v :: T2) (stampedPath rest'') S2
      (hdecS2.congr ?_) ?_
    · intro x hx
      refine f5 x ?_
      intro hh
      exact hw2S2 (hh ▸ hx)
    · intro x hx
      rw [f6]
      rcases List.mem_append.mp hx with hx | hx
      · have hxw2 : x ≠ w2 := fun hh => hw2T (hh ▸ hx)
        rw [f5 x hxw2]
        refine le_trans (min_le_right _ _) ?_
        rw [← hnv3low]
        exact hTcond x hx
      · rcases List.mem_cons.mp hx with hx | hx
        · have hvw2 : v ≠ w2 := fun hh => hw2v hh.symm
          rw [hx, f5 v hvw2, hnv3low]
          exact min_le_right _ _
        · have hxw2 : x ≠ w2 := fun hh => hw2T2 (hh ▸ hx)
          rw [f5 x hxw2]
          refine le_trans (min_le_left _ _) ?_
          rw [← hnw2low]
          exact hT2cond x hx
  · refine M.hsorted.imp ?_
    intro a b h
    rw [hdisc41 a, hdisc41 b]
    exact h
  · intro x hx hsc
    rw [hscc41 x] at hsc
    obtain ⟨a1, a2, a3⟩ := M.hA x hx hsc
    refine ⟨fun hh => a1 ((hon41 x).mp hh), ?_, ?_⟩
    · rw [hdisc41 x]
      exact a2
    · show nscc nodes4 x < sccId0
      rw [hscc41 x]
      exact a3
  · intro x hx hox
    have hon1 := (hon41 x).mp hox
    refine ⟨?_, ?_⟩
    · rw [hdisc41 x]
      exact (M.hOn x hx hon1).1
    · rw [hscc41 x]
      exact (M.hOn x hx hon1).2
  · intro x hx hdx
    rw [hdisc41 x] at hdx
    rcases M.hD x hx hdx with hh | hh
    · exact Or.inl ((hon41 x).mpr hh)
    · refine Or.inr ?_
      rw [hscc41 x]
      exact hh
  · show discovered1 = countD nodes4
    rw [hn4, countD_set_same nodes2 w2 nw2
      { nw2 with lowlink := min nw2.lowlink nv3.lowlink } hnw2 Iff.rfl,
      hS.hcnt]
    exact M.hcount
  · intro x hx hox
    have hon1 := (hon41 x).mp hox
    by_cases hxw : x = w2
    · rw [hxw, f6, hdisc41 w2]
      refine le_trans (min_le_left _ _) ?_
      have h9 : nw2.lowlink = nlow nodes1 w2 := by
        rw [← hnw2low]
        exact e5 w2 hw2v
      rw [h9]
      rw [hxw] at hon1
      exact M.hlowle w2 hw2n hon1
    · by_cases hxv : x = v
      · subst hxv
        rw [f5 x hxw, hdisc41 x]
        exact le_trans hS.hlow (M.hlowle x hx hon1)
      · rw [f5 x hxw, e5 x hxv, hdisc41 x]
        exact M.hlowle x hx hon1
  · intro b hb x hx
    rw [hpathrest] at hb
    have hmb := M.hbot b (hbold b hb)
    rw [hdisc41 b]
    by_cases hxw : x = w2
    · subst hxw
      rw [f6]
      refine le_min ?_ ?_
      · rw [← hnw2low, e5 x hw2v]
        exact hmb x hx
      · rw [← hnv3low]
        exact hLv b (hbold b hb)
    · by_cases hxv : x = v
      · subst hxv
        rw [f5 x hxw]
        exact hLv b (hbold b hb)
      · rw [f5 x hxw, e5 x hxv]
        exact hmb x hx
  · intro u hu hsc ω hsucc
    rw [hscc41 u] at hsc
    obtain ⟨q1, q2⟩ := M.hE u hu hsc ω hsucc
    refine ⟨?_, ?_⟩
    · rw [hscc41 ω]
      exact q1
    · rw [hscc41 ω, hscc41 u]
      exact q2
  · intro x hx hox hnf ω hsucc
    by_cases hxv : x = v
    · subst hxv
      exact hEO24 x ω (hAllE ω hsucc)
    · exact hEO1to4 x ω
        (M.hG x hx ((hon41 x).mp hox) hxv hnf ω hsucc)
  · intro x hx
    rcases M.hN x hx with hh | hh | hh
    · refine Or.inl ?_
      rw [hdisc41 x]
      exact hh
    · refine Or.inl ?_
      rw [hh, hdisc41 v]
      exact (M.hOn v M.hv M.hvon).1
    · exact Or.inr hh

/-- The mid-iteration invariant, resumed-frame case: nothing changes at
the start of the iteration. -/
theorem midInv_of_resumed (tempCfg : List (Nat × CfgNode)) (key : Nat → Nat)
    (n : Nat) (st : TarjanState) (v j : Nat) (rest : List (Nat × Nat))
    (hinv : TarjanInv tempCfg key n st)
    (hrs : st.recursionStack = (v, j + 1) :: rest) :
    MidInv tempCfg key n v (j + 1) rest st.nodes st.sccStack st.sccId
      st.discovered st.nextV := by
  have hF := hinv.hframes
  rw [hrs] at hF
  have hF' : v < n ∧ FrameOK tempCfg key st.nodes v (j + 1) 0 ∧
      FramesTail tempCfg key n st.nodes rest := hF
  have hdec := hinv.hdecomp
  rw [hrs, stampedPath_cons_pos v (j + 1) rest (by omega)] at hdec
  have hvon : nonStack st.nodes v :=
    (hinv.hmem v (hdec.subset v (List.mem_cons_self _ _))).2
  refine
    { hlen := hinv.hlen
      hkey := hinv.hkey
      hv := hF'.1
      hvon := hvon
      hFrame := hF'.2.1
      hTail := hF'.2.2
      hdecomp := hdec
      hnodup := hinv.hnodup
      hmem := hinv.hmem
      honmem := hinv.honmem
      hsorted := hinv.hsorted
      hA := hinv.hA
      hOn := hinv.hOn
      hD := hinv.hD
      hcount := hinv.hcount
      hdiscLt := hinv.hdiscLt
      hlowle := hinv.hlowle
      hbot := ?_
      hE := hinv.hE
      hG := ?_
      hN := ?_
      hsccb := hinv.hsccb }
  · intro b hb
    refine hinv.hbot b ?_
    rw [hrs, stampedPath_cons_pos v (j + 1) rest (by omega)]
    exact hb
  · intro x hx hox hxv hnf ω hsucc
    refine hinv.hG x hx hox ?_ ω hsucc
    intro jj hjj
    rw [hrs] at hjj
    rcases List.mem_cons.mp hjj with hh | hh
    · exact hxv (congrArg Prod.fst hh)
    · exact hnf jj hh
  · intro x hx
    rcases hinv.hN x hx with hh | hh
    · exact Or.inl hh
    · obtain ⟨jj, hjj⟩ := hh
      rw [hrs] at hjj
      rcases List.mem_cons.mp hjj with hh2 | hh2
      · exact Or.inr (Or.inl (congrArg Prod.fst hh2))
      · exact Or.inr (Or.inr ⟨jj, hh2⟩)

/-- The mid-iteration invariant, fresh-frame case: `v` is stamped with
the next discovery time and pushed onto the SCC stack, and the pending
edge of its pusher becomes fully handled. -/
theorem midInv_of_fresh (tempCfg : List (Nat × CfgNode)) (key : Nat → Nat)
    (n : Nat) (hn : n < SENTINEL)
    (st : TarjanState) (v : Nat) (rest : List (Nat × Nat))
    (hinv : TarjanInv tempCfg key n st)
    (hrs : st.recursionStack = (v, 0) :: rest)
    (nv0 : NodeState) (hnv0 : st.nodes.get? v = some nv0)
    (nodes1 : List NodeState)
    (hn1 : nodes1 = st.nodes.set v
      { nv0 with
        discovery := st.discovered
        lowlink := st.discovered
        isOnSccStack := true }) :
    MidInv tempCfg key n v 0 rest nodes1 (v :: st.sccStack) st.sccId
      (st.discovered + 1) st.nextV := by
  have hF := hinv.hframes
  rw [hrs] at hF
  obtain ⟨hvn, hvund, hrest⟩ := hF
  have hdec0 : StackDecomp st.nodes (stampedPath rest) st.sccStack := by
    have hh := hinv.hdecomp
    rw [hrs, stampedPath_cons_zero] at hh
    exact hh
  have hvne : ¬nonStack st.nodes v := fun hh => (hinv.hOn v hvn hh).1 hvund
  have hvnotstack : v ∉ st.sccStack := fun hh => hvne (hinv.hmem v hh).2
  have hvunassigned : nscc st.nodes v = SENTINEL := by
    by_contra hh
    exact (hinv.hA v hvn hh).2.1 hvund
  have hdn : st.discovered ≤ n := by
    rw [hinv.hcount]
    have hh := countD_le st.nodes
    rw [hinv.hlen] at hh
    exact hh
  have hvlt : v < st.nodes.length := by
    rw [hinv.hlen]
    exact hvn
  have g0 : ∀ y, y ≠ v → nodes1.get? y = st.nodes.get? y := by
    intro y hy
    rw [hn1]
    exact get?_set_ne _ _ _ _ (fun hh => hy hh.symm)
  have gd : ndisc nodes1 v = st.discovered := by
    rw [hn1]
    exact ndisc_set_self _ _ _ hvlt
  have gl : nlow nodes1 v = st.discovered := by
    rw [hn1]
    exact nlow_set_self _ _ _ hvlt
  have go : nonStack nodes1 v := by
    rw [hn1]
    exact (nonStack_set_self _ _ _ hvlt).mpr rfl
  have hvscc0 : nscc st.nodes v = nv0.sccId := by
    unfold nscc
    rw [hnv0]
    rfl
  have gs : nscc nodes1 v = SENTINEL := by
    rw [hn1, nscc_set_self _ _ _ hvlt]
    show nv0.sccId = SENTINEL
    rw [← hvscc0]
    exact hvunassigned
  have gc : ncfg nodes1 v = ncfg st.nodes v := by
    rw [hn1, ncfg_set_self _ _ _ hvlt]
    unfold ncfg
    rw [hnv0]
    rfl
  have gd' : ∀ y, y ≠ v → ndisc nodes1 y = ndisc st.nodes y := by
    intro y hy
    unfold ndisc
    rw [g0 y hy]
  have gl' : ∀ y, y ≠ v → nlow nodes1 y = nlow st.nodes y := by
    intro y hy
    unfold nlow
    rw [g0 y hy]
  have go' : ∀ y, y ≠ v → (nonStack nodes1 y ↔ nonStack st.nodes y) := by
    intro y hy
    unfold nonStack
    rw [g0 y hy]
  have gs' : ∀ y, y ≠ v → nscc nodes1 y = nscc st.nodes y := by
    intro y hy
    unfold nscc
    rw [g0 y hy]
  have gsAll : ∀ y, nscc nodes1 y = nscc st.nodes y := by
    intro y
    by_cases hy : y = v
    · rw [hy, gs, hvunassigned]
    · exact gs' y hy
  have gcAll : ∀ y, ncfg nodes1 y = ncfg st.nodes y := by
    intro y
    by_cases hy : y = v
    · rw [hy]
      exact gc
    · unfold ncfg
      rw [g0 y hy]
  have hvd0 : nv0.discovery = SENTINEL := by
    have hh := hvund
    unfold ndisc at hh
    rw [hnv0] at hh
    exact hh
  have hEO01 : ∀ x ω, x ≠ v → EdgeOK st.nodes x ω → EdgeOK nodes1 x ω := by
    intro x ω hxv h
    refine EdgeOK_mono (gsAll ω) ?_ (fun _ => le_of_eq (gl' x hxv)) h
    intro h1
    have hov : ω ≠ v := fun hh => hvne (hh ▸ h1)
    exact ⟨(go' ω hov).mpr h1, gd' ω hov⟩
  have hpathmem : ∀ x jx, (x, jx) ∈ rest → 1 ≤ jx → x ∈ st.sccStack := by
    intro x jx hmem hjx
    refine hdec0.subset x ?_
    unfold stampedPath
    refine List.mem_map.mpr ⟨(x, jx), ?_, rfl⟩
    refine List.mem_filter.mpr ⟨hmem, ?_⟩
    simp only [decide_eq_true_eq]
    omega
  refine
    { hlen := ?_
      hkey := fun x hx => (gcAll x).trans (hinv.hkey x hx)
      hv := hvn
      hvon := go
      hFrame := fun i hi => absurd hi (by omega)
      hTail := ?_
      hdecomp := ?_
      hnodup := List.nodup_cons.mpr ⟨hvnotstack, hinv.hnodup⟩
      hmem := ?_
      honmem := ?_
      hsorted := ?_
      hA := ?_
      hOn := ?_
      hD := ?_
      hcount := ?_
      hdiscLt := ?_
      hlowle := ?_
      hbot := ?_
      hE := ?_
      hG := ?_
      hN := ?_
      hsccb := ?_ }
  · rw [hn1, List.length_set]
    exact hinv.hlen
  · -- FramesTail for rest: upgrade the pusher's pending edge
    cases rest with
    | nil => exact fun f hf => absurd hf (List.not_mem_nil f)
    | cons f0 rest' =>
      obtain ⟨p, jp⟩ := f0
      obtain ⟨hpn, hjp, hFp1, hlink, hTail'⟩ := hrest
      have hpstack : p ∈ st.sccStack :=
        hpathmem p jp (List.mem_cons_self _ _) hjp
      have hpon : nonStack st.nodes p := (hinv.hmem p hpstack).2
      have hpv : p ≠ v := fun hh => hvne (hh ▸ hpon)
      intro f hf
      rcases List.mem_cons.mp hf with hf | hf
      · rw [hf]
        refine ⟨hpn, hjp, ?_⟩
        intro i hi node d dn h1 h2 h3
        by_cases hi1 : i < jp - 1
        · exact hEO01 p dn.sccId hpv (hFp1 i hi1 node d dn h1 h2 h3)
        · have hieq : i = jp - 1 := by omega
          have hdscc : dn.sccId = v := by
            refine hlink node d dn h1 ?_ h3
            rw [← hieq]
            exact h2
          rw [hdscc]
          refine Or.inr ⟨go, ?_⟩
          rw [gd, gl' p hpv]
          exact le_of_lt (lt_of_le_of_lt (hinv.hlowle p hpn hpon)
            (hinv.hdiscLt p hpn hpon))
      · obtain ⟨hq1, hq2, hq3⟩ := hTail' f hf
        have hfstack : f.1 ∈ st.sccStack := by
          have hfmem : (f.1, f.2) ∈ rest' := by
            rw [show (f.1, f.2) = f from rfl]
            exact hf
          exact hpathmem f.1 f.2 (List.mem_cons_of_mem _ hfmem) hq2
        have hfon : nonStack st.nodes f.1 := (hinv.hmem f.1 hfstack).2
        have hfv : f.1 ≠ v := fun hh => hvne (hh ▸ hfon)
        exact ⟨hq1, hq2,
          FrameOK_mono (fun ω h => hEO01 f.1 ω hfv h) hq3⟩
  · -- decomposition with the new top segment
    refine StackDecomp.seg v [] (stampedPath rest) st.sccStack ?_
      (fun x hx => absurd hx (List.not_mem_nil x))
    refine hdec0.congr ?_
    intro x hx
    have hxv : x ≠ v := fun hh => hvnotstack (hh ▸ hx)
    exact gl' x hxv
  · intro y hy
    rcases List.mem_cons.mp hy with hy | hy
    · rw [hy]
      exact ⟨hvn, go⟩
    · have hyv : y ≠ v := fun hh => hvnotstack (hh ▸ hy)
      exact ⟨(hinv.hmem y hy).1, (go' y hyv).mpr (hinv.hmem y hy).2⟩
  · intro x hx hox
    by_cases hxv : x = v
    · rw [hxv]
      exact List.mem_cons_self _ _
    · exact List.mem_cons_of_mem _
        (hinv.honmem x hx ((go' x hxv).mp hox))
  · refine List.pairwise_cons.mpr ⟨?_, ?_⟩
    · intro y hy
      have hyv : y ≠ v := fun hh => hvnotstack (hh ▸ hy)
      rw [gd, gd' y hyv]
      exact hinv.hdiscLt y (hinv.hmem y hy).1 (hinv.hmem y hy).2
    · refine hinv.hsorted.imp_of_mem ?_
      intro a b ha hb h
      have hav : a ≠ v := fun hh => hvnotstack (hh ▸ ha)
      have hbv : b ≠ v := fun hh => hvnotstack (hh ▸ hb)
      rw [gd' a hav, gd' b hbv]
      exact h
  · intro x hx hsc
    rw [gsAll x] at hsc
    obtain ⟨a1, a2, a3⟩ := hinv.hA x hx hsc
    have hxv : x ≠ v := by
      intro hh
      rw [hh] at hsc
      exact hsc hvunassigned
    refine ⟨fun hh => a1 ((go' x hxv).mp hh), ?_, ?_⟩
    · rw [gd' x hxv]
      exact a2
    · rw [gsAll x]
      exact a3
  · intro x hx hox
    by_cases hxv : x = v
    · rw [hxv, gd, gs]
      exact ⟨by omega, rfl⟩
    · have hon0 := hinv.hOn x hx ((go' x hxv).mp hox)
      rw [gd' x hxv, gsAll x]
      exact hon0
  · intro x hx hdx
    by_cases hxv : x = v
    · rw [hxv]
      exact Or.inl go
    · rw [gd' x hxv] at hdx
      rcases hinv.hD x hx hdx with hh | hh
      · exact Or.inl ((go' x hxv).mpr hh)
      · refine Or.inr ?_
        rw [gsAll x]
        exact hh
  · show st.discovered + 1 = countD nodes1
    rw [hn1, countD_set_fresh st.nodes v nv0
      { nv0 with
        discovery := st.discovered
        lowlink := st.discovered
        isOnSccStack := true } hnv0 hvd0 (by show ¬st.discovered = SENTINEL; omega)]
    rw [hinv.hcount]
  · intro x hx hox
    by_cases hxv : x = v
    · rw [hxv, gd]
      omega
    · rw [gd' x hxv]
      have hh := hinv.hdiscLt x hx ((go' x hxv).mp hox)
      omega
  · intro x hx hox
    by_cases hxv : x = v
    · rw [hxv, gd, gl]
    · rw [gd' x hxv, gl' x hxv]
      exact hinv.hlowle x hx ((go' x hxv).mp hox)
  · intro b hb x hx
    cases hpr : stampedPath rest with
    | nil =>
      rw [hpr] at hb
      have hbb : some v = some b :=
        (List.getLast?_singleton v).symm.trans hb
      have hb' : v = b := by injection hbb
      have hdec0' : StackDecomp st.nodes ([] : List Nat) st.sccStack := by
        rw [← hpr]
        exact hdec0
      have hstacknil : st.sccStack = [] := StackDecomp.path_nil hdec0'
      rcases List.mem_cons.mp hx with hx | hx
      · rw [hx, ← hb', gd, gl]
      · rw [hstacknil] at hx
        exact absurd hx (List.not_mem_nil x)
    | cons p0 t =>
      have hb' : (stampedPath rest).getLast? = some b := by
        rw [hpr] at hb ⊢
        rw [List.getLast?_cons_cons] at hb
        exact hb
      have hbmem0 : b ∈ stampedPath rest := getLast?_mem _ _ hb'
      have hbstack : b ∈ st.sccStack := hdec0.subset b hbmem0
      have hbv : b ≠ v := fun hh => hvnotstack (hh ▸ hbstack)
      have hmb := hinv.hbot b (by
        rw [hrs, stampedPath_cons_zero]
        exact hb')
      rw [gd' b hbv]
      rcases List.mem_cons.mp hx with hx | hx
      · rw [hx, gl]
        exact le_of_lt
          (hinv.hdiscLt b (hinv.hmem b hbstack).1 (hinv.hmem b hbstack).2)
      · have hxv : x ≠ v := fun hh => hvnotstack (hh ▸ hx)
        rw [gl' x hxv]
        exact hmb x hx
  · intro u hu hsc ω hsucc
    rw [gsAll u] at hsc
    obtain ⟨q1, q2⟩ := hinv.hE u hu hsc ω hsucc
    refine ⟨?_, ?_⟩
    · rw [gsAll ω]
      exact q1
    · rw [gsAll ω, gsAll u]
      exact q2
  · intro x hx hox hxv hnf ω hsucc
    refine hEO01 x ω hxv (hinv.hG x hx ((go' x hxv).mp hox) ?_ ω hsucc)
    intro jj hjj
    rw [hrs] at hjj
    rcases List.mem_cons.mp hjj with hh | hh
    · exact hxv (congrArg Prod.fst hh)
    · exact hnf jj hh
  · intro x hx
    rcases hinv.hN x hx with hh | hh
    · refine Or.inl ?_
      by_cases hxv : x = v
      · rw [hxv, gd]
        omega
      · rw [gd' x hxv]
        exact hh
    · obtain ⟨jj, hjj⟩ := hh
      rw [hrs] at hjj
      rcases List.mem_cons.mp hjj with hh2 | hh2
      · exact Or.inr (Or.inl (congrArg Prod.fst hh2))
      · exact Or.inr (Or.inr ⟨jj, hh2⟩)
  · show st.sccId + (v :: st.sccStack).length ≤ st.discovered + 1
    simp only [List.length_cons]
    have hh := hinv.hsccb
    omega

/-- One full iteration of the DFS loop, starting from the mid-iteration
invariant: whatever branch the iteration takes, the final state satisfies
the invariant, has an empty recursion stack, and is fully discovered. -/
theorem tarjanStep_core (tempCfg : List (Nat × CfgNode)) (key : Nat → Nat)
    (n : Nat) (hn : n < SENTINEL)
    (htemp : ∀ k node, nfind? tempCfg k = some node → node.sccId < n)
    (fuel : Nat)
    (IH : ∀ st st' : TarjanState, TarjanInv tempCfg key n st →
      tarjanLoop tempCfg fuel st = some st' →
      TarjanInv tempCfg key n st' ∧ st'.recursionStack = [] ∧
      (st.recursionStack = [] → st' = st) ∧
      (st.recursionStack ≠ [] → ∀ x, x < n →
        ndisc st'.nodes x ≠ SENTINEL))
    (v eI : Nat) (rest : List (Nat × Nat))
    (nodes1 : List NodeState) (sccStack1 : List Nat)
    (sccId0 discovered1 nextV0 : Nat)
    (M : MidInv tempCfg key n v eI rest nodes1 sccStack1 sccId0 discovered1
      nextV0)
    (st' : TarjanState)
    (hrun : (do
      let nv1 ← nodes1.get? v
      let cfgNode ← nfind? tempCfg nv1.cfgNode
      match ← tarjanScan tempCfg cfgNode.destinations v nodes1 eI with
      | (nodes2, some (jNext, w)) =>
        tarjanLoop tempCfg fuel
          { nodes := nodes2
            sccStack := sccStack1
            recursionStack := (w, 0) :: (v, jNext) :: rest
            sccId := sccId0
            discovered := discovered1
            nextV := nextV0 }
      | (nodes2, none) => do
        let nv2 ← nodes2.get? v
        let (nodes3, sccStack2, sccId1) ←
          if nv2.discovery = nv2.lowlink then do
            let popped ← sccPop sccId0 v nodes2 sccStack1 0
            pure (popped.1, popped.2, sccId0 + 1)
          else pure (nodes2, sccStack1, sccId0)
        match rest with
        | (w, _) :: _ => do
          let nw ← nodes3.get? w
          let nv3 ← nodes3.get? v
          tarjanLoop tempCfg fuel
            { nodes := nodes3.set w
                { nw with lowlink := min nw.lowlink nv3.lowlink }
              sccStack := sccStack2
              recursionStack := rest
              sccId := sccId1
              discovered := discovered1
              nextV := nextV0 }
        | [] =>
          match findNext nodes3 nextV0 with
          | none =>
            some
              { nodes := nodes3
                sccStack := sccStack2
                recursionStack := []
                sccId := sccId1
                discovered := discovered1
                nextV := nextV0 }
          | some idx =>
            tarjanLoop tempCfg fuel
              { nodes := nodes3
                sccStack := sccStack2
                recursionStack := [(idx, 0)]
                sccId := sccId1
                discovered := discovered1
                nextV := idx + 1 }) = some st') :
    TarjanInv tempCfg key n st' ∧ st'.recursionStack = [] ∧
    (∀ x, x < n → ndisc st'.nodes x ≠ SENTINEL) := by
  simp only [bind, Option.bind_eq_some] at hrun
  obtain ⟨nv1, hnv1, hrun⟩ := hrun
  obtain ⟨cfgNode, hcfgn, hrun⟩ := hrun
  obtain ⟨r, hscan, hrun⟩ := hrun
  have hnv1cfg : nv1.cfgNode = key v := by
    have hh := M.hkey v M.hv
    unfold ncfg at hh
    rw [hnv1] at hh
    exact hh
  have hfk : nfind? tempCfg (key v) = some cfgNode := by
    rw [← hnv1cfg]
    exact hcfgn
  obtain ⟨nodes2, opt⟩ := r
  have hscan' : tarjanScanFrom tempCfg v (cfgNode.destinations.drop eI)
      nodes1 eI = some (nodes2, opt) := hscan
  have hS := tarjanScanFrom_spec tempCfg v (cfgNode.destinations.drop eI)
    nodes1 eI (nodes2, opt) hscan'
    (by rw [M.hlen]; exact M.hv)
    (by
      intro x hx h1 h2
      rw [M.hlen] at hx
      rcases M.hD x hx h1 with hh | hh
      · exact absurd hh h2
      · exact hh)
  cases opt with
  | some p =>
    obtain ⟨jN, w⟩ := p
    have hinv2 := tarjanStep_push tempCfg key n v eI rest nodes1 sccStack1
      sccId0 discovered1 nextV0 M cfgNode hfk nodes2 jN w hS
    obtain ⟨i1, i2, _, i4⟩ := IH _ st' hinv2 hrun
    exact ⟨i1, i2, i4 (List.cons_ne_nil _ _)⟩
  | none =>
    simp only [Option.bind_eq_some] at hrun
    obtain ⟨nv2, hnv2, hrun⟩ := hrun
    have hvd2 : ndisc nodes2 v = nv2.discovery := by
      unfold ndisc
      rw [hnv2]
      rfl
    have hvl2 : nlow nodes2 v = nv2.lowlink := by
      unfold nlow
      rw [hnv2]
      rfl
    by_cases hpop : nv2.discovery = nv2.lowlink
    · rw [if_pos hpop] at hrun
      rw [Option.bind_eq_some] at hrun
      obtain ⟨popped, hpopeq, hrun⟩ := hrun
      rw [Option.bind_eq_some] at hrun
      obtain ⟨trip, htrip, hrun⟩ := hrun
      have htripeq : (popped.1, popped.2, sccId0 + 1) = trip := by
        injection htrip
      subst htripeq
      have hpopc : ndisc nodes2 v = nlow nodes2 v := by
        rw [hvd2, hvl2]
        exact hpop
      obtain ⟨T, S, P⟩ := tarjanStep_popfacts tempCfg key n hn htemp v eI
        rest nodes1 sccStack1 sccId0 discovered1 nextV0 M cfgNode hfk nodes2
        hS hpopc popped hpopeq
      cases rest with
      | cons f0 rest'' =>
        obtain ⟨w2, j2⟩ := f0
        simp only [bind, Option.bind_eq_some] at hrun
        obtain ⟨nw2, hnw2, hrun⟩ := hrun
        obtain ⟨nv3, hnv3, hrun⟩ := hrun
        have hinv2 := tarjanStep_pop_parent tempCfg key n hn htemp v eI w2
          j2 rest'' nodes1 sccStack1 sccId0 discovered1 nextV0 M cfgNode hfk
          nodes2 hS popped T S P nw2 nv3 hnw2 hnv3 _ rfl
        obtain ⟨i1, i2, _, i4⟩ := IH _ st' hinv2 hrun
        exact ⟨i1, i2, i4 (List.cons_ne_nil _ _)⟩
      | nil =>
        obtain ⟨hS0, hdisclow, hmk⟩ := tarjanStep_pop_end tempCfg key n hn
          htemp v eI nodes1 sccStack1 sccId0 discovered1 nextV0 M cfgNode
          hfk nodes2 hS popped T S P
        cases hfn : findNext popped.1 nextV0 with
        | none =>
          simp only [hfn] at hrun
          injection hrun with hrun
          have halld : ∀ x, x < n → ndisc popped.1 x ≠ SENTINEL := by
            intro x hx
            by_cases hxv : x < nextV0
            · exact hdisclow x hxv
            · have hfnspec :=
                (findNextFrom_spec (popped.1.drop nextV0) nextV0).1 hfn
              obtain ⟨nd, hnd⟩ := get?_lt popped.1 x
                (by rw [P.hlen3]; exact hx)
              have hrel : (popped.1.drop nextV0).get? (x - nextV0) =
                  some nd := by
                rw [List.get?_drop]
                have harith : nextV0 + (x - nextV0) = x := by omega
                rw [harith]
                exact hnd
              have hh := hfnspec (x - nextV0) nd hrel
              unfold ndisc
              rw [hnd]
              exact hh
          have hinv2 := hmk [] nextV0 trivial
            (fun b hb => Option.noConfusion hb)
            (fun x hx => Or.inl (hdisclow x hx))
          rw [← hrun]
          exact ⟨hinv2, rfl, halld⟩
        | some idx =>
          simp only [hfn] at hrun
          obtain ⟨hidx1, hidx2, ⟨nd, hndrel, hndS⟩, hpref⟩ :=
            (findNextFrom_spec (popped.1.drop nextV0) nextV0).2 idx hfn
          have hdroplen : (popped.1.drop nextV0).length = n - nextV0 := by
            rw [List.length_drop, P.hlen3]
          rw [hdroplen] at hidx2
          have hidxn : idx < n := by omega
          have hidxdisc : ndisc popped.1 idx = SENTINEL := by
            rw [List.get?_drop] at hndrel
            have harith : nextV0 + (idx - nextV0) = idx := by omega
            rw [harith] at hndrel
            unfold ndisc
            rw [hndrel]
            exact hndS
          have hfr : FramesOK tempCfg key n popped.1 [(idx, 0)] :=
            ⟨hidxn, hidxdisc, trivial⟩
          have hbot2 : ∀ b,
              (stampedPath [((idx : Nat), (0 : Nat))]).getLast? = some b →
              False :=
            fun b hb => Option.noConfusion hb
          have hN2 : ∀ x, x < idx + 1 → ndisc popped.1 x ≠ SENTINEL ∨
              ∃ j, (x, j) ∈ [((idx : Nat), (0 : Nat))] := by
            intro x hx
            by_cases hx1 : x < nextV0
            · exact Or.inl (hdisclow x hx1)
            · by_cases hx2 : x = idx
              · exact Or.inr ⟨0,
                  by rw [hx2]; exact List.mem_cons_self _ _⟩
              · refine Or.inl ?_
                obtain ⟨ndx, hndx⟩ := get?_lt popped.1 x
                  (by rw [P.hlen3]; omega)
                have hrel : (popped.1.drop nextV0).get? (x - nextV0) =
                    some ndx := by
                  rw [List.get?_drop]
                  have harith : nextV0 + (x - nextV0) = x := by omega
                  rw [harith]
                  exact hndx
                have hh := hpref (x - nextV0) ndx (by omega) hrel
                unfold ndisc
                rw [hndx]
                exact hh
          have hinv2 := hmk [(idx, 0)] (idx + 1) hfr hbot2 hN2
          obtain ⟨i1, i2, _, i4⟩ := IH _ st' hinv2 hrun
          exact ⟨i1, i2, i4 (List.cons_ne_nil _ _)⟩
    · rw [if_neg hpop] at hrun
      rw [Option.bind_eq_some] at hrun
      obtain ⟨trip, htrip, hrun⟩ := hrun
      have htripeq : ((nodes2, sccStack1, sccId0) :
          List NodeState × List Nat × Nat) = trip := by
        injection htrip
      subst htripeq
      cases rest with
      | nil =>
        exfalso
        have hforce := tarjanStep_nopop_forced tempCfg key n v eI nodes1
          sccStack1 sccId0 discovered1 nextV0 M cfgNode nodes2 hS
        rw [hvd2, hvl2] at hforce
        exact hpop hforce
      | cons f0 rest'' =>
        obtain ⟨w2, j2⟩ := f0
        simp only [bind, Option.bind_eq_some] at hrun
        obtain ⟨nw2, hnw2, hrun⟩ := hrun
        obtain ⟨nv3, hnv3, hrun⟩ := hrun
        have hinv2 := tarjanStep_nopop_parent tempCfg key n hn htemp v eI
          w2 j2 rest'' nodes1 sccStack1 sccId0 discovered1 nextV0 M cfgNode
          hfk nodes2 hS nw2 nv3 hnw2 hnv3 _ rfl
        obtain ⟨i1, i2, _, i4⟩ := IH _ st' hinv2 hrun
        exact ⟨i1, i2, i4 (List.cons_ne_nil _ _)⟩

/-- The grand induction on fuel: from any state satisfying the Tarjan
invariant, a successful run of the fueled DFS loop ends in an invariant
state with an empty recursion stack, and — when it started mid-DFS with a
non-empty recursion stack — every node ends discovered. -/
theorem tarjanLoop_inv (tempCfg : List (Nat × CfgNode)) (key : Nat → Nat)
    (n : Nat) (hn : n < SENTINEL)
    (htemp : ∀ k node, nfind? tempCfg k = some node → node.sccId < n) :
    ∀ fuel st st', TarjanInv tempCfg key n st →
      tarjanLoop tempCfg fuel st = some st' →
      TarjanInv tempCfg key n st' ∧ st'.recursionStack = [] ∧
      (st.recursionStack = [] → st' = st) ∧
      (st.recursionStack ≠ [] → ∀ x, x < n →
        ndisc st'.nodes x ≠ SENTINEL) := by
  intro fuel
  induction fuel with
  | zero =>
    intro st st' _ hrun
    exact Option.noConfusion hrun
  | succ fuel ih =>
    intro st st' hinv hrun
    simp only [tarjanLoop] at hrun
    cases hrs : st.recursionStack with
    | nil =>
      simp only [hrs] at hrun
      injection hrun with hrun
      subst hrun
      exact ⟨hinv, hrs, fun _ => rfl, fun hne => absurd rfl hne⟩
    | cons f rest =>
      obtain ⟨v, eI⟩ := f
      simp only [hrs] at hrun
      rw [show (bind : Option NodeState →
          (NodeState → Option TarjanState) → Option TarjanState) =
          Option.bind from rfl, Option.bind_eq_some] at hrun
      obtain ⟨nv0, hnv0, hrun⟩ := hrun
      cases eI with
      | zero =>
        rw [if_pos rfl] at hrun
        have M := midInv_of_fresh tempCfg key n hn st v rest hinv hrs nv0
          hnv0 _ rfl
        have hcore := tarjanStep_core tempCfg key n hn htemp fuel ih v 0
          rest _ _ _ _ _ M st' (by
            cases rest with
            | nil => exact hrun
            | cons f2 t2 => exact hrun)
        exact ⟨hcore.1, hcore.2.1,
          fun hemp => absurd hemp (List.cons_ne_nil _ _),
          fun _ => hcore.2.2⟩
      | succ j =>
        rw [if_neg (Nat.succ_ne_zero j)] at hrun
        have M := midInv_of_resumed tempCfg key n st v j rest hinv hrs
        have hcore := tarjanStep_core tempCfg key n hn htemp fuel ih v
          (j + 1) rest _ _ _ _ _ M st' (by
            cases rest with
            | nil => exact hrun
            | cons f2 t2 => exact hrun)
        exact ⟨hcore.1, hcore.2.1,
          fun hemp => absurd hemp (List.cons_ne_nil _ _),
          fun _ => hcore.2.2⟩

/-! Strict sortedness of the block-key list through the split pipeline:
`BTreeMap` iteration order is ascending, so the association-list embedding
keeps its keys strictly sorted under every insertion. -/

theorem mem_nkeys_nset {β : Type} (k : Nat) (v : β) (m : List (Nat × β))
    (j : Nat) (hj : j ∈ nkeys (nset k v m)) : j = k ∨ j ∈ nkeys m := by
  unfold nkeys at hj
  rw [List.mem_map] at hj
  obtain ⟨p, hp, hpj⟩ := hj
  rcases mem_nset_elim k v m p hp with h | h
  · exact Or.inr (by rw [← hpj]; exact List.mem_map_of_mem _ h)
  · rw [h] at hpj
    exact Or.inl hpj.symm

theorem nkeys_sorted_nset {β : Type} (k : Nat) (v : β) :
    ∀ m : List (Nat × β), List.Pairwise (· < ·) (nkeys m) →
      List.Pairwise (· < ·) (nkeys (nset k v m)) := by
  intro m
  induction m with
  | nil => intro _; exact List.pairwise_singleton _ k
  | cons q t ih =>
    intro hp
    obtain ⟨k', v'⟩ := q
    have hp' : List.Pairwise (· < ·) (k' :: nkeys t) := hp
    rw [List.pairwise_cons] at hp'
    obtain ⟨hk', ht⟩ := hp'
    by_cases h1 : k < k'
    · rw [show nset k v ((k', v') :: t) = (k, v) :: (k', v') :: t from by
        simp [nset, h1]]
      show List.Pairwise (· < ·) (k :: k' :: nkeys t)
      rw [List.pairwise_cons]
      refine ⟨?_, hp⟩
      intro b hb
      rcases List.mem_cons.mp hb with hb | hb
      · rw [hb]; exact h1
      · exact lt_trans h1 (hk' b hb)
    · by_cases h2 : k = k'
      · rw [show nset k v ((k', v') :: t) = (k, v) :: t from by
          simp [nset, h1, h2]]
        show List.Pairwise (· < ·) (k :: nkeys t)
        rw [List.pairwise_cons]
        exact ⟨fun b hb => by rw [h2]; exact hk' b hb, ht⟩
      · rw [show nset k v ((k', v') :: t) = (k', v') :: nset k v t from by
          simp [nset, h1, h2]]
        show List.Pairwise (· < ·) (k' :: nkeys (nset k v t))
        rw [List.pairwise_cons]
        refine ⟨?_, ih ht⟩
        intro b hb
        rcases mem_nkeys_nset k v t b hb with hb | hb
        · rw [hb]; omega
        · exact hk' b hb

theorem nkeys_sorted_ninsertIfAbsent {β : Type} (k : Nat) (v : β)
    (m : List (Nat × β)) (h : List.Pairwise (· < ·) (nkeys m)) :
    List.Pairwise (· < ·) (nkeys (ninsertIfAbsent k v m)) := by
  unfold ninsertIfAbsent
  by_cases hc : ncontains m k = true
  · rw [if_pos hc]; exact h
  · rw [if_neg hc]; exact nkeys_sorted_nset k v m h

theorem collectEdges_nodes_sorted (exe : Exe) (fc : Bool) (insn : Insn)
    (st : List (Nat × CfgNode) × List (Nat × (Nat × List Nat)))
    (hv : List.Pairwise (· < ·) (nkeys st.1)) :
    List.Pairwise (· < ·) (nkeys (collectEdges exe fc insn st).1) := by
  have hone : ∀ (k : Nat) (m : List (Nat × CfgNode)),
      List.Pairwise (· < ·) (nkeys m) →
      List.Pairwise (· < ·) (nkeys (ninsertIfAbsent k CfgNode.default m)) :=
    fun k m hm => nkeys_sorted_ninsertIfAbsent k CfgNode.default m hm
  unfold collectEdges
  dsimp only
  split
  · split
    · split
      · exact hone _ _ hv
      · exact hv
    · split
      · exact hone _ _ (hone _ _ hv)
      · exact hv
  · split
    · exact hone _ _ hv
    · split
      · exact hone _ _ hv
      · split
        · exact hone _ _ (hone _ _ hv)
        · split
          · exact hone _ _ (hone _ _ hv)
          · exact hv

theorem scanned_nodes_sorted (exe : Exe) (fc : Bool) :
    ∀ (insns : List Insn)
      (st : List (Nat × CfgNode) × List (Nat × (Nat × List Nat))),
      List.Pairwise (· < ·) (nkeys st.1) →
      List.Pairwise (· < ·)
        (nkeys
          (insns.foldl (fun st insn => collectEdges exe fc insn st) st).1) := by
  intro insns
  induction insns with
  | nil => intro st hv; exact hv
  | cons i t ih =>
    intro st hv
    rw [List.foldl_cons]
    exact ih _ (collectEdges_nodes_sorted exe fc i st hv)

theorem foldl_ninsert_sorted :
    ∀ (fns : List (Nat × (Nat × String))) (m : List (Nat × CfgNode)),
      List.Pairwise (· < ·) (nkeys m) →
      List.Pairwise (· < ·)
        (nkeys
          (fns.foldl (fun m q => ninsertIfAbsent q.1 CfgNode.default m) m)) := by
  intro fns
  induction fns with
  | nil => intro m hv; exact hv
  | cons q t ih =>
    intro m hv
    rw [List.foldl_cons]
    exact ih _ (nkeys_sorted_ninsertIfAbsent q.1 CfgNode.default m hv)

theorem splitNodes2_keys_sorted (exe : Exe) (a : Analysis) (fc : Bool)
    (h0 : a.cfgNodes = []) :
    List.Pairwise (· < ·) (nkeys (splitNodes2 exe a fc)) := by
  have h1 : List.Pairwise (· < ·) (nkeys (splitNodes0 a)) := by
    unfold splitNodes0
    rw [h0]
    exact foldl_ninsert_sorted a.functions [] List.Pairwise.nil
  have h2 : List.Pairwise (· < ·) (nkeys (splitScanned exe a fc).1) :=
    scanned_nodes_sorted exe fc a.instructions _ h1
  unfold splitNodes2
  have hsub : List.Sublist
      (nkeys ((splitScanned exe a fc).1.filter
        (fun p => isInsnPtr a.instructions p.1)))
      (nkeys (splitScanned exe a fc).1) :=
    List.Sublist.map Prod.fst (List.filter_sublist _)
  exact h2.sublist hsub

/-- After the split and labelling, the block keys are strictly sorted. -/
theorem a2_keys_sorted (exe : Exe) (a1 : Analysis)
    (h : analysisAfterSplit exe = some a1) :
    List.Pairwise (· < ·) (nkeys (labelBasicBlocks a1).cfgNodes) := by
  have hk := (afterSplit_keys exe a1 h).1
  have hlab : nkeys (labelBasicBlocks a1).cfgNodes = nkeys a1.cfgNodes := by
    show nkeys (a1.cfgNodes.map _) = _
    unfold nkeys
    rw [List.map_map]
    rfl
  rw [hlab, hk]
  exact splitNodes2_keys_sorted exe (initialAnalysis exe) false rfl

/-! Positional lookup characterization of the temporary index-keyed node
map built at the top of `control_flow_graph_tarjan`. -/

theorem nfind?_mem {β : Type} :
    ∀ (m : List (Nat × β)) (k : Nat) (v : β),
      nfind? m k = some v → (k, v) ∈ m := by
  intro m
  induction m with
  | nil => intro k v h; exact Option.noConfusion h
  | cons q t ih =>
    intro k v h
    obtain ⟨k', v'⟩ := q
    by_cases hk : k = k'
    · subst hk
      rw [nfind?_cons_self] at h
      injection h with h
      rw [← h]
      exact List.mem_cons_self _ _
    · rw [nfind?_cons_ne k k' v' t hk] at h
      exact List.mem_cons_of_mem _ (ih k v h)

theorem nfind?_of_get? {β : Type} :
    ∀ m : List (Nat × β), (nkeys m).Nodup →
      ∀ (i k : Nat) (v : β), m.get? i = some (k, v) →
        nfind? m k = some v := by
  intro m
  induction m with
  | nil =>
    intro _ i k v h
    rw [List.get?_nil] at h
    exact Option.noConfusion h
  | cons q t ih =>
    intro hnd i k v h
    obtain ⟨k', v'⟩ := q
    have hnd' : k' ∉ nkeys t ∧ (nkeys t).Nodup := by
      rw [show nkeys ((k', v') :: t) = k' :: nkeys t from rfl,
        List.nodup_cons] at hnd
      exact hnd
    cases i with
    | zero =>
      rw [List.get?_cons_zero] at h
      injection h with h
      have h1 : k' = k := congrArg Prod.fst h
      have h2 : v' = v := congrArg Prod.snd h
      rw [← h1, ← h2]
      exact nfind?_cons_self k' v' t
    | succ i =>
      rw [List.get?_cons_succ] at h
      have hkt : k ∈ nkeys t := by
        unfold nkeys
        rw [List.mem_map]
        exact ⟨(k, v), List.get?_mem h, rfl⟩
      have hkk : k ≠ k' := fun hh => hnd'.1 (hh ▸ hkt)
      rw [nfind?_cons_ne k k' v' t hkk]
      exact ih hnd'.2 i k v h

theorem tarjanTempCfg_get? (a : Analysis) (i : Nat) :
    (tarjanTempCfg a).get? i =
      (a.cfgNodes.get? i).map
        (fun p => (p.1, { p.2 with sccId := i })) := by
  unfold tarjanTempCfg
  rw [List.get?_map, List.get?_enum]
  cases a.cfgNodes.get? i <;> rfl

theorem nkeys_tarjanTempCfg (a : Analysis) :
    nkeys (tarjanTempCfg a) = nkeys a.cfgNodes := by
  unfold tarjanTempCfg nkeys
  rw [List.map_map]
  conv_rhs => rw [(List.enum_map_snd a.cfgNodes).symm]
  rw [List.map_map]
  rfl

theorem tarjanTempCfg_sccId_lt (a : Analysis) (k : Nat) (node : CfgNode)
    (h : nfind? (tarjanTempCfg a) k = some node) :
    node.sccId < a.cfgNodes.length := by
  have hm := nfind?_mem _ k node h
  obtain ⟨i, hi⟩ := List.mem_iff_get?.mp hm
  rw [tarjanTempCfg_get?] at hi
  cases hc : a.cfgNodes.get? i with
  | none => rw [hc] at hi; exact Option.noConfusion hi
  | some p =>
    rw [hc] at hi
    injection hi with hi
    have h2 : ({ p.2 with sccId := i } : CfgNode) = node :=
      congrArg Prod.snd hi
    have hs : node.sccId = i := by rw [← h2]
    rw [hs]
    obtain ⟨hlt, _⟩ := List.get?_eq_some.mp hc
    exact hlt

theorem tarjanTempCfg_find (a : Analysis) (hnd : (nkeys a.cfgNodes).Nodup)
    (i k : Nat) (orig : CfgNode)
    (h : a.cfgNodes.get? i = some (k, orig)) :
    nfind? (tarjanTempCfg a) k = some { orig with sccId := i } := by
  have hg : (tarjanTempCfg a).get? i =
      some (k, { orig with sccId := i }) := by
    rw [tarjanTempCfg_get?, h]
    rfl
  have hnd2 : (nkeys (tarjanTempCfg a)).Nodup := by
    rw [nkeys_tarjanTempCfg]; exact hnd
  exact nfind?_of_get? _ hnd2 i k _ hg

/-! The fresh DFS bookkeeping states and the initial loop invariant. -/

theorem tarjanNodes0_length (a : Analysis) :
    (tarjanNodes0 a).length = a.cfgNodes.length := List.length_map _ _

theorem tarjanNodes0_get? (a : Analysis) (i : Nat) :
    (tarjanNodes0 a).get? i =
      (a.cfgNodes.get? i).map
        (fun p =>
          ({ cfgNode := p.1, discovery := SENTINEL, lowlink := SENTINEL,
             sccId := SENTINEL, isOnSccStack := false } : NodeState)) := by
  unfold tarjanNodes0
  rw [List.get?_map]

theorem tarjanNodes0_ndisc (a : Analysis) (x : Nat) :
    ndisc (tarjanNodes0 a) x = SENTINEL := by
  unfold ndisc
  rw [tarjanNodes0_get?]
  cases a.cfgNodes.get? x <;> rfl

theorem tarjanNodes0_nscc (a : Analysis) (x : Nat) :
    nscc (tarjanNodes0 a) x = SENTINEL := by
  unfold nscc
  rw [tarjanNodes0_get?]
  cases a.cfgNodes.get? x <;> rfl

theorem tarjanNodes0_ncfg (a : Analysis) (x : Nat) :
    ncfg (tarjanNodes0 a) x = tarjanKey a x := by
  unfold ncfg tarjanKey
  rw [tarjanNodes0_get?]
  cases a.cfgNodes.get? x <;> rfl

theorem tarjanNodes0_nonStack (a : Analysis) (x : Nat) :
    ¬nonStack (tarjanNodes0 a) x := by
  intro h
  unfold nonStack at h
  rw [tarjanNodes0_get?] at h
  cases hc : a.cfgNodes.get? x with
  | none => rw [hc] at h; exact Bool.noConfusion h
  | some p => rw [hc] at h; exact Bool.noConfusion h

theorem countD_tarjanNodes0 (a : Analysis) :
    countD (tarjanNodes0 a) = 0 := by
  unfold countD
  rw [List.countP_eq_zero]
  intro nd hnd
  unfold tarjanNodes0 at hnd
  rw [List.mem_map] at hnd
  obtain ⟨p, _, hp⟩ := hnd
  rw [← hp]
  simp

/-- The Tarjan invariant holds at the loop's initial state. -/
theorem tarjanInv_init (a : Analysis) (n : Nat)
    (hn : a.cfgNodes.length = n) (hpos : 0 < n) :
    TarjanInv (tarjanTempCfg a) (tarjanKey a) n
      { nodes := tarjanNodes0 a
        sccStack := []
        recursionStack := [(0, 0)]
        sccId := 0
        discovered := 0
        nextV := 1 } := by
  refine
    { hlen := by rw [tarjanNodes0_length, hn]
      hkey := fun x _ => tarjanNodes0_ncfg a x
      hframes := ⟨hpos, tarjanNodes0_ndisc a 0, trivial⟩
      hdecomp := ?_
      hnodup := List.nodup_nil
      hmem := fun w hw => absurd hw (List.not_mem_nil w)
      honmem := fun x _ hx => absurd hx (tarjanNodes0_nonStack a x)
      hsorted := List.Pairwise.nil
      hA := fun x _ hx => absurd (tarjanNodes0_nscc a x) hx
      hOn := fun x _ hx => absurd hx (tarjanNodes0_nonStack a x)
      hD := fun x _ hx => absurd (tarjanNodes0_ndisc a x) hx
      hcount := (countD_tarjanNodes0 a).symm
      hdiscLt := fun x _ hx => absurd hx (tarjanNodes0_nonStack a x)
      hlowle := fun x _ hx => absurd hx (tarjanNodes0_nonStack a x)
      hbot := ?_
      hE := fun v _ hv => absurd (tarjanNodes0_nscc a v) hv
      hG := fun x _ hx => absurd hx (tarjanNodes0_nonStack a x)
      hN := ?_
      hsccb := Nat.le_refl 0 }
  · show StackDecomp _ (stampedPath [(0, 0)]) []
    have h0 : stampedPath [((0 : Nat), (0 : Nat))] = [] := rfl
    rw [h0]
    exact StackDecomp.nil
  · intro b hb
    have h0 : stampedPath [((0 : Nat), (0 : Nat))] = [] := rfl
    rw [h0] at hb
    exact absurd hb (by simp)
  · intro x hx
    have hx1 : x < 1 := hx
    have hx0 : x = 0 := by omega
    exact Or.inr ⟨0, by rw [hx0]; exact List.mem_cons_self _ _⟩

/-! The write-back loop: every block receives the `scc_id` and
`index_in_scc` of its own DFS bookkeeping state, and nothing else moves. -/

theorem writeBackFold_none (l : List NodeState) :
    l.foldl
      (fun (acc : Option (List (Nat × CfgNode))) (node : NodeState) =>
        match acc with
        | none => none
        | some m =>
          nmodify? node.cfgNode
            (fun cfgNode =>
              { cfgNode with
                sccId := node.sccId, indexInScc := node.discovery })
            m)
      none = none := by
  induction l with
  | nil => rfl
  | cons nd t ih =>
    rw [List.foldl_cons]
    exact ih

theorem writeBackFold_keys :
    ∀ (l : List NodeState) (m0 m' : List (Nat × CfgNode)),
      l.foldl
        (fun acc node =>
          match acc with
          | none => none
          | some m =>
            nmodify? node.cfgNode
              (fun cfgNode =>
                { cfgNode with
                  sccId := node.sccId, indexInScc := node.discovery })
              m)
        (some m0) = some m' →
      nkeys m' = nkeys m0 := by
  intro l
  induction l with
  | nil =>
    intro m0 m' h
    injection h with h
    rw [h]
  | cons nd t ih =>
    intro m0 m' h
    simp only [List.foldl_cons] at h
    cases hm1 : nmodify? nd.cfgNode
        (fun cfgNode =>
          { cfgNode with
            sccId := nd.sccId, indexInScc := nd.discovery }) m0 with
    | none =>
      rw [hm1, writeBackFold_none t] at h
      exact Option.noConfusion h
    | some m1 =>
      rw [hm1] at h
      rw [ih m1 m' h]
      exact nkeys_nmodify? _ _ _ _ hm1

theorem writeBackFold_frame :
    ∀ (l : List NodeState) (m0 m' : List (Nat × CfgNode)),
      l.foldl
        (fun acc node =>
          match acc with
          | none => none
          | some m =>
            nmodify? node.cfgNode
              (fun cfgNode =>
                { cfgNode with
                  sccId := node.sccId, indexInScc := node.discovery })
              m)
        (some m0) = some m' →
      ∀ k, (∀ node ∈ l, node.cfgNode ≠ k) →
        nfind? m' k = nfind? m0 k := by
  intro l
  induction l with
  | nil =>
    intro m0 m' h k _
    injection h with h
    rw [h]
  | cons nd t ih =>
    intro m0 m' h k hk
    simp only [List.foldl_cons] at h
    cases hm1 : nmodify? nd.cfgNode
        (fun cfgNode =>
          { cfgNode with
            sccId := nd.sccId, indexInScc := nd.discovery }) m0 with
    | none =>
      rw [hm1, writeBackFold_none t] at h
      exact Option.noConfusion h
    | some m1 =>
      rw [hm1] at h
      rw [ih m1 m' h k (fun node hn => hk node (List.mem_cons_of_mem _ hn)),
        nfind?_nmodify? _ _ _ _ hm1 k,
        if_neg (fun hh => hk nd (List.mem_cons_self _ _) hh.symm)]

theorem writeBackFold_hit :
    ∀ (l : List NodeState) (m0 m' : List (Nat × CfgNode)),
      (l.map NodeState.cfgNode).Nodup →
      l.foldl
        (fun acc node =>
          match acc with
          | none => none
          | some m =>
            nmodify? node.cfgNode
              (fun cfgNode =>
                { cfgNode with
                  sccId := node.sccId, indexInScc := node.discovery })
              m)
        (some m0) = some m' →
      ∀ node ∈ l, ∀ tv, nfind? m0 node.cfgNode = some tv →
        nfind? m' node.cfgNode =
          some { tv with
            sccId := node.sccId, indexInScc := node.discovery } := by
  intro l
  induction l with
  | nil =>
    intro m0 m' _ _ node hn
    exact absurd hn (List.not_mem_nil node)
  | cons nd t ih =>
    intro m0 m' hnd h node hn tv htv
    simp only [List.foldl_cons] at h
    rw [List.map_cons, List.nodup_cons] at hnd
    obtain ⟨hnd1, hnd2⟩ := hnd
    cases hm1 : nmodify? nd.cfgNode
        (fun cfgNode =>
          { cfgNode with
            sccId := nd.sccId, indexInScc := nd.discovery }) m0 with
    | none =>
      rw [hm1, writeBackFold_none t] at h
      exact Option.noConfusion h
    | some m1 =>
      rw [hm1] at h
      rcases List.mem_cons.mp hn with hcase | hcase
      · subst hcase
        have hfr := writeBackFold_frame t m1 m' h node.cfgNode
          (fun q hq hh =>
            hnd1 (by rw [← hh]; exact List.mem_map_of_mem _ hq))
        have hfind1 : nfind? m1 node.cfgNode =
            some { tv with
              sccId := node.sccId, indexInScc := node.discovery } := by
          rw [nfind?_nmodify? _ _ _ _ hm1, if_pos rfl, htv]
          rfl
        rw [hfr]
        exact hfind1
      · have hne : node.cfgNode ≠ nd.cfgNode := fun hh =>
          hnd1 (hh ▸ List.mem_map_of_mem NodeState.cfgNode hcase)
        have htv1 : nfind? m1 node.cfgNode = some tv := by
          rw [nfind?_nmodify? _ _ _ _ hm1, if_neg hne]
          exact htv
        exact ih m1 m' hnd2 h node hcase tv htv1

/-- What the write-back produces at each key: the block keeps its
split-time `destinations` and takes the `scc_id` of its own DFS
bookkeeping state. -/
theorem tarjan_writeback_node (a : Analysis) (stf : TarjanState)
    (cfgNodes' : List (Nat × CfgNode))
    (hnd : (nkeys a.cfgNodes).Nodup)
    (hlen : stf.nodes.length = a.cfgNodes.length)
    (hkey : ∀ x, x < a.cfgNodes.length →
      ncfg stf.nodes x = tarjanKey a x)
    (hwb : tarjanWriteBack (tarjanTempCfg a) stf.nodes = some cfgNodes')
    (u : Nat) (nu : CfgNode) (hu : nfind? cfgNodes' u = some nu) :
    ∃ i, i < a.cfgNodes.length ∧ tarjanKey a i = u ∧
      nu.sccId = nscc stf.nodes i ∧
      ∃ orig, a.cfgNodes.get? i = some (u, orig) ∧
        nu.destinations = orig.destinations := by
  unfold tarjanWriteBack at hwb
  have hmap : stf.nodes.map NodeState.cfgNode = nkeys a.cfgNodes := by
    refine List.ext_get? ?_
    intro i
    rw [List.get?_map]
    by_cases hi : i < a.cfgNodes.length
    · obtain ⟨nsi, hnsi⟩ := get?_lt stf.nodes i (by rw [hlen]; exact hi)
      obtain ⟨p, hp⟩ := get?_lt a.cfgNodes i hi
      have hk := hkey i hi
      unfold ncfg at hk
      rw [hnsi] at hk
      unfold tarjanKey at hk
      rw [hp] at hk
      rw [hnsi]
      show some nsi.cfgNode = (nkeys a.cfgNodes).get? i
      unfold nkeys
      rw [List.get?_map, hp]
      show some nsi.cfgNode = some p.1
      rw [show nsi.cfgNode = p.1 from hk]
    · have h1 : stf.nodes.get? i = none :=
        List.get?_eq_none.mpr (by rw [hlen]; omega)
      have h2 : (nkeys a.cfgNodes).get? i = none :=
        List.get?_eq_none.mpr (by
          show (a.cfgNodes.map Prod.fst).length ≤ i
          rw [List.length_map]
          omega)
      rw [h1, h2]
      rfl
  have hnodupc : (stf.nodes.map NodeState.cfgNode).Nodup := by
    rw [hmap]; exact hnd
  have hukeys : u ∈ nkeys a.cfgNodes := by
    have h1 : u ∈ nkeys cfgNodes' := by
      rw [← nfind?_mem_keys, hu]
      rfl
    rw [writeBackFold_keys stf.nodes _ _ hwb, nkeys_tarjanTempCfg] at h1
    exact h1
  obtain ⟨p, hpmem, hpu⟩ := List.mem_map.mp hukeys
  obtain ⟨pk, porig⟩ := p
  have hpk : pk = u := hpu
  rw [hpk] at hpmem
  obtain ⟨i, hgi⟩ := List.mem_iff_get?.mp hpmem
  obtain ⟨hilt, _⟩ := List.get?_eq_some.mp hgi
  obtain ⟨nsi, hnsi⟩ := get?_lt stf.nodes i (by rw [hlen]; exact hilt)
  have hnsicfg : nsi.cfgNode = u := by
    have hk := hkey i hilt
    unfold ncfg at hk
    rw [hnsi] at hk
    unfold tarjanKey at hk
    rw [hgi] at hk
    exact hk
  have htmp : nfind? (tarjanTempCfg a) u = some { porig with sccId := i } :=
    tarjanTempCfg_find a hnd i u porig hgi
  have hhit := writeBackFold_hit stf.nodes _ cfgNodes' hnodupc hwb nsi
    (List.get?_mem hnsi) { porig with sccId := i }
    (by rw [hnsicfg]; exact htmp)
  rw [hnsicfg, hu] at hhit
  injection hhit with hhit
  refine ⟨i, hilt, ?_, ?_, porig, hgi, ?_⟩
  · unfold tarjanKey
    rw [hgi]
    rfl
  · rw [hhit]
    unfold nscc
    rw [hnsi]
    rfl
  · rw [hhit]

/-- Every destination edge of the final CFG lands in an SCC whose id is at
most the source's: the Tarjan pass assigns `scc_id`s in reverse
topological order, so cross-SCC edges strictly decrease `scc_id`. -/
theorem tarjan_edges_le (exe : Exe) (fuel : Nat) (a1 a3 : Analysis)
    (ha1 : analysisAfterSplit exe = some a1)
    (htj : controlFlowGraphTarjan fuel (labelBasicBlocks a1) = some a3)
    (hlt : a3.cfgNodes.length < SENTINEL) :
    ∀ u nu, nfind? a3.cfgNodes u = some nu →
      ∀ d ∈ nu.destinations, ∀ nd, nfind? a3.cfgNodes d = some nd →
        nd.sccId ≤ nu.sccId := by
  intro u nu hu d hd nd hnd0
  unfold controlFlowGraphTarjan at htj
  split at htj
  · next hemp =>
    have ha : labelBasicBlocks a1 = a3 := by injection htj
    rw [← ha, List.isEmpty_iff.mp hemp] at hu
    exact Option.noConfusion hu
  · next hemp =>
    split at htj
    · exact absurd htj (by simp)
    · next stf hloop =>
      split at htj
      · exact absurd htj (by simp)
      · next cfgNodes' hwb =>
        injection htj with htj
        have hcfg3 : a3.cfgNodes = cfgNodes' := by rw [← htj]
        rw [hcfg3] at hu hnd0 hlt
        have hnd : (nkeys (labelBasicBlocks a1).cfgNodes).Nodup :=
          (a2_keys_sorted exe a1 ha1).imp Nat.ne_of_lt
        have hkeys' : nkeys cfgNodes' =
            nkeys (labelBasicBlocks a1).cfgNodes := by
          have h1 := writeBackFold_keys stf.nodes _ _
            (by unfold tarjanWriteBack at hwb; exact hwb)
          rw [nkeys_tarjanTempCfg] at h1
          exact h1
        have hnlt : (labelBasicBlocks a1).cfgNodes.length < SENTINEL := by
          have h1 : cfgNodes'.length =
              (labelBasicBlocks a1).cfgNodes.length := by
            have h2 := congrArg List.length hkeys'
            unfold nkeys at h2
            rw [List.length_map, List.length_map] at h2
            exact h2
          omega
        have hpos : 0 < (labelBasicBlocks a1).cfgNodes.length := by
          rw [List.length_pos]
          intro hnil
          exact hemp (by rw [hnil]; rfl)
        have hinv0 := tarjanInv_init (labelBasicBlocks a1) _ rfl hpos
        obtain ⟨finv, hrs0, _, halld⟩ :=
          tarjanLoop_inv (tarjanTempCfg (labelBasicBlocks a1))
            (tarjanKey (labelBasicBlocks a1)) _ hnlt
            (fun k node h =>
              tarjanTempCfg_sccId_lt (labelBasicBlocks a1) k node h)
            fuel _ stf hinv0 hloop
        have halldisc := halld (List.cons_ne_nil _ _)
        have hstk : stf.sccStack = [] := by
          have hdec := finv.hdecomp
          rw [hrs0] at hdec
          exact StackDecomp.path_nil hdec
        have hassigned : ∀ x,
            x < (labelBasicBlocks a1).cfgNodes.length →
            nscc stf.nodes x ≠ SENTINEL := by
          intro x hx
          rcases finv.hD x hx (halldisc x hx) with hcase | hcase
          · exact absurd (finv.honmem x hx hcase)
              (by rw [hstk]; exact List.not_mem_nil x)
          · exact hcase
        obtain ⟨i, hilt, hkeyi, hsccu, origu, hgetu, hdestu⟩ :=
          tarjan_writeback_node (labelBasicBlocks a1) stf cfgNodes' hnd
            finv.hlen finv.hkey hwb u nu hu
        obtain ⟨m, hmlt, hkeym, hsccd, origd, hgetd, hdestd⟩ :=
          tarjan_writeback_node (labelBasicBlocks a1) stf cfgNodes' hnd
            finv.hlen finv.hkey hwb d nd hnd0
        have hsucc : tSuccIdx (tarjanTempCfg (labelBasicBlocks a1))
            (tarjanKey (labelBasicBlocks a1)) i m := by
          refine ⟨{ origu with sccId := i }, ?_, d, ?_,
            { origd with sccId := m }, ?_, rfl⟩
          · rw [hkeyi]
            exact tarjanTempCfg_find _ hnd i u origu hgetu
          · show d ∈ origu.destinations
            rw [← hdestu]
            exact hd
          · exact tarjanTempCfg_find _ hnd m d origd hgetd
        have hle := (finv.hE i hilt (hassigned i hilt) m hsucc).2
        rw [hsccd, hsccu]
        exact hle

/-- Claim C3 (amended): after `control_flow_graph_tarjan`,
`topological_order` is exactly the list of block keys sorted by the
lexicographic comparator `(scc_id descending, index_in_scc descending)` —
a permutation of the keys in which no earlier block compares strictly
greater than a later one under `control_flow_graph_order`.  Moreover the
`scc_id`s are reverse-topological on the SCC DAG: as long as the block
count stays below `usize::MAX`, every destination edge of the final CFG
lands in an SCC with an id at most the source's, and along a cross-SCC
edge the source appears strictly before the target in
`topological_order`.  (The original claim's "index_in_scc is the
discovery order inside its SCC" is false — it is the reverse of the
discovery order, the SCC-stack pop order; see the counterexample.) -/
theorem claim_C3_amended (exe : Exe) (fuel : Nat) (a3 : Analysis)
    (h : analysisUpToTarjan exe fuel = some a3) :
    a3.topologicalOrder =
      sortBy (cfgOrderD a3.cfgNodes) (nkeys a3.cfgNodes) ∧
    a3.topologicalOrder.Perm (nkeys a3.cfgNodes) ∧
    List.Pairwise (fun u v => cfgOrderD a3.cfgNodes u v ≠ .gt)
      a3.topologicalOrder ∧
    (a3.cfgNodes.length < SENTINEL →
      ∀ u nu, nfind? a3.cfgNodes u = some nu →
        ∀ d ∈ nu.destinations, ∀ nd, nfind? a3.cfgNodes d = some nd →
          nd.sccId ≤ nu.sccId ∧
          (nd.sccId ≠ nu.sccId →
            ∀ i j, a3.topologicalOrder.get? i = some u →
              a3.topologicalOrder.get? j = some d → i < j)) := by
  unfold analysisUpToTarjan at h
  simp only [bind, Option.bind_eq_some] at h
  obtain ⟨a1, ha1, htj⟩ := h
  have htopo0 : (labelBasicBlocks a1).topologicalOrder = [] := by
    show a1.topologicalOrder = []
    exact (afterSplit_frame exe a1 ha1).2.1
  have hsorted := tarjan_topo_sorted fuel (labelBasicBlocks a1) a3 htj htopo0
  have hpair : List.Pairwise (fun u v => cfgOrderD a3.cfgNodes u v ≠ .gt)
      a3.topologicalOrder := by
    rw [hsorted]
    exact sortBy_pairwise (cfgOrderD a3.cfgNodes)
      (cfgOrderD_total a3.cfgNodes) (cfgOrderD_eq_not_gt a3.cfgNodes)
      (cfgOrderD_trans a3.cfgNodes) (nkeys a3.cfgNodes)
  refine ⟨hsorted, by rw [hsorted]; exact sortBy_perm _ _, hpair, ?_⟩
  intro hlt u nu hu d hd nd hnd
  have hle := tarjan_edges_le exe fuel a1 a3 ha1 htj hlt u nu hu d hd nd hnd
  refine ⟨hle, ?_⟩
  intro hne i j hgi hgj
  have hltscc : nd.sccId < nu.sccId := lt_of_le_of_ne hle hne
  by_contra hij
  have hji : j ≤ i := Nat.le_of_not_lt hij
  obtain ⟨hilt, hgeti⟩ := List.get?_eq_some.mp hgi
  obtain ⟨hjlt, hgetj⟩ := List.get?_eq_some.mp hgj
  by_cases heq : j = i
  · subst heq
    rw [hgi] at hgj
    injection hgj with hud
    rw [← hud] at hnd
    rw [hu] at hnd
    injection hnd with hnund
    exact hne (by rw [hnund])
  · have hjlt2 : j < i := by omega
    have hp := List.pairwise_iff_get.mp hpair ⟨j, hjlt⟩ ⟨i, hilt⟩ hjlt2
    rw [hgetj, hgeti] at hp
    refine hp ?_
    unfold cfgOrderD cfgOrderOf
    rw [hnd, hu]
    show ((compare nu.sccId nd.sccId).then
      (compare nu.indexInScc nd.indexInScc)) = .gt
    rw [Nat.compare_eq_gt.mpr hltscc]
    rfl

/-- Witness for `claim_C3_amended` at the single-`exit` program. -/
theorem claim_C3_amended_witness :
    analysisUpToTarjan exeExit 50 = some exeExitA3 ∧
    (exeExitA3.topologicalOrder =
      sortBy (cfgOrderD exeExitA3.cfgNodes) (nkeys exeExitA3.cfgNodes) ∧
     exeExitA3.topologicalOrder.Perm (nkeys exeExitA3.cfgNodes) ∧
     List.Pairwise (fun u v => cfgOrderD exeExitA3.cfgNodes u v ≠ .gt)
       exeExitA3.topologicalOrder ∧
     (exeExitA3.cfgNodes.length < SENTINEL →
       ∀ u nu, nfind? exeExitA3.cfgNodes u = some nu →
         ∀ d ∈ nu.destinations, ∀ nd,
           nfind? exeExitA3.cfgNodes d = some nd →
           nd.sccId ≤ nu.sccId ∧
           (nd.sccId ≠ nu.sccId →
             ∀ i j, exeExitA3.topologicalOrder.get? i = some u →
               exeExitA3.topologicalOrder.get? j = some d → i < j))) :=
  ⟨by decide, claim_C3_amended exeExit 50 exeExitA3 (by decide)⟩

end SolanaRpdf
